import Mathlib

/-!
Corsair: request-dispatch pipeline.

A shallow embedding of the request-dispatch pipeline of the corsair gateway
(`middleware/cors.go`, `middleware/trailing_slash.go`, `server/server.go`,
`handlers/forward.go`, `handlers/proxy.go`, `config/config.go`).

Go strings are embedded as Lean strings.  The byte-wise operations of the
source (`strings.HasPrefix`, `allowed[2:]`, `path[0]`, ...) are only ever
applied with ASCII separators (`"*."`, `"/"`, `"."`), for which byte-wise and
character-wise slicing agree.
-/

namespace Corsair

/-! ## The parts of Go's `strings` package used by the source -/

namespace strings

/-- Go `strings.HasPrefix(s, pre)`. -/
def HasPrefix (s pre : String) : Bool := pre.data.isPrefixOf s.data

/-- Go `strings.HasSuffix(s, suf)`. -/
def HasSuffix (s suf : String) : Bool := suf.data.isSuffixOf s.data

/-- Go `strings.TrimPrefix(s, pre)`: `s` without the leading `pre`, if it has one. -/
def TrimPrefix (s pre : String) : String :=
  if HasPrefix s pre then ⟨s.data.drop pre.data.length⟩ else s

/-- Go `strings.TrimSuffix(s, suf)`: `s` without the trailing `suf`, if it has one. -/
def TrimSuffix (s suf : String) : String :=
  if HasSuffix s suf then ⟨s.data.take (s.data.length - suf.data.length)⟩ else s

/-- Substring search on character lists: is `sub` a prefix of some tail of the list. -/
def containsList (sub : List Char) : List Char → Bool
  | [] => sub.isPrefixOf []
  | c :: cs => sub.isPrefixOf (c :: cs) || containsList sub cs

/-- Go `strings.Contains(s, sub)`. -/
def Contains (s sub : String) : Bool := containsList sub.data s.data

/-- Scan for `strings.LastIndex`: `i` is the index of the head of the list,
`last` the last match seen so far. -/
def lastIndexFrom (sub : List Char) : List Char → Int → Int → Int
  | [], i, last => if sub.isPrefixOf [] then i else last
  | c :: cs, i, last =>
      lastIndexFrom sub cs (i + 1) (if sub.isPrefixOf (c :: cs) then i else last)

/-- Go `strings.LastIndex(s, sub)`: index of the last occurrence of `sub` in `s`, or `-1`. -/
def LastIndex (s sub : String) : Int := lastIndexFrom sub.data s.data 0 (-1)

/-- Go slice expression `s[i:]` for an index `i ≥ 0`. -/
def sliceFrom (s : String) (i : Int) : String := ⟨s.data.drop i.toNat⟩

end strings

/-! ## HTTP data model (`net/http`) -/

/-- Go `http.Header`: a map from header name to its list of values, kept as an
association list.  The operations below take the key in canonical MIME form:
the keys used by the middleware are string literals that already are canonical,
and the handlers canonicalise configured and copied keys with
`textproto.CanonicalMIMEHeaderKey` before they call them. -/
abbrev Header := List (String × List String)

namespace textproto

/-- Go `validHeaderFieldByte`: the bytes allowed in a header field name (RFC 7230 token). -/
def validHeaderFieldByte (c : Char) : Bool :=
  c.isAlphanum || "!#$%&'*+-.^_`|~".data.contains c

/-- The rewriting loop of Go `canonicalMIMEHeaderKey`: upper case for the first
letter and for a letter after a dash, lower case elsewhere. -/
def canonicalChars : Bool → List Char → List Char
  | _, [] => []
  | upper, c :: cs =>
      let c := if upper && c.isLower then c.toUpper
        else if !upper && c.isUpper then c.toLower else c
      c :: canonicalChars (c == '-') cs

/-- Go `textproto.CanonicalMIMEHeaderKey`: a key holding a byte that is not
allowed in a field name is returned unchanged. -/
def CanonicalMIMEHeaderKey (s : String) : String :=
  if s.data.all validHeaderFieldByte then ⟨canonicalChars true s.data⟩ else s

end textproto

namespace Header

/-- Values stored under `key` (`h[key]`), empty when the key is absent. -/
def Values (h : Header) (key : String) : List String :=
  match h.lookup key with
  | some vs => vs
  | none => []

/-- Go `Header.Get`: the first value stored under `key`, or `""`. -/
def Get (h : Header) (key : String) : String :=
  match h.Values key with
  | v :: _ => v
  | [] => ""

/-- Go `Header.Set`: replace whatever is stored under `key` by the single value `value`. -/
def Set (h : Header) (key value : String) : Header :=
  (key, [value]) :: h.filter (fun e => e.1 != key)

/-- Go `Header.Add`: append `value` to the values stored under `key`. -/
def Add (h : Header) (key value : String) : Header :=
  (key, h.Values key ++ [value]) :: h.filter (fun e => e.1 != key)

end Header

/-- Go `url.URL`; `User` is the `*Userinfo` (user name and, when set, password). -/
structure URL where
  Scheme : String := ""
  Opaque : String := ""
  User : Option (String × Option String) := none
  Host : String := ""
  Path : String := ""
  RawPath : String := ""
  OmitHost : Bool := false
  ForceQuery : Bool := false
  RawQuery : String := ""
  Fragment : String := ""
  RawFragment : String := ""
  deriving DecidableEq, Repr

/-- Go `url.Values`: parsed query parameters. -/
abbrev Values := List (String × List String)

/-- The fields of an inbound `http.Request` used by the pipeline. -/
structure Request where
  Method : String := "GET"
  URL : URL := {}
  ProtoMajor : Nat := 1
  ProtoMinor : Nat := 1
  Header : Header := []
  Body : String := ""
  Host : String := ""
  RequestURI : String := ""
  deriving DecidableEq, Repr

/-- The observable state of an `http.ResponseWriter`: the header map, the
status code once one has been written, and the body written so far. -/
structure ResponseWriter where
  header : Header := []
  status : Option Nat := none
  body : String := ""
  deriving DecidableEq, Repr

namespace ResponseWriter

/-- Go `w.WriteHeader(code)`: the first call fixes the status; later calls are ignored. -/
def WriteHeader (w : ResponseWriter) (code : Nat) : ResponseWriter :=
  match w.status with
  | none => { w with status := some code }
  | some _ => w

/-- Go `w.Write(data)`: writes status 200 first if none was written yet. -/
def Write (w : ResponseWriter) (data : String) : ResponseWriter :=
  let w1 := w.WriteHeader 200
  { w1 with body := w1.body ++ data }

/-- Go `w.Header().Set(key, value)`. -/
def SetHeader (w : ResponseWriter) (key value : String) : ResponseWriter :=
  { w with header := w.header.Set key value }

end ResponseWriter

/-- Go `http.Handler`: a handler transforms the response writer given the request. -/
abbrev Handler := Request → ResponseWriter → ResponseWriter

/-! ## Configuration (`config/config.go`) -/

/-- Go `config.CORSConfig`. -/
structure CORSConfig where
  Origins : List String := []
  Methods : String := ""
  Headers : String := ""
  Credentials : Bool := false
  deriving DecidableEq, Repr

/-- Go `(*CORSConfig).WildcardOriginAllowed`: `slices.Contains(c.Origins, "*")`. -/
def CORSConfig.WildcardOriginAllowed (c : CORSConfig) : Bool := c.Origins.contains "*"

/-! ## CORS middleware (`middleware/cors.go`) -/

/-- The `for _, allowed := range allowedOrigins` loop of `isOriginAllowed`. -/
def isOriginAllowed.loop (origin : String) : List String → Bool
  | [] => false
  | allowed :: rest =>
      if allowed = "*" || allowed = origin then true
      else if strings.HasPrefix allowed "*." &&
          strings.HasSuffix origin ("." ++ strings.sliceFrom allowed 2) then true
      else isOriginAllowed.loop origin rest

/-- Go `isOriginAllowed(origin, allowedOrigins)`. -/
def isOriginAllowed (origin : String) (allowedOrigins : List String) : Bool :=
  if origin = "" then false else isOriginAllowed.loop origin allowedOrigins

/-- The value of the local `allowedOrigin` computed by the `CORS` handler. -/
def CORS.allowedOrigin (corsConfig : CORSConfig) (origin : String) : String :=
  if corsConfig.WildcardOriginAllowed && !corsConfig.Credentials then "*"
  else if isOriginAllowed origin corsConfig.Origins then origin
  else ""

/-- The header-emitting part of the `CORS` handler: everything before the
`OPTIONS` test. -/
def CORS.emit (corsConfig : CORSConfig) (r : Request) (w : ResponseWriter) : ResponseWriter :=
  let origin := r.Header.Get "Origin"
  let allowedOrigin := CORS.allowedOrigin corsConfig origin
  let w := if allowedOrigin ≠ "" then w.SetHeader "Access-Control-Allow-Origin" allowedOrigin else w
  let w := if corsConfig.Methods ≠ "" then
    w.SetHeader "Access-Control-Allow-Methods" corsConfig.Methods else w
  let w := if corsConfig.Headers ≠ "" then
    w.SetHeader "Access-Control-Allow-Headers" corsConfig.Headers else w
  if corsConfig.Credentials then w.SetHeader "Access-Control-Allow-Credentials" "true" else w

/-- Go `middleware.CORS(corsConfig)(next)`. -/
def CORS (corsConfig : CORSConfig) (next : Handler) : Handler := fun r w =>
  let w := CORS.emit corsConfig r w
  if r.Method = "OPTIONS" then
    (w.SetHeader "Access-Control-Max-Age" "86400").WriteHeader 200
  else
    next r w

/-! ## Trailing-slash normaliser (`middleware/trailing_slash.go`) -/

/-- The path the `TrailingSlash` handler hands downstream for request path `path`. -/
def TrailingSlash.normalize (path : String) : String :=
  if path ≠ "/" && !strings.HasSuffix path "/" &&
      !strings.Contains (strings.sliceFrom path (strings.LastIndex path "/" + 1)) "." then
    path ++ "/"
  else path

/-- Go `middleware.TrailingSlash()(next)`. -/
def TrailingSlash (next : Handler) : Handler := fun r w =>
  let path := r.URL.Path
  if path ≠ "/" && !strings.HasSuffix path "/" &&
      !strings.Contains (strings.sliceFrom path (strings.LastIndex path "/" + 1)) "." then
    next { r with URL := { r.URL with Path := path ++ "/" } } w
  else next r w

/-! ## Configuration records (`config/config.go`) -/

/-- Go `config.ServerConfig`; `ForwardEndpointEnabled` is a `*bool`. -/
structure ServerConfig where
  Address : String := ""
  Port : Int := 0
  ForwardEndpointEnabled : Option Bool := none
  DefaultTimeout : String := ""
  deriving DecidableEq, Repr

/-- Go `config.Endpoint`; each `map[string]string` is an association list with
distinct keys. -/
structure Endpoint where
  Path : String := ""
  RemoteURL : String := ""
  Headers : List (List (String × String)) := []
  QueryParams : List (List (String × String)) := []
  Timeout : String := ""
  deriving DecidableEq, Repr

/-- Go `config.Config` (the logging section plays no part in request handling). -/
structure Config where
  Server : ServerConfig := {}
  CORS : CORSConfig := {}
  Endpoints : List Endpoint := []
  deriving DecidableEq, Repr

/-! ## Routing (`server/server.go` over `net/http.ServeMux`) -/

/-- The handler registered under a pattern: `corsMiddleware(ForwardHandler(cfg))`
or `corsMiddleware(ProxyHandler(endpoint, cfg))`. -/
inductive RouteTarget where
  | forward
  | endpoint (e : Endpoint)
  deriving DecidableEq, Repr

/-! ### Percent-escaping of paths (`net/url`) -/

/-- The UTF-8 encoding of a character (Go strings are byte strings). -/
def url.utf8Bytes (c : Char) : List Nat :=
  if c.toNat < 128 then [c.toNat]
  else if c.toNat < 2048 then [192 + c.toNat / 64, 128 + c.toNat % 64]
  else if c.toNat < 65536 then
    [224 + c.toNat / 4096, 128 + c.toNat / 64 % 64, 128 + c.toNat % 64]
  else
    [240 + c.toNat / 262144, 128 + c.toNat / 4096 % 64, 128 + c.toNat / 64 % 64,
      128 + c.toNat % 64]

/-- The characters of a UTF-8 byte sequence, read with at most the given number
of steps; a byte that begins no complete sequence is read as the character of
its code. -/
def url.utf8Decode : Nat → List Nat → List Char
  | 0, _ => []
  | _, [] => []
  | n + 1, b :: rest =>
      let k := if b < 192 then 0 else if b < 224 then 1 else if b < 240 then 2
        else if b < 248 then 3 else 0
      if rest.length < k then Char.ofNat b :: url.utf8Decode n rest
      else
        Char.ofNat ((rest.take k).foldl (fun acc x => acc * 64 + (x - 128))
            (if b < 192 then b else if b < 224 then b - 192 else if b < 240 then b - 224
              else b - 240))
          :: url.utf8Decode n (rest.drop k)

/-- Go `shouldEscape(c, encodePath)` of `net/url` on a byte: letters, digits and
the marks `-_.~$&+,/:;=@` stay as they are. -/
def url.shouldEscape (c : Nat) : Bool :=
  !((97 ≤ c && c ≤ 122) || (65 ≤ c && c ≤ 90) || (48 ≤ c && c ≤ 57) ||
    [45, 95, 46, 126, 36, 38, 43, 44, 47, 58, 59, 61, 64].contains c)

/-- The upper-case hexadecimal digit of a number below sixteen. -/
def url.hexDigit (n : Nat) : Char := Char.ofNat (if n < 10 then 48 + n else 55 + n)

/-- The value of a hexadecimal digit (`unhex` of `net/url`). -/
def url.unhex (c : Char) : Option Nat :=
  if 48 ≤ c.toNat && c.toNat ≤ 57 then some (c.toNat - 48)
  else if 97 ≤ c.toNat && c.toNat ≤ 102 then some (c.toNat - 87)
  else if 65 ≤ c.toNat && c.toNat ≤ 70 then some (c.toNat - 55)
  else none

/-- The escaped form of a list of bytes. -/
def url.escapeBytes : List Nat → List Char
  | [] => []
  | b :: bs => '%' :: url.hexDigit (b / 16) :: url.hexDigit (b % 16) :: url.escapeBytes bs

/-- Go `escape(s, encodePath)` of `net/url`: every byte that `shouldEscape`
names becomes `%XX`. -/
def url.escape : List Char → List Char
  | [] => []
  | c :: cs =>
      (if c.toNat < 128 && !url.shouldEscape c.toNat then [c]
        else url.escapeBytes (url.utf8Bytes c)) ++ url.escape cs

/-- The decoding pass of Go `unescape` of `net/url` in a path mode: the bytes of
the string with every `%XX` replaced by the byte of that code, `none` when a `%`
is not followed by two hexadecimal digits. -/
def url.unescape.bytes : List Char → Option (List Nat)
  | c :: a :: b :: rest =>
      if c = '%' then
        match url.unhex a, url.unhex b, url.unescape.bytes rest with
        | some x, some y, some bs => some ((16 * x + y) :: bs)
        | _, _, _ => none
      else (url.unescape.bytes (a :: b :: rest)).map (fun bs => url.utf8Bytes c ++ bs)
  | c :: rest =>
      if c = '%' then none
      else (url.unescape.bytes rest).map (fun bs => url.utf8Bytes c ++ bs)
  | [] => some []

/-- Go `unescape(s, encodePath)` and `url.PathUnescape`: a string without `%`
is returned as it is. -/
def url.unescape (s : List Char) : Option (List Char) :=
  if !s.contains '%' then some s
  else (url.unescape.bytes s).map (fun bs => url.utf8Decode bs.length bs)

/-- Go `validEncoded(s, encodePath)` of `net/url`. -/
def url.validEncoded (s : List Char) : Bool :=
  s.all fun c =>
    [33, 36, 38, 39, 40, 41, 42, 43, 44, 59, 61, 58, 64, 91, 93, 37].contains c.toNat ||
      (c.toNat < 128 && !url.shouldEscape c.toNat)

/-- Go `(*URL).EscapedPath`: the raw path when it is a valid encoding of the
path, else the path escaped. -/
def URL.EscapedPath (u : URL) : String :=
  if u.RawPath ≠ "" && url.validEncoded u.RawPath.data &&
      url.unescape u.RawPath.data = some u.Path.data then u.RawPath
  else if u.Path = "*" then "*"
  else String.mk (url.escape u.Path.data)

/-! ### The request multiplexer (`net/http.ServeMux`, `pattern.go`, `routing_tree.go`) -/

/-- Model of `net/http.ServeMux` (Go 1.22 and later): the registered patterns
with their handlers, in registration order.  A pattern is parsed when it is
registered and when a request is matched. -/
structure ServeMux where
  entries : List (String × RouteTarget) := []
  deriving DecidableEq, Repr

/-- Outcome of the mux's handler selection for a request: a registered handler,
the redirect handler for a URL (a path and the request's query), the not-found
handler, the method-not-allowed handler with its `Allow` list, or the
bad-request answer the mux gives itself to the request URI `*`. -/
inductive MuxResult where
  | handler (t : RouteTarget)
  | redirect (location : URL)
  | notFound
  | methodNotAllowed (allow : List String)
  | badRequest
  deriving DecidableEq, Repr

namespace ServeMux

/-- Go `path.Clean` on the segments of a rooted path: empty and `.` segments are
dropped, `..` removes the segment before it (and is dropped at the root). -/
def cleanSegments : List String → List String → List String
  | [], acc => acc.reverse
  | seg :: rest, acc =>
      if seg = "" || seg = "." then cleanSegments rest acc
      else if seg = ".." then cleanSegments rest acc.tail
      else cleanSegments rest (seg :: acc)

/-- Split a character list at every `/`. -/
def splitSlash : List Char → List (List Char)
  | [] => [[]]
  | c :: cs =>
      match splitSlash cs with
      | [] => [[]]
      | seg :: segs => if c = '/' then [] :: seg :: segs else (c :: seg) :: segs

/-- Go `cleanPath` of `net/http/server.go`: the canonical form of a request
path, keeping a trailing slash. -/
def cleanPath (p : String) : String :=
  if p = "" then "/"
  else
    let p := if p.data.head? ≠ some '/' then "/" ++ p else p
    let segs := cleanSegments ((splitSlash p.data).map String.mk) []
    let np := "/" ++ "/".intercalate segs
    if strings.HasSuffix p "/" && np ≠ "/" then np ++ "/" else np

/-- Go `segment` of `net/http/pattern.go`: a literal, a wildcard with its name,
or a multi wildcard; the segment of a trailing slash is an anonymous multi
wildcard and the one of `{$}` is the literal `/`. -/
structure Segment where
  s : String := ""
  wild : Bool := false
  multi : Bool := false
  deriving DecidableEq, Repr

/-- Go `pattern` of `net/http/pattern.go`. -/
structure Pattern where
  method : String := ""
  host : String := ""
  segments : List Segment := []
  deriving DecidableEq, Repr

/-- Go `httpguts.IsTokenRune`. -/
def isTokenRune (c : Char) : Bool :=
  ('a' ≤ c && c ≤ 'z') || ('A' ≤ c && c ≤ 'Z') || ('0' ≤ c && c ≤ '9') ||
    [33, 35, 36, 37, 38, 39, 42, 43, 45, 46, 94, 95, 96, 124, 126].contains c.toNat

/-- Go `validMethod`: a non-empty token. -/
def validMethod (method : List Char) : Bool :=
  method ≠ [] && method.all isTokenRune

/-- Go `pathUnescape` of `net/http/pattern.go`: `url.PathUnescape`, or the
segment as written when that fails. -/
def pathUnescape (seg : List Char) : List Char :=
  match url.unescape seg with
  | some cs => cs
  | none => seg

/-- Go `isValidWildcardName`: a Go identifier (characters outside ASCII are
taken as letters). -/
def isValidWildcardName (name : List Char) : Bool :=
  name ≠ [] &&
  (name.head?.all fun c =>
    ('a' ≤ c && c ≤ 'z') || ('A' ≤ c && c ≤ 'Z') || c = '_' || 128 ≤ c.toNat) &&
  name.all fun c =>
    ('a' ≤ c && c ≤ 'z') || ('A' ≤ c && c ≤ 'Z') || c = '_' || ('0' ≤ c && c ≤ '9') ||
      128 ≤ c.toNat

/-- The segment loop of `parsePattern` on the pieces of the path between its
slashes, `seen` being the wildcard names read so far; `none` is an error. -/
def parsePattern.segments : List (List Char) → List String → Option (List Segment)
  | [], _ => some []
  | seg :: rest, seen =>
      if rest = [] && seg = [] then some [{ wild := true, multi := true }]
      else if !seg.contains '{' then
        (parsePattern.segments rest seen).map
          (fun segs => { s := String.mk (pathUnescape seg) } :: segs)
      else if seg.head? ≠ some '{' then none
      else if seg.getLast? ≠ some '}' then none
      else
        let name := (seg.drop 1).dropLast
        if name = ['$'] then
          if rest ≠ [] then none else some [{ s := "/" }]
        else
          let multi := ['.', '.', '.'].isSuffixOf name
          let name := if multi then name.take (name.length - 3) else name
          if multi && rest ≠ [] then none
          else if name = [] then none
          else if !isValidWildcardName name then none
          else if seen.contains (String.mk name) then none
          else
            (parsePattern.segments rest (String.mk name :: seen)).map
              (fun segs => { s := String.mk name, wild := true, multi := multi } :: segs)

/-- Go `parsePattern` of `net/http/pattern.go` on `[METHOD ][HOST]/[PATH]`;
`none` is an error, on which `mux.Handle` panics. -/
def parsePattern (s : String) : Option Pattern :=
  if s = "" then none
  else
    let isBlank := fun (c : Char) => c = ' ' || c.toNat = 9
    let found := s.data.any isBlank
    let method := if found then s.data.takeWhile (fun c => !isBlank c) else []
    let rest :=
      if found then ((s.data.dropWhile (fun c => !isBlank c)).drop 1).dropWhile isBlank
      else s.data
    if method ≠ [] && !validMethod method then none
    else if !rest.contains '/' then none
    else
      let host := rest.takeWhile (fun c => c ≠ '/')
      let path := rest.dropWhile (fun c => c ≠ '/')
      if host.contains '{' then none
      else if method ≠ [] && String.mk method ≠ "CONNECT" &&
          String.mk path ≠ cleanPath (String.mk path) then none
      else
        match parsePattern.segments (splitSlash (path.drop 1)) [] with
        | none => none
        | some segs =>
            some { method := String.mk method, host := String.mk host, segments := segs }

/-- Go `relationship` of `net/http/pattern.go`. -/
inductive Relationship where
  | equivalent
  | moreGeneral
  | moreSpecific
  | disjoint
  | overlaps
  deriving DecidableEq, Repr

/-- Go `compareSegments`. -/
def compareSegments (s1 s2 : Segment) : Relationship :=
  if s1.multi && s2.multi then .equivalent
  else if s1.multi then .moreGeneral
  else if s2.multi then .moreSpecific
  else if s1.wild && s2.wild then .equivalent
  else if s1.wild then (if s2.s = "/" then .disjoint else .moreGeneral)
  else if s2.wild then (if s1.s = "/" then .disjoint else .moreSpecific)
  else if s1.s = s2.s then .equivalent
  else .disjoint

/-- Go `combineRelationships`. -/
def combineRelationships : Relationship → Relationship → Relationship
  | .equivalent, r2 => r2
  | .disjoint, _ => .disjoint
  | .overlaps, r2 => if r2 = .disjoint then .disjoint else .overlaps
  | .moreGeneral, r2 =>
      if r2 = .equivalent then .moreGeneral
      else if r2 = .moreSpecific then .overlaps
      else r2
  | .moreSpecific, r2 =>
      if r2 = .equivalent then .moreSpecific
      else if r2 = .moreGeneral then .overlaps
      else r2

/-- Does the last segment of the pattern stand for a multi wildcard. -/
def Pattern.lastMulti (p : Pattern) : Bool :=
  match p.segments.getLast? with
  | some seg => seg.multi
  | none => false

/-- The segment loop of Go `comparePaths`, `multi1` and `multi2` telling whether
the patterns end in a multi wildcard. -/
def comparePaths.loop (multi1 multi2 : Bool) :
    Relationship → List Segment → List Segment → Relationship
  | rel, s1 :: segs1, s2 :: segs2 =>
      if combineRelationships rel (compareSegments s1 s2) = .disjoint then .disjoint
      else comparePaths.loop multi1 multi2
        (combineRelationships rel (compareSegments s1 s2)) segs1 segs2
  | rel, [], [] => rel
  | rel, [], _ :: _ => if multi1 then combineRelationships rel .moreGeneral else .disjoint
  | rel, _ :: _, [] => if multi2 then combineRelationships rel .moreSpecific else .disjoint

/-- Go `(*pattern).comparePaths`. -/
def Pattern.comparePaths (p1 p2 : Pattern) : Relationship :=
  if p1.segments.length ≠ p2.segments.length && !p1.lastMulti && !p2.lastMulti then .disjoint
  else comparePaths.loop p1.lastMulti p2.lastMulti .equivalent p1.segments p2.segments

/-- Go `(*pattern).compareMethods`. -/
def Pattern.compareMethods (p1 p2 : Pattern) : Relationship :=
  if p1.method = p2.method then .equivalent
  else if p1.method = "" then .moreGeneral
  else if p2.method = "" then .moreSpecific
  else if p1.method = "GET" && p2.method = "HEAD" then .moreGeneral
  else if p2.method = "GET" && p1.method = "HEAD" then .moreSpecific
  else .disjoint

/-- Go `(*pattern).conflictsWith`. -/
def Pattern.conflictsWith (p1 p2 : Pattern) : Bool :=
  if p1.host ≠ p2.host then false
  else if p1.compareMethods p2 = .disjoint then false
  else
    let rel := combineRelationships (p1.compareMethods p2) (p1.comparePaths p2)
    rel = .equivalent || rel = .overlaps

/-- The key under which the routing tree files the child of a segment that is
no multi wildcard: the empty string for a wildcard, the text of a literal. -/
def Segment.key (seg : Segment) : String := if seg.wild then "" else seg.s

/-- Do the two patterns end at the same leaf of the routing tree, where
`routingNode.set` panics on the second of them. -/
def Pattern.sameLeaf (p1 p2 : Pattern) : Bool :=
  p1.host = p2.host && p1.method = p2.method && !p1.lastMulti && !p2.lastMulti &&
    p1.segments.map Segment.key = p2.segments.map Segment.key

/-- Go `mux.Handle(pattern, handler)`: panics (here: `none`) on a pattern that
does not parse, on a pattern that conflicts with a registered one, and when the
routing tree already holds a pattern at the new pattern's leaf. -/
def Handle (mux : ServeMux) (pattern : String) (t : RouteTarget) : Option ServeMux :=
  match parsePattern pattern with
  | none => none
  | some p =>
      if mux.entries.any (fun e =>
          match parsePattern e.1 with
          | some p2 => p.conflictsWith p2 || p.sameLeaf p2
          | none => false) then none
      else some { entries := mux.entries ++ [(pattern, t)] }

/-- Go `(*routingNode).findChild(key)` on the patterns of a node of the routing
tree, each with the segments below the node: the patterns below the child for
`key`.  `addSegments` files a literal segment under its text and a single
wildcard under the empty string, so that an empty literal segment shares the
child of the wildcard (`emptyChild`). -/
def findChild {α : Type} (key : String) (cands : List (List Segment × α)) :
    List (List Segment × α) :=
  cands.filterMap (fun c =>
    match c.1 with
    | sg :: tl => if !sg.multi && sg.key = key then some (tl, c.2) else none
    | [] => none)

/-- The pattern at the `multiChild` of a node: the pattern registered last
among those with a multi wildcard at this place. -/
def multiChild {α : Type} (cands : List (List Segment × α)) : Option α :=
  ((cands.filter (fun c =>
    match c.1 with
    | sg :: _ => sg.multi
    | [] => false)).getLast?).map (fun c => c.2)

/-- Go `(*routingNode).matchPath` on the patterns of a node and on the segments
of the rest of the path (the trailing slash being the segment `/`): at the end
of the path the pattern that ends at the node; else the child of the literal
segment is tried first, then the child of the single wildcard (not for the
trailing slash), then the multi wildcard. -/
def matchPath {α : Type} : List (List Segment × α) → List String → Option α
  | cands, [] => (cands.find? (fun c => c.1.isEmpty)).map (fun c => c.2)
  | cands, seg :: rest =>
      match matchPath (findChild seg cands) rest with
      | some found => some found
      | none =>
          match (if seg ≠ "/" then matchPath (findChild "" cands) rest else none) with
          | some found => some found
          | none => multiChild cands

/-- The segments Go `firstSegment` reads off the rest of a path, given as the
pieces between its slashes: each piece unescaped, an empty last piece being the
trailing slash, which is the segment `/`. -/
def pathSegments.loop : List (List Char) → List String
  | [] => []
  | piece :: rest =>
      if rest = [] then (if piece = [] then ["/"] else [String.mk (pathUnescape piece)])
      else String.mk (pathUnescape piece) :: pathSegments.loop rest

/-- The segments Go `firstSegment` reads off a request path one call after the
other (`matchPath` stops at the empty path): the path `/` is the segment `/`;
otherwise the first character is dropped, the segment is the unescaped text up
to the next slash, and the rest goes on from that slash. -/
def pathSegments (path : String) : List String :=
  if path = "" then []
  else if path = "/" then ["/"]
  else if path.data.drop 1 = [] then [""]
  else pathSegments.loop (splitSlash (path.data.drop 1))

/-- A registered pattern as the routing tree holds it. -/
abbrev Route := Pattern × String × RouteTarget

/-- The registered patterns in their parsed form. -/
def routes (mux : ServeMux) : List Route :=
  mux.entries.filterMap (fun e => (parsePattern e.1).map (fun p => (p, e.1, e.2)))

/-- Go `(*routingNode).matchMethodAndPath` on the patterns of one host. -/
def matchMethodAndPath (routes : List Route) (method path : String) : Option Route :=
  let under := fun (m : String) =>
    matchPath ((routes.filter (fun x => x.1.method = m)).map (fun x => (x.1.segments, x)))
      (pathSegments path)
  match under method with
  | some found => some found
  | none =>
      match (if method = "HEAD" then under "GET" else none) with
      | some found => some found
      | none => under ""

/-- Go `(*routingNode).match` at the root of the routing tree: the patterns of
the request's host are tried before the patterns without host. -/
def treeMatch (mux : ServeMux) (host method path : String) : Option Route :=
  match (if host ≠ "" then
      matchMethodAndPath (mux.routes.filter (fun x => x.1.host = host)) method path
    else none) with
  | some found => some found
  | none => matchMethodAndPath (mux.routes.filter (fun x => x.1.host = "")) method path

/-- Go `exactMatch`: a match is exact unless a multi wildcard matched a
non-empty text. -/
def exactMatch (n : Option Route) (path : String) : Bool :=
  match n with
  | none => false
  | some x =>
      if !x.1.lastMulti then true
      else if path ≠ "" && path.data.getLast? ≠ some '/' then false
      else x.1.segments.length = path.data.count '/'

/-- Go `(*ServeMux).matchOrRedirect`: the matching pattern, or the URL to
redirect to when only the path with a trailing slash has an exact match (`u` is
the request's URL when the redirect is to be considered). -/
def matchOrRedirect (mux : ServeMux) (host method path : String) (u : Option URL) :
    Option Route × Option URL :=
  let n := mux.treeMatch host method path
  match u with
  | none => (n, none)
  | some u =>
      if !exactMatch n path && !strings.HasSuffix path "/" &&
          exactMatch (mux.treeMatch host method (path ++ "/")) (path ++ "/") then
        (none, some { Path := cleanPath u.Path ++ "/", RawQuery := u.RawQuery })
      else (n, none)

/-- Go `net.SplitHostPort` as far as the host; `none` is an error. -/
def splitHost (hostport : List Char) : Option (List Char) :=
  if !hostport.contains ':' then none
  else
    let i := hostport.length - 1 - (hostport.reverse.takeWhile (fun c => c ≠ ':')).length
    if hostport.head? = some '[' then
      if !hostport.contains ']' then none
      else
        let e := (hostport.takeWhile (fun c => c ≠ ']')).length
        if e + 1 = hostport.length then none
        else if e + 1 ≠ i then none
        else if (hostport.drop 1).contains '[' then none
        else if (hostport.drop (e + 1)).contains ']' then none
        else some ((hostport.take e).drop 1)
    else
      let host := hostport.take i
      if host.contains ':' then none
      else if hostport.contains '[' then none
      else if hostport.contains ']' then none
      else some host

/-- Go `stripHostPort`. -/
def stripHostPort (h : String) : String :=
  if !h.data.contains ':' then h
  else
    match splitHost h.data with
    | some host => String.mk host
    | none => h

/-- Insert a method into a sorted list without repetition. -/
def insertMethod (m : String) : List String → List String
  | [] => [m]
  | x :: xs =>
      if m = x then x :: xs
      else if m.data < x.data then m :: x :: xs
      else x :: insertMethod m xs

/-- Go `(*ServeMux).matchingMethods`: the methods of the patterns that match the
path, or the path with a trailing slash, with another method. -/
def matchingMethods (mux : ServeMux) (host path : String) : List String :=
  let forPath := fun (path : String) (hostRoutes : List Route) =>
    ((hostRoutes.map (fun x => x.1.method)).filter (fun m =>
      m ≠ "" &&
      (matchPath ((hostRoutes.filter (fun x => x.1.method = m)).map
        (fun x => (x.1.segments, x))) (pathSegments path)).isSome))
  let groups := (if host ≠ "" then [mux.routes.filter (fun x => x.1.host = host)] else []) ++
    [mux.routes.filter (fun x => x.1.host = "")]
  let found := (groups.map (forPath path)).flatten ++
    (if !strings.HasSuffix path "/" then (groups.map (forPath (path ++ "/"))).flatten else [])
  let found := if found.contains "GET" then "HEAD" :: found else found
  found.foldr insertMethod []

/-- Go `(*ServeMux).findHandler` on the escaped path of the request: for a
request other than `CONNECT` the port is stripped from the host and the path is
cleaned, and a request whose path is not clean is redirected to the clean one. -/
def findHandler (mux : ServeMux) (r : Request) : MuxResult :=
  let escapedPath := r.URL.EscapedPath
  if r.Method = "CONNECT" then
    match mux.matchOrRedirect r.URL.Host r.Method escapedPath (some r.URL) with
    | (_, some u) => .redirect u
    | (_, none) =>
        match (mux.matchOrRedirect r.Host r.Method escapedPath none).1 with
        | some found => .handler found.2.2
        | none =>
            match mux.matchingMethods r.URL.Host escapedPath with
            | [] => .notFound
            | allow => .methodNotAllowed allow
  else
    let host := stripHostPort r.Host
    let path := cleanPath escapedPath
    match mux.matchOrRedirect host r.Method path (some r.URL) with
    | (_, some u) => .redirect u
    | (n, none) =>
        if path ≠ escapedPath then .redirect { Path := path, RawQuery := r.URL.RawQuery }
        else
          match n with
          | some found => .handler found.2.2
          | none =>
              match mux.matchingMethods host path with
              | [] => .notFound
              | allow => .methodNotAllowed allow

/-- Go `(*ServeMux).ServeHTTP` as a selection: the request URI `*` is answered
by the mux itself, any other request by the handler `findHandler` selects. -/
def serve (mux : ServeMux) (r : Request) : MuxResult :=
  if r.RequestURI = "*" then .badRequest else mux.findHandler r

/-- Go `mux.Handler(r)` for a `GET` request for `urlPath` that names no host. -/
def Handler (mux : ServeMux) (urlPath : String) : MuxResult :=
  mux.findHandler { URL := { Path := urlPath } }

/-- Segments that hold no single wildcard and no empty literal, the anonymous
multi wildcard of a trailing slash standing in the last place only: the
segments of a pattern that is a plain path. -/
def plainSegments : List Segment → Bool
  | [] => true
  | sg :: tl =>
      (sg.multi && sg.wild && sg.s = "" && tl.isEmpty) ||
        (!sg.multi && !sg.wild && sg.s ≠ "" && plainSegments tl)

/-- The paths a list of plain segments stands for, a path being given by its
segments: a literal stands for itself and a multi wildcard for every non-empty
rest. -/
def segmentsMatch : List Segment → List String → Bool
  | [], [] => true
  | [], _ :: _ => false
  | _ :: _, [] => false
  | sg :: tl, s :: rest => sg.multi || (sg.s = s && segmentsMatch tl rest)

/-- The segments `parsePattern` gives a path without wildcard and without
escape, split at its slashes: every piece is a literal and an empty last piece
(a trailing slash) the anonymous multi wildcard. -/
def literalSegments : List (List Char) → List Segment
  | [] => []
  | seg :: rest =>
      if rest = [] && seg = [] then [{ wild := true, multi := true }]
      else { s := String.mk seg } :: literalSegments rest

/-- A pattern that is a plain rooted path: it begins with `/`, holds no blank,
no `{` and no `%`, and no segment before the last is empty. -/
def literalPattern (pattern : String) : Bool :=
  pattern.data.head? = some '/' &&
  pattern.data.all (fun c => c ≠ ' ' && c.toNat ≠ 9 && c ≠ '{' && c ≠ '%') &&
  (splitSlash (pattern.data.drop 1)).dropLast.all (fun seg => seg ≠ [])

end ServeMux

/-- The pattern under which `registerRoutes` registers an endpoint configured
with `path`: a trailing slash is added when there is none. -/
def registeredPath (path : String) : String :=
  if !strings.HasSuffix path "/" then path ++ "/" else path

/-- Result of `registerRoutes`: the routing table and the two counters it logs. -/
structure Registration where
  mux : ServeMux := {}
  registeredCount : Nat := 0
  skippedCount : Nat := 0
  deriving DecidableEq, Repr

/-- The `for _, endpoint := range h.config.Endpoints` loop of `registerRoutes`. -/
def registerRoutes.loop : List Endpoint → Registration → Option Registration
  | [], reg => some reg
  | endpoint :: rest, reg =>
      let path := endpoint.Path
      if strings.TrimSuffix path "/" = "/forward" then
        registerRoutes.loop rest { reg with skippedCount := reg.skippedCount + 1 }
      else
        let path := if !strings.HasSuffix path "/" then path ++ "/" else path
        match reg.mux.Handle path (.endpoint endpoint) with
        | none => none
        | some mux =>
            registerRoutes.loop rest
              { reg with mux := mux, registeredCount := reg.registeredCount + 1 }

/-- Go `(*Handler).registerRoutes`; `none` stands for a panic raised by `mux.Handle`. -/
def registerRoutes (config : Config) : Option Registration :=
  let mux : ServeMux := {}
  let mux : Option ServeMux :=
    if config.Server.ForwardEndpointEnabled = some true then mux.Handle "/forward" .forward
    else some mux
  match mux with
  | none => none
  | some mux => registerRoutes.loop config.Endpoints { mux := mux }

/-- Go `(*Handler).ServeHTTP` seen as a routing decision: the handler the mux
selects for the path left by the `TrailingSlash` middleware. -/
def dispatch (mux : ServeMux) (r : Request) : MuxResult :=
  mux.serve { r with URL := { r.URL with Path := TrailingSlash.normalize r.URL.Path } }

/-! ## External collaborators (Go standard library, network, environment) -/

/-- The outbound request built by a handler (`proxyReq`); its URL is the one
`http.NewRequest` obtains by parsing `targetURL.String()`. -/
structure OutboundRequest where
  Method : String := "GET"
  URL : URL := {}
  Header : Header := []
  Host : String := ""
  Body : String := ""
  deriving DecidableEq, Repr

/-- The upstream's answer to an outbound request. -/
structure UpstreamResponse where
  StatusCode : Nat := 200
  Header : Header := []
  Body : String := ""
  deriving DecidableEq, Repr

/-- The library functions and the outside world the handlers call into, taken as
parameters: `url.Parse`, `(*URL).String`, `url.ParseQuery` (the values it
returns, also beside an error, as `(*URL).Query` uses it), `Values.Encode`,
`http.NewRequest(method, url, body)` as the URL of the request it creates, which
it obtains by parsing the string `url` (`none` when it fails),
`time.ParseDuration` (nanoseconds), `os.Getenv`, `(*http.Client).Do` under a
timeout (`none` is a transport error), and the handler
`http.RedirectHandler(url, code)` with the code the mux gives it. -/
structure Stdlib where
  urlParse : String → Option URL
  urlString : URL → String
  parseQuery : String → Values
  encodeQuery : Values → String
  newRequest : String → String → Option URL
  parseDuration : String → Option Int
  getenv : String → String
  clientDo : OutboundRequest → Int → Option UpstreamResponse
  redirect : String → Request → ResponseWriter → ResponseWriter

namespace Values

/-- Go `url.Values.Get`: first value of `key`, or `""`. -/
def Get (v : Values) (key : String) : String :=
  match v.lookup key with
  | some (x :: _) => x
  | _ => ""

/-- Go `url.Values.Set`: replace the values of `key` by the single `value`. -/
def Set (v : Values) (key value : String) : Values :=
  (key, [value]) :: v.filter (fun e => e.1 != key)

/-- All values of `key` (`v[key]`), empty when the key is absent. -/
def All (v : Values) (key : String) : List String :=
  match v.lookup key with
  | some xs => xs
  | none => []

end Values

/-- Go `http.Error(w, error, code)`. -/
def httpError (w : ResponseWriter) (error : String) (code : Nat) : ResponseWriter :=
  let w : ResponseWriter := { w with header := w.header.filter (fun e => e.1 != "Content-Length") }
  let w := w.SetHeader "Content-Type" "text/plain; charset=utf-8"
  let w := w.SetHeader "X-Content-Type-Options" "nosniff"
  (w.WriteHeader code).Write (error ++ "\n")

/-! ## Timeouts (`config/config.go`) -/

/-- Go `config.DEFAULT_TIMEOUT`, ten seconds in nanoseconds. -/
def DEFAULT_TIMEOUT : Int := 10 * 1000000000

/-- Go `(*Config).GetDefaultTimeout`. -/
def Config.GetDefaultTimeout (std : Stdlib) (c : Config) : Int :=
  match std.parseDuration c.Server.DefaultTimeout with
  | some timeout => timeout
  | none => DEFAULT_TIMEOUT

/-- Go `(*Config).GetEffectiveTimeout`. -/
def Config.GetEffectiveTimeout (std : Stdlib) (c : Config) (endpoint : Endpoint) : Int :=
  let timeoutStr := endpoint.Timeout
  if timeoutStr = "" then c.GetDefaultTimeout std
  else
    match std.parseDuration timeoutStr with
    | some duration => duration
    | none => DEFAULT_TIMEOUT

/-! ## Template resolution (`config/templates.go`) -/

/-- Go `unicode.IsSpace`. -/
def isSpace (c : Char) : Bool :=
  c = ' ' || (9 ≤ c.toNat && c.toNat ≤ 13) || c.toNat = 0x85 || c.toNat = 0xA0 ||
  c.toNat = 0x1680 || (0x2000 ≤ c.toNat && c.toNat ≤ 0x200A) || c.toNat = 0x2028 ||
  c.toNat = 0x2029 || c.toNat = 0x202F || c.toNat = 0x205F || c.toNat = 0x3000

/-- Go `strings.TrimSpace`. -/
def strings.TrimSpace (s : String) : String :=
  ⟨((s.data.dropWhile isSpace).reverse.dropWhile isSpace).reverse⟩

/-- A match of `templateRegex` (two opening braces, a non-empty run of
characters other than the closing brace, two closing braces) at the head of the
list: the matched text and what follows it. -/
def matchTemplate : List Char → Option (List Char × List Char)
  | '{' :: '{' :: rest =>
      match rest.takeWhile (fun c => c != '}'), rest.dropWhile (fun c => c != '}') with
      | x :: run, '}' :: '}' :: tail => some ('{' :: '{' :: (x :: run) ++ ['}', '}'], tail)
      | _, _ => none
  | _ => none

/-- The callback `ProcessTemplates` passes to `ReplaceAllStringFunc`. -/
def ProcessTemplates.replace (getenv : String → String) (m : List Char) : List Char :=
  let varName := strings.TrimSpace ⟨(m.drop 2).take (m.length - 4)⟩
  let value := getenv varName
  if value ≠ "" then value.data else m

/-- Go `ReplaceAllStringFunc` for `templateRegex`: replace the non-overlapping
leftmost matches, scanning left to right. -/
def ProcessTemplates.scan (getenv : String → String) : Nat → List Char → List Char
  | 0, cs => cs
  | _ + 1, [] => []
  | fuel + 1, c :: cs =>
      match matchTemplate (c :: cs) with
      | some (m, tail) =>
          ProcessTemplates.replace getenv m ++ ProcessTemplates.scan getenv fuel tail
      | none => c :: ProcessTemplates.scan getenv fuel cs

/-- Go `config.ProcessTemplates`. -/
def ProcessTemplates (getenv : String → String) (input : String) : String :=
  ⟨ProcessTemplates.scan getenv (input.data.length + 1) input.data⟩

/-- The text after two opening braces completes a placeholder: a non-empty run
without closing brace, then two closing braces. -/
def closesTemplate (rest : List Char) : Prop :=
  ∃ body tail, body ≠ [] ∧ (∀ c ∈ body, c ≠ '}') ∧ rest = body ++ '}' :: '}' :: tail

/-- The characters `ProcessTemplates` returns for the characters `cs`. -/
def ProcessTemplates.chars (getenv : String → String) (cs : List Char) : List Char :=
  ProcessTemplates.scan getenv (cs.length + 1) cs

/-- Go `config.ProcessEndpointTemplates`. -/
def ProcessEndpointTemplates (getenv : String → String) (endpoint : Endpoint) : Endpoint :=
  { endpoint with
    RemoteURL := ProcessTemplates getenv endpoint.RemoteURL
    Headers := endpoint.Headers.map (fun headerMap =>
      headerMap.map (fun kv => (kv.1, ProcessTemplates getenv kv.2)))
    QueryParams := endpoint.QueryParams.map (fun paramMap =>
      paramMap.map (fun kv => (kv.1, ProcessTemplates getenv kv.2))) }

/-! ## Handlers (`handlers/forward.go`, `handlers/proxy.go`) -/

/-- Go `executeProxyRequest(proxyReq, w, timeout)`. -/
def executeProxyRequest (std : Stdlib) (proxyReq : OutboundRequest) (w : ResponseWriter)
    (timeout : Int) : ResponseWriter :=
  match std.clientDo proxyReq timeout with
  | none => httpError w "Request failed" 502
  | some resp =>
      let header := resp.Header.foldl (fun h kv =>
        kv.2.foldl (fun h value => h.Add (textproto.CanonicalMIMEHeaderKey kv.1) value) h) w.header
      let w : ResponseWriter := { w with header := header }
      (w.WriteHeader resp.StatusCode).Write resp.Body

/-- What a handler decides to do with a request: answer it itself through
`http.Error(w, msg, code)`, or call `executeProxyRequest(proxyReq, w, timeout)`. -/
inductive Step where
  | fail (msg : String) (code : Nat)
  | execute (proxyReq : OutboundRequest) (timeout : Int)
  deriving DecidableEq, Repr

/-- Carry out a handler's decision on the response writer. -/
def Step.run (std : Stdlib) (w : ResponseWriter) : Step → ResponseWriter
  | .fail msg code => httpError w msg code
  | .execute proxyReq timeout => executeProxyRequest std proxyReq w timeout

/-- The body of the `ForwardHandler` closure up to its final call. -/
def ForwardHandler.plan (std : Stdlib) (cfg : Config) (r : Request) : Step :=
  let targetURLStr := Values.Get (std.parseQuery r.URL.RawQuery) "url"
  if targetURLStr = "" then .fail "Missing 'url' query parameter" 400
  else
    match std.urlParse targetURLStr with
    | none => .fail "Invalid URL in 'url' parameter" 400
    | some targetURL =>
        let targetURL := if targetURL.Scheme = "" then { targetURL with Scheme := "https" }
          else targetURL
        if targetURL.Scheme ≠ "http" && targetURL.Scheme ≠ "https" then
          .fail "Only HTTP and HTTPS URLs are allowed" 400
        else
          match std.newRequest r.Method (std.urlString targetURL) with
          | none => .fail "Failed to create request" 500
          | some proxyURL =>
              let header : Header := r.Header.foldl (fun h kv =>
                if kv.1 = "Host" then h
                else kv.2.foldl
                  (fun h value => h.Add (textproto.CanonicalMIMEHeaderKey kv.1) value) h) []
              .execute { Method := if r.Method = "" then "GET" else r.Method, URL := proxyURL,
                         Header := header, Host := targetURL.Host, Body := r.Body }
                (cfg.GetDefaultTimeout std)

/-- Go `handlers.ForwardHandler(cfg)`. -/
def ForwardHandler (std : Stdlib) (cfg : Config) : Handler := fun r w =>
  (ForwardHandler.plan std cfg r).run std w

/-- The target URL the `ProxyHandler` closure builds before it creates the
outbound request (`proxy.go`, lines 54 to 70): the parsed remote URL of the
template-resolved endpoint with the rewritten path and the inbound raw query;
`none` when the remote URL does not parse. -/
def ProxyHandler.targetURL (std : Stdlib) (endpoint : Endpoint) (r : Request) : Option URL :=
  let endpoint := ProcessEndpointTemplates std.getenv endpoint
  match std.urlParse endpoint.RemoteURL with
  | none => none
  | some targetURL =>
      let path := strings.TrimPrefix r.URL.Path endpoint.Path
      let path := if path = "" || path.data.head? ≠ some '/' then "/" ++ path else path
      some { targetURL with
        Path := strings.TrimSuffix targetURL.Path "/" ++ path, RawQuery := r.URL.RawQuery }

/-- The body of the `ProxyHandler` closure up to its final call. -/
def ProxyHandler.plan (std : Stdlib) (endpoint : Endpoint) (cfg : Config) (r : Request) : Step :=
  match ProxyHandler.targetURL std endpoint r with
  | none => .fail "Invalid remote URL" 500
  | some targetURL =>
      let endpoint := ProcessEndpointTemplates std.getenv endpoint
      match std.newRequest r.Method (std.urlString targetURL) with
      | none => .fail "Failed to create request" 500
      | some proxyURL =>
          let header : Header := r.Header.foldl (fun h kv =>
            kv.2.foldl (fun h value => h.Add (textproto.CanonicalMIMEHeaderKey kv.1) value) h) []
          let header := endpoint.Headers.foldl (fun h headerMap =>
            headerMap.foldl (fun h kv => h.Set (textproto.CanonicalMIMEHeaderKey kv.1) kv.2) h)
            header
          let q := std.parseQuery proxyURL.RawQuery
          let q := endpoint.QueryParams.foldl (fun q paramMap =>
            paramMap.foldl (fun q kv => Values.Set q kv.1 kv.2) q) q
          .execute { Method := if r.Method = "" then "GET" else r.Method,
                     URL := { proxyURL with RawQuery := std.encodeQuery q },
                     Header := header, Host := targetURL.Host, Body := r.Body }
            (cfg.GetEffectiveTimeout std endpoint)

/-- Go `handlers.ProxyHandler(endpoint, cfg)`. -/
def ProxyHandler (std : Stdlib) (endpoint : Endpoint) (cfg : Config) : Handler := fun r w =>
  (ProxyHandler.plan std endpoint cfg r).run std w

/-- One run of the `ProxyHandler` closure together with what it leaves behind.
The closure keeps its `endpoint` variable from one request to the next, and
`config.ProcessEndpointTemplates(&endpoint)` writes through the pointer: the
resolved remote URL is stored in that variable, and the resolved header and
query values are stored in the maps of `endpoint.Headers` and
`endpoint.QueryParams`, which are the very maps held by the configuration's
endpoint list (Go maps are references).  The second component is the value of
the variable, and so the content of those maps, after the run. -/
def ProxyHandler.serve (std : Stdlib) (endpoint : Endpoint) (cfg : Config) (r : Request) :
    Step × Endpoint :=
  (ProxyHandler.plan std endpoint cfg r, ProcessEndpointTemplates std.getenv endpoint)

/-- Two successive requests through the same `ProxyHandler` closure, the first
under world `std1`, the second under `std2`: the decisions taken for each. -/
def ProxyHandler.serveTwice (std1 std2 : Stdlib) (endpoint : Endpoint) (cfg : Config)
    (r1 r2 : Request) : Step × Step :=
  let first := ProxyHandler.serve std1 endpoint cfg r1
  let second := ProxyHandler.serve std2 first.2 cfg r2
  (first.1, second.1)

/-- Go `(*Handler).ServeHTTP` for a routing table built by `registerRoutes`:
the `TrailingSlash` middleware around the mux, every route CORS-wrapped. -/
def ServeHTTP (std : Stdlib) (config : Config) (mux : ServeMux) : Handler :=
  TrailingSlash (fun r w =>
    match mux.serve r with
    | .handler .forward => CORS config.CORS (ForwardHandler std config) r w
    | .handler (.endpoint e) => CORS config.CORS (ProxyHandler std e config) r w
    | .redirect location => std.redirect (std.urlString location) r w
    | .notFound => httpError w "404 page not found" 404
    | .methodNotAllowed allow =>
        httpError (w.SetHeader "Allow" (", ".intercalate allow)) "Method Not Allowed" 405
    | .badRequest =>
        (if r.ProtoMajor > 1 || (r.ProtoMajor = 1 && r.ProtoMinor ≥ 1) then
          w.SetHeader "Connection" "close" else w).WriteHeader 400)

/-- Go `(*URL).String` for components that need no percent-escaping: the
scheme, the opaque part or else `//`, user info, host and path, then the query
and the fragment. -/
def URL.String (u : URL) : String :=
  let buf := if u.Scheme ≠ "" then u.Scheme ++ ":" else ""
  let buf :=
    if u.Opaque ≠ "" then buf ++ u.Opaque
    else
      let buf :=
        if u.Scheme ≠ "" || u.Host ≠ "" || u.User.isSome then
          if u.OmitHost && u.Host = "" && u.User.isNone then buf
          else
            let buf := if u.Host ≠ "" || u.Path ≠ "" || u.User.isSome then buf ++ "//" else buf
            let buf := match u.User with
              | some (name, some password) => buf ++ name ++ ":" ++ password ++ "@"
              | some (name, none) => buf ++ name ++ "@"
              | none => buf
            buf ++ u.Host
        else buf
      let buf :=
        if u.Path ≠ "" && u.Path.data.head? ≠ some '/' && u.Host ≠ "" then buf ++ "/" else buf
      let buf :=
        if buf = "" && (u.Path.data.takeWhile (fun c => c ≠ '/')).contains ':' then buf ++ "./"
        else buf
      buf ++ u.Path
  let buf := if u.ForceQuery || u.RawQuery ≠ "" then buf ++ "?" ++ u.RawQuery else buf
  if u.Fragment ≠ "" then buf ++ "#" ++ u.Fragment else buf

/-- The scheme scan of `url.Parse` (`getScheme`) on the characters not yet read:
`n` characters were read before; the result is the number of characters of the
scheme, `none` for a URL without scheme, or an error for a leading colon. -/
def sampleParse.schemeLength : Nat → List Char → Except Unit (Option Nat)
  | _, [] => .ok none
  | n, c :: cs =>
      if ('a' ≤ c && c ≤ 'z') || ('A' ≤ c && c ≤ 'Z') then sampleParse.schemeLength (n + 1) cs
      else if ('0' ≤ c && c ≤ '9') || c = '+' || c = '-' || c = '.' then
        if n = 0 then .ok none else sampleParse.schemeLength (n + 1) cs
      else if c = ':' then
        if n = 0 then .error () else .ok (some n)
      else .ok none

/-- A small `url.Parse` for the sample worlds, following the steps of the
library for URLs `[scheme:][//host][path][?query][#fragment]` that hold no
blank, no user info and no percent-escape: the fragment is cut at the first
`#`, the scheme is read, the query is cut at the first `?`, a rootless rest
after a scheme is the opaque part, and an authority after `//` is the host. -/
def sampleParse (rawURL : String) : Option URL :=
  if rawURL.data.contains ' ' then none
  else
    let main := rawURL.data.takeWhile (fun c => c ≠ '#')
    let frag := (rawURL.data.dropWhile (fun c => c ≠ '#')).drop 1
    match sampleParse.schemeLength 0 main with
    | .error _ => none
    | .ok n =>
        let scheme := match n with
          | some n => main.take n
          | none => []
        let rest := match n with
          | some n => main.drop (n + 1)
          | none => main
        let forceQuery := rest.getLast? = some '?' && rest.count '?' = 1
        let query := if forceQuery then [] else (rest.dropWhile (fun c => c ≠ '?')).drop 1
        let rest := if forceQuery then rest.dropLast else rest.takeWhile (fun c => c ≠ '?')
        let u : URL := { Scheme := String.mk (scheme.map Char.toLower), ForceQuery := forceQuery,
                         RawQuery := String.mk query, Fragment := String.mk frag }
        if rest.head? ≠ some '/' && scheme ≠ [] then some { u with Opaque := String.mk rest }
        else if rest.head? ≠ some '/' && (rest.takeWhile (fun c => c ≠ '/')).contains ':' then none
        else if (scheme ≠ [] || !(['/', '/', '/'].isPrefixOf rest)) && ['/', '/'].isPrefixOf rest
        then
          let authority := (rest.drop 2).takeWhile (fun c => c ≠ '/')
          let rest := (rest.drop 2).dropWhile (fun c => c ≠ '/')
          some { u with Host := String.mk authority, Path := String.mk rest }
        else if scheme ≠ [] && rest.head? = some '/' then
          some { u with OmitHost := true, Path := String.mk rest }
        else some { u with Path := String.mk rest }

/-- Go `url.Values.Add`: append `value` to the values of `key`. -/
def Values.Add (v : Values) (key value : String) : Values :=
  (key, Values.All v key ++ [value]) :: v.filter (fun e => e.1 != key)

/-- Split a character list at every occurrence of `sep`. -/
def sampleParseQuery.split (sep : Char) : List Char → List (List Char)
  | [] => [[]]
  | c :: cs =>
      match sampleParseQuery.split sep cs with
      | [] => [[]]
      | part :: parts => if c = sep then [] :: part :: parts else (c :: part) :: parts

/-- A small `url.ParseQuery` for the sample worlds, for query strings without
percent-escapes, `+` or `;`: the pairs between `&`, each cut at its first `=`. -/
def sampleParseQuery (query : String) : Values :=
  (sampleParseQuery.split '&' query.data).foldl (fun q part =>
    if part = [] then q
    else Values.Add q (String.mk (part.takeWhile (fun c => c ≠ '=')))
      (String.mk ((part.dropWhile (fun c => c ≠ '=')).drop 1))) []

/-- Lexicographic order on strings, character by character. -/
def sampleEncodeQuery.less : List Char → List Char → Bool
  | _, [] => false
  | [], _ :: _ => true
  | a :: as, b :: bs =>
      if a.toNat < b.toNat then true
      else if b.toNat < a.toNat then false
      else sampleEncodeQuery.less as bs

/-- Insert an entry into a list of entries sorted by key. -/
def sampleEncodeQuery.insert (e : String × List String) : Values → Values
  | [] => [e]
  | x :: xs =>
      if sampleEncodeQuery.less e.1.data x.1.data then e :: x :: xs
      else x :: sampleEncodeQuery.insert e xs

/-- A small `Values.Encode` for the sample worlds, for keys and values that
need no escaping: `key=value` for every value, joined by `&`, sorted by key. -/
def sampleEncodeQuery (q : Values) : String :=
  "&".intercalate
    (((q.foldr sampleEncodeQuery.insert []).map
      (fun kv => kv.2.map (fun value => kv.1 ++ "=" ++ value))).flatten)

/-- A small concrete world on which the handlers can be run: the small URL and
query parsers, `(*URL).String` without escaping, a request constructor that
parses its URL with the same parser, a duration parser that knows `10s` and
`30s`, an empty environment and an unreachable network. -/
def sampleStdlib : Stdlib where
  urlParse := sampleParse
  urlString := URL.String
  parseQuery := sampleParseQuery
  encodeQuery := sampleEncodeQuery
  newRequest := fun _ url => sampleParse url
  parseDuration := fun s =>
    if s = "10s" then some (10 * 1000000000)
    else if s = "30s" then some (30 * 1000000000)
    else none
  getenv := fun _ => ""
  clientDo := fun _ _ => none
  redirect := fun location _ w => (w.SetHeader "Location" location).WriteHeader 301

/-- An environment in which the value of `X` is itself a placeholder for `Y`. -/
def nestedEnvironment (name : String) : String :=
  if name = "X" then "{{ Y }}" else if name = "Y" then "z" else ""

/-- The sample world with the environment variable `TOKEN` set to `token`. -/
def sampleWorld (token : String) : Stdlib :=
  { sampleStdlib with getenv := fun name => if name = "TOKEN" then token else "" }

/-- The headers `http.Error` touches. -/
def httpErrorKeys : List String := ["Content-Length", "Content-Type", "X-Content-Type-Options"]

/-- The sample world with an upstream that answers every request with `resp`. -/
def sampleUpstream (resp : UpstreamResponse) : Stdlib :=
  { sampleStdlib with clientDo := fun _ _ => some resp }

/-! ## Configuration validation and handler construction -/

/-- The errors `validateConfig` reports, one constructor per `fmt.Errorf` call
(the message texts and the wrapping prefixes are left out). -/
inductive ValidationError where
  /-- Reported as "allow_origins cannot contain '*' when allow_credentials is true". -/
  | wildcardWithCredentials
  /-- Reported as "'*' wildcard must be the only origin when used". -/
  | wildcardNotAlone
  /-- Reported as "invalid server default_timeout". -/
  | serverTimeout (timeout : String)
  /-- Reported as "invalid timeout ... for endpoint i". -/
  | endpointTimeout (i : Nat) (timeout : String)
  /-- Reported as "endpoint i: path cannot be empty". -/
  | emptyPath (i : Nat)
  /-- Reported as "endpoint i: remote_url cannot be empty". -/
  | emptyRemoteURL (i : Nat)
  deriving DecidableEq, Repr

/-- Go `validateCORSConfig`; `none` is the `nil` error. -/
def validateCORSConfig (corsConfig : CORSConfig) : Option ValidationError :=
  let hasWildcard := corsConfig.WildcardOriginAllowed
  if corsConfig.Credentials && hasWildcard then some .wildcardWithCredentials
  else if hasWildcard && decide (corsConfig.Origins.length > 1) then some .wildcardNotAlone
  else none

/-- The endpoint loop of `validateTimeoutConfig`, `i` being the index of the head. -/
def validateTimeoutConfig.loop (std : Stdlib) : List Endpoint → Nat → Option ValidationError
  | [], _ => none
  | endpoint :: rest, i =>
      if endpoint.Timeout ≠ "" && (std.parseDuration endpoint.Timeout).isNone then
        some (.endpointTimeout i endpoint.Timeout)
      else validateTimeoutConfig.loop std rest (i + 1)

/-- Go `validateTimeoutConfig`. -/
def validateTimeoutConfig (std : Stdlib) (config : Config) : Option ValidationError :=
  if config.Server.DefaultTimeout ≠ "" &&
      (std.parseDuration config.Server.DefaultTimeout).isNone then
    some (.serverTimeout config.Server.DefaultTimeout)
  else validateTimeoutConfig.loop std config.Endpoints 0

/-- The endpoint loop of `validateConfig`, `i` being the index of the head. -/
def validateConfig.loop : List Endpoint → Nat → Option ValidationError
  | [], _ => none
  | endpoint :: rest, i =>
      if endpoint.Path = "" then some (.emptyPath i)
      else if endpoint.RemoteURL = "" then some (.emptyRemoteURL i)
      else validateConfig.loop rest (i + 1)

/-- Go `validateConfig`. -/
def validateConfig (std : Stdlib) (config : Config) : Option ValidationError :=
  match validateCORSConfig config.CORS with
  | some err => some err
  | none =>
      match validateTimeoutConfig std config with
      | some err => some err
      | none => validateConfig.loop config.Endpoints 0

/-- Go `server.NewDynamicRoutingHandler(cfg)`: the handler's routing table, or
`none` when `registerRoutes` panics. -/
def NewDynamicRoutingHandler (cfg : Config) : Option ServeMux :=
  (registerRoutes cfg).map (fun reg => reg.mux)

/-- The test `registerRoutes` makes to skip a reserved endpoint path. -/
def isReservedPath (path : String) : Bool :=
  decide (strings.TrimSuffix path "/" = "/forward")

/-! ## Lemmas on strings and header maps -/

theorem strings.HasSuffix_iff (s suf : String) :
    strings.HasSuffix s suf = true ↔ ∃ p : String, s = p ++ suf := by
  unfold strings.HasSuffix
  rw [List.isSuffixOf_iff_suffix]
  constructor
  · rintro ⟨t, ht⟩
    exact ⟨⟨t⟩, String.ext (by simp [ht])⟩
  · rintro ⟨p, rfl⟩
    exact ⟨p.data, by simp⟩

theorem strings.HasPrefix_iff (s pre : String) :
    strings.HasPrefix s pre = true ↔ ∃ t : String, s = pre ++ t := by
  unfold strings.HasPrefix
  rw [List.isPrefixOf_iff_prefix]
  constructor
  · rintro ⟨t, ht⟩
    exact ⟨⟨t⟩, String.ext (by simp [ht])⟩
  · rintro ⟨t, rfl⟩
    exact ⟨t.data, by simp⟩

theorem strings.TrimPrefix_append (p rest : String) :
    strings.TrimPrefix (p ++ rest) p = rest := by
  unfold strings.TrimPrefix
  rw [if_pos ((strings.HasPrefix_iff _ _).2 ⟨rest, rfl⟩)]
  exact String.ext (by simp)

theorem strings.TrimSuffix_append (b suf : String) :
    strings.TrimSuffix (b ++ suf) suf = b := by
  unfold strings.TrimSuffix
  rw [if_pos ((strings.HasSuffix_iff _ _).2 ⟨b, rfl⟩)]
  exact String.ext (by simp)

theorem strings.TrimSuffix_of_not (b suf : String) (h : strings.HasSuffix b suf = false) :
    strings.TrimSuffix b suf = b := by
  unfold strings.TrimSuffix
  simp [h]

theorem Header.lookup_filter_ne (h : Header) (k key : String) (hk : k ≠ key) :
    (h.filter (fun e => e.1 != key)).lookup k = h.lookup k := by
  induction h with
  | nil => rfl
  | cons e rest ih =>
    obtain ⟨a, vs⟩ := e
    by_cases ha : a = key
    · subst ha
      have h1 : (k == a) = false := by simpa using hk
      simp [List.filter_cons, List.lookup_cons, h1, ih]
    · have h2 : (a != key) = true := by simpa using ha
      simp only [List.filter_cons, h2, if_true, List.lookup_cons, ih]

theorem Header.Values_Set_same (h : Header) (key value : String) :
    (h.Set key value).Values key = [value] := by
  simp [Header.Set, Header.Values, List.lookup_cons]

theorem Header.Values_Set_ne (h : Header) (k key value : String) (hk : k ≠ key) :
    (h.Set key value).Values k = h.Values k := by
  have h1 : (k == key) = false := by simpa using hk
  simp only [Header.Set, Header.Values, List.lookup_cons, h1, Header.lookup_filter_ne h k key hk]

theorem Header.Get_Set_same (h : Header) (key value : String) :
    (h.Set key value).Get key = value := by
  simp [Header.Get, Header.Values_Set_same]

theorem Header.Get_Set_ne (h : Header) (k key value : String) (hk : k ≠ key) :
    (h.Set key value).Get k = h.Get k := by
  simp [Header.Get, Header.Values_Set_ne h k key value hk]

theorem Header.Values_Add (h : Header) (k key value : String) :
    (h.Add key value).Values k = if k = key then h.Values key ++ [value] else h.Values k := by
  by_cases hk : k = key
  · subst hk
    simp [Header.Add, Header.Values, List.lookup_cons]
  · have h1 : (k == key) = false := by simpa using hk
    simp only [Header.Add, Header.Values, List.lookup_cons, h1, Header.lookup_filter_ne h k key hk,
      if_neg hk]

theorem ResponseWriter.WriteHeader_header (w : ResponseWriter) (code : Nat) :
    (w.WriteHeader code).header = w.header := by
  unfold ResponseWriter.WriteHeader
  cases w.status <;> rfl

theorem ResponseWriter.Write_header (w : ResponseWriter) (data : String) :
    (w.Write data).header = w.header := by
  simp [ResponseWriter.Write, ResponseWriter.WriteHeader_header]

theorem Header.Values_foldl_Add (k key : String) (values : List String) (h : Header) :
    ∃ extra, (values.foldl (fun h value => h.Add key value) h).Values k = h.Values k ++ extra := by
  induction values generalizing h with
  | nil => exact ⟨[], by simp⟩
  | cons v rest ih =>
    obtain ⟨extra, he⟩ := ih (h.Add key v)
    rw [List.foldl_cons, he, Header.Values_Add]
    by_cases hk : k = key
    · subst hk
      exact ⟨[v] ++ extra, by simp⟩
    · exact ⟨extra, by simp [hk]⟩

theorem Header.Values_foldl_copy (k : String) (src : Header) (h : Header) :
    ∃ extra, (src.foldl (fun h kv =>
        kv.2.foldl (fun h value => h.Add (textproto.CanonicalMIMEHeaderKey kv.1) value) h) h).Values k
      = h.Values k ++ extra := by
  induction src generalizing h with
  | nil => exact ⟨[], by simp⟩
  | cons kv rest ih =>
    obtain ⟨e1, h1⟩ := Header.Values_foldl_Add k (textproto.CanonicalMIMEHeaderKey kv.1) kv.2 h
    obtain ⟨e2, h2⟩ := ih (kv.2.foldl
      (fun h value => h.Add (textproto.CanonicalMIMEHeaderKey kv.1) value) h)
    rw [List.foldl_cons, h2, h1]
    exact ⟨e1 ++ e2, by simp⟩

theorem httpError_Values (w : ResponseWriter) (error : String) (code : Nat) (k : String)
    (hk : k ∉ httpErrorKeys) : (httpError w error code).header.Values k = w.header.Values k := by
  simp only [httpErrorKeys, List.mem_cons, List.mem_singleton, not_or, List.mem_nil_iff,
    or_false] at hk
  obtain ⟨h1, h2, h3⟩ := hk
  simp only [httpError, ResponseWriter.Write_header, ResponseWriter.WriteHeader_header,
    ResponseWriter.SetHeader]
  rw [Header.Values_Set_ne _ _ _ _ h3, Header.Values_Set_ne _ _ _ _ h2]
  simp only [Header.Values, Header.lookup_filter_ne _ k "Content-Length" h1]

theorem executeProxyRequest_Values (std : Stdlib) (proxyReq : OutboundRequest)
    (w : ResponseWriter) (timeout : Int) (k : String) (hk : k ∉ httpErrorKeys) :
    ∃ extra, (executeProxyRequest std proxyReq w timeout).header.Values k
      = w.header.Values k ++ extra := by
  unfold executeProxyRequest
  cases std.clientDo proxyReq timeout with
  | none => exact ⟨[], by simp [httpError_Values w _ _ k hk]⟩
  | some resp =>
    obtain ⟨extra, he⟩ := Header.Values_foldl_copy k resp.Header w.header
    exact ⟨extra, by simp [ResponseWriter.Write_header, ResponseWriter.WriteHeader_header, he]⟩

theorem Step.run_Values (std : Stdlib) (w : ResponseWriter) (s : Step) (k : String)
    (hk : k ∉ httpErrorKeys) :
    ∃ extra, (s.run std w).header.Values k = w.header.Values k ++ extra := by
  cases s with
  | fail msg code => exact ⟨[], by simp [Step.run, httpError_Values w _ _ k hk]⟩
  | execute proxyReq timeout => exact executeProxyRequest_Values std proxyReq w timeout k hk

theorem Step.run_Get (std : Stdlib) (w : ResponseWriter) (s : Step) (k v : String)
    (hk : k ∉ httpErrorKeys) (hv : w.header.Values k = [v]) :
    (s.run std w).header.Get k = v := by
  obtain ⟨extra, he⟩ := Step.run_Values std w s k hk
  simp [Header.Get, he, hv]

theorem CORS.emit_Values_origin (corsConfig : CORSConfig) (r : Request) (w : ResponseWriter) :
    (CORS.emit corsConfig r w).header.Values "Access-Control-Allow-Origin" =
      if CORS.allowedOrigin corsConfig (r.Header.Get "Origin") ≠ "" then
        [CORS.allowedOrigin corsConfig (r.Header.Get "Origin")]
      else w.header.Values "Access-Control-Allow-Origin" := by
  unfold CORS.emit
  simp only [ResponseWriter.SetHeader]
  split_ifs <;>
    simp [Header.Values_Set_same, Header.Values_Set_ne]

theorem CORS.emit_status_body (corsConfig : CORSConfig) (r : Request) (w : ResponseWriter) :
    (CORS.emit corsConfig r w).status = w.status ∧ (CORS.emit corsConfig r w).body = w.body := by
  unfold CORS.emit
  simp only [ResponseWriter.SetHeader]
  split_ifs <;> exact ⟨rfl, rfl⟩

theorem CORS.allowedOrigin_wildcard (corsConfig : CORSConfig)
    (hc : corsConfig.Credentials = false) (ho : corsConfig.Origins = ["*"]) (origin : String) :
    CORS.allowedOrigin corsConfig origin = "*" := by
  simp [CORS.allowedOrigin, CORSConfig.WildcardOriginAllowed, hc, ho]

theorem CORS.emit_Values_wildcard (corsConfig : CORSConfig)
    (hc : corsConfig.Credentials = false) (ho : corsConfig.Origins = ["*"])
    (r : Request) (w : ResponseWriter) :
    (CORS.emit corsConfig r w).header.Values "Access-Control-Allow-Origin" = ["*"] := by
  rw [CORS.emit_Values_origin, CORS.allowedOrigin_wildcard corsConfig hc ho]
  simp

theorem CORS_options_eq (corsConfig : CORSConfig) (next : Handler) (r : Request)
    (w : ResponseWriter) (hm : r.Method = "OPTIONS") :
    CORS corsConfig next r w =
      ((CORS.emit corsConfig r w).SetHeader "Access-Control-Max-Age" "86400").WriteHeader 200 := by
  simp [CORS, hm]

theorem CORS_other_eq (corsConfig : CORSConfig) (next : Handler) (r : Request)
    (w : ResponseWriter) (hm : r.Method ≠ "OPTIONS") :
    CORS corsConfig next r w = next r (CORS.emit corsConfig r w) := by
  simp [CORS, hm]

theorem CORS_step_Get_origin (corsConfig : CORSConfig) (std : Stdlib) (plan : Request → Step)
    (r : Request) (w : ResponseWriter) (v : String)
    (hv : (CORS.emit corsConfig r w).header.Values "Access-Control-Allow-Origin" = [v]) :
    (CORS corsConfig (fun r w => (plan r).run std w) r w).header.Get
      "Access-Control-Allow-Origin" = v := by
  by_cases hm : r.Method = "OPTIONS"
  · rw [CORS_options_eq _ _ _ _ hm, ResponseWriter.WriteHeader_header]
    simp only [ResponseWriter.SetHeader, Header.Get]
    rw [Header.Values_Set_ne _ _ _ _ (by decide), hv]
  · rw [CORS_other_eq _ _ _ _ hm]
    exact Step.run_Get std _ _ _ v (by decide) hv

theorem CORS.allowedOrigin_credentials (corsConfig : CORSConfig)
    (hc : corsConfig.Credentials = true) (origin : String) :
    CORS.allowedOrigin corsConfig origin = "" ∨
    (CORS.allowedOrigin corsConfig origin = origin ∧
      isOriginAllowed origin corsConfig.Origins = true) := by
  unfold CORS.allowedOrigin
  by_cases h : isOriginAllowed origin corsConfig.Origins = true
  · exact Or.inr (by simp [hc, h])
  · exact Or.inl (by simp [hc, h])

theorem TrailingSlash_eq_normalize (next : Handler) (r : Request) (w : ResponseWriter) :
    TrailingSlash next r w
      = next { r with URL := { r.URL with Path := TrailingSlash.normalize r.URL.Path } } w := by
  unfold TrailingSlash TrailingSlash.normalize
  by_cases h : (decide (r.URL.Path ≠ "/") && !strings.HasSuffix r.URL.Path "/" &&
      !strings.Contains (strings.sliceFrom r.URL.Path (strings.LastIndex r.URL.Path "/" + 1)) ".")
      = true
  · simp only [h, if_true]
  · simp only [h, Bool.false_eq_true, if_false]

/-! ## Claims on the CORS middleware -/

/-- C1 (evaluation at the failing input): with credentials enabled and the
wildcard pattern configured, a request carrying the header `Origin: *` gets
`Access-Control-Allow-Origin: *` back, for a preflight request as well as for a
request passed on to a downstream handler that adds nothing. -/
theorem CORS_credentials_reflects_star :
    CORS.allowedOrigin { Origins := ["*"], Credentials := true } "*" = "*" ∧
    (CORS { Origins := ["*"], Credentials := true } (fun _ w => w)
        { Method := "OPTIONS", Header := [("Origin", ["*"])] } {}).header.Get
      "Access-Control-Allow-Origin" = "*" ∧
    (CORS { Origins := ["*"], Credentials := true } (fun _ w => w)
        { Method := "GET", Header := [("Origin", ["*"])] } {}).header.Get
      "Access-Control-Allow-Origin" = "*" := by
  decide

/-- C2: for a policy with credentials off and origins `["*"]`, every request
(any `Origin`, any method) is answered with `Access-Control-Allow-Origin: *`:
a preflight response carries it, a non-preflight request reaches the downstream
handler with the header already set, and the response produced through the
repository's own downstream handlers (endpoint proxy, forward) still carries it. -/
theorem CORS_wildcard_without_credentials (corsConfig : CORSConfig)
    (hc : corsConfig.Credentials = false) (ho : corsConfig.Origins = ["*"])
    (next : Handler) (r : Request) (w : ResponseWriter) :
    (r.Method = "OPTIONS" →
      (CORS corsConfig next r w).header.Get "Access-Control-Allow-Origin" = "*") ∧
    (r.Method ≠ "OPTIONS" →
      CORS corsConfig next r w = next r (CORS.emit corsConfig r w) ∧
      (CORS.emit corsConfig r w).header.Get "Access-Control-Allow-Origin" = "*") ∧
    (∀ (std : Stdlib) (cfg : Config) (e : Endpoint),
      (CORS corsConfig (ProxyHandler std e cfg) r w).header.Get
        "Access-Control-Allow-Origin" = "*") ∧
    (∀ (std : Stdlib) (cfg : Config),
      (CORS corsConfig (ForwardHandler std cfg) r w).header.Get
        "Access-Control-Allow-Origin" = "*") := by
  have hv := CORS.emit_Values_wildcard corsConfig hc ho r w
  refine ⟨fun hm => ?_, fun hm => ⟨CORS_other_eq _ _ _ _ hm, ?_⟩, fun std cfg e => ?_,
    fun std cfg => ?_⟩
  · rw [CORS_options_eq _ _ _ _ hm, ResponseWriter.WriteHeader_header]
    simp only [ResponseWriter.SetHeader, Header.Get]
    rw [Header.Values_Set_ne _ _ _ _ (by decide), hv]
  · simp [Header.Get, hv]
  · exact CORS_step_Get_origin corsConfig std (ProxyHandler.plan std e cfg) r w "*" hv
  · exact CORS_step_Get_origin corsConfig std (ForwardHandler.plan std cfg) r w "*" hv

/-- Witness for C2: the policy of the test suite, a request without `Origin`. -/
theorem CORS_wildcard_without_credentials_witness :
    (CORS { Origins := ["*"], Methods := "GET, POST, OPTIONS", Headers := "*" } (fun _ w => w)
        { Method := "OPTIONS" } {}).header.Get "Access-Control-Allow-Origin" = "*" :=
  (CORS_wildcard_without_credentials
    { Origins := ["*"], Methods := "GET, POST, OPTIONS", Headers := "*" } rfl rfl
    (fun _ w => w) { Method := "OPTIONS" } {}).1 rfl

theorem isOriginAllowed_single_subdomain (d o : String) :
    isOriginAllowed o ["*." ++ d] = true ↔ ∃ p : String, o = p ++ ("." ++ d) := by
  have hne : ("*." ++ d : String) ≠ "*" := by
    intro h
    have := congrArg (fun s : String => s.data.length) h
    simp at this
  have hpre : strings.HasPrefix ("*." ++ d) "*." = true :=
    (strings.HasPrefix_iff _ _).2 ⟨d, rfl⟩
  have hslice : strings.sliceFrom ("*." ++ d) 2 = d := String.ext (by simp [strings.sliceFrom])
  unfold isOriginAllowed
  by_cases ho : o = ""
  · subst ho
    simp only [if_true, Bool.false_eq_true, false_iff]
    rintro ⟨p, hp⟩
    have := congrArg (fun s : String => s.data.length) hp
    simp at this
    omega
  · simp only [if_neg ho, isOriginAllowed.loop, hpre, hslice, Bool.true_and, hne,
      decide_False, Bool.false_or, decide_eq_true_eq]
    constructor
    · intro h
      split_ifs at h with h1 h2
      · exact ⟨"*", by rw [← h1]; exact String.ext (by simp)⟩
      · exact (strings.HasSuffix_iff _ _).1 h2
    · intro h
      split_ifs with h1 h2
      · rfl
      · rfl
      · exact absurd ((strings.HasSuffix_iff _ _).2 h) h2

theorem isOriginAllowed_root_origin (d scheme : String) :
    isOriginAllowed (scheme ++ "://" ++ d) ["*." ++ d] = false := by
  rw [Bool.eq_false_iff]
  intro h
  obtain ⟨p, hp⟩ := (isOriginAllowed_single_subdomain d _).1 h
  have hd := congrArg String.data hp
  simp only [String.data_append] at hd
  have hd2 : (scheme.data ++ [':', '/']) ++ ('/' :: d.data) = p.data ++ ('.' :: d.data) := by
    simpa using hd
  have := (List.append_inj' hd2 (by simp)).2
  simp at this

/-- C3: against the single pattern `"*." ++ d`, `isOriginAllowed` accepts an
origin exactly when the origin ends with `"." ++ d`; the root origin
`scheme://d` is never accepted, and (the spec's examples) `*.example.com`
accepts `https://api.example.com` but neither `https://example.com` nor
`https://api.other.com`. -/
theorem isOriginAllowed_subdomain_wildcard (d o : String) :
    (isOriginAllowed o ["*." ++ d] = true ↔ ∃ p : String, o = p ++ ("." ++ d)) ∧
    (∀ scheme : String, isOriginAllowed (scheme ++ "://" ++ d) ["*." ++ d] = false) ∧
    isOriginAllowed "https://api.example.com" ["*.example.com"] = true ∧
    isOriginAllowed "https://example.com" ["*.example.com"] = false ∧
    isOriginAllowed "https://api.other.com" ["*.example.com"] = false :=
  ⟨isOriginAllowed_single_subdomain d o, isOriginAllowed_root_origin d,
    by decide, by decide, by decide⟩

/-- C4: a request with method `OPTIONS`, whatever the policy and the `Origin`,
is answered by the middleware itself on a writer nothing was written to yet:
status 200, empty body, `Access-Control-Max-Age: 86400`; the response does not
depend on the downstream handler, which is not called. -/
theorem CORS_preflight_short_circuits (corsConfig : CORSConfig) (next : Handler) (r : Request)
    (w : ResponseWriter) (hm : r.Method = "OPTIONS") (hs : w.status = none)
    (hb : w.body = "") :
    (CORS corsConfig next r w).status = some 200 ∧
    (CORS corsConfig next r w).body = "" ∧
    (CORS corsConfig next r w).header.Values "Access-Control-Max-Age" = ["86400"] ∧
    (CORS corsConfig next r w).header.Get "Access-Control-Max-Age" = "86400" ∧
    (∀ next2 : Handler, CORS corsConfig next2 r w = CORS corsConfig next r w) ∧
    CORS corsConfig next r w =
      ((CORS.emit corsConfig r w).SetHeader "Access-Control-Max-Age" "86400").WriteHeader 200 := by
  have heq := CORS_options_eq corsConfig next r w hm
  obtain ⟨hst, hbo⟩ := CORS.emit_status_body corsConfig r w
  refine ⟨?_, ?_, ?_, ?_, fun next2 => ?_, heq⟩
  · rw [heq]
    simp [ResponseWriter.WriteHeader, ResponseWriter.SetHeader, hst, hs]
  · rw [heq]
    simp [ResponseWriter.WriteHeader, ResponseWriter.SetHeader, hst, hs, hbo, hb]
  · rw [heq, ResponseWriter.WriteHeader_header]
    exact Header.Values_Set_same _ _ _
  · rw [heq, ResponseWriter.WriteHeader_header]
    exact Header.Get_Set_same _ _ _
  · rw [heq, CORS_options_eq corsConfig next2 r w hm]

/-- Witness for C4: a preflight from an origin the policy rejects. -/
theorem CORS_preflight_short_circuits_witness :
    (CORS { Origins := ["https://allowed.com"] } (fun _ w => w.Write "downstream")
        { Method := "OPTIONS", Header := [("Origin", ["http://malicious.com"])] } {}).status
      = some 200 :=
  (CORS_preflight_short_circuits { Origins := ["https://allowed.com"] }
    (fun _ w => w.Write "downstream")
    { Method := "OPTIONS", Header := [("Origin", ["http://malicious.com"])] } {}
    rfl rfl rfl).1

/-- C5: a request whose method is not `OPTIONS` is handed to the downstream
handler exactly once, unchanged, whether its `Origin` was allowed, rejected or
absent; before that call the middleware has written neither a status nor a body,
so it never answers with an error status of its own. -/
theorem CORS_non_preflight_calls_next (corsConfig : CORSConfig) (next : Handler) (r : Request)
    (w : ResponseWriter) (hm : r.Method ≠ "OPTIONS") :
    CORS corsConfig next r w = next r (CORS.emit corsConfig r w) ∧
    (CORS.emit corsConfig r w).status = w.status ∧
    (CORS.emit corsConfig r w).body = w.body ∧
    (CORS corsConfig (fun _ w1 => w1.Write "x") r w).body = w.body ++ "x" := by
  obtain ⟨hst, hbo⟩ := CORS.emit_status_body corsConfig r w
  refine ⟨CORS_other_eq _ _ _ _ hm, hst, hbo, ?_⟩
  rw [CORS_other_eq _ _ _ _ hm]
  simp only [ResponseWriter.Write]
  have : ((CORS.emit corsConfig r w).WriteHeader 200).body = w.body := by
    unfold ResponseWriter.WriteHeader
    cases (CORS.emit corsConfig r w).status <;> simp [hbo]
  rw [this]

/-- Witness for C5: a `GET` from a rejected origin still reaches the downstream handler. -/
theorem CORS_non_preflight_calls_next_witness :
    CORS { Origins := ["https://allowed.com"] } (fun _ w => w.Write "OK")
        { Method := "GET", Header := [("Origin", ["http://malicious.com"])] } {}
      = { status := some 200, body := "OK" } :=
  (CORS_non_preflight_calls_next { Origins := ["https://allowed.com"] }
    (fun _ w => w.Write "OK")
    { Method := "GET", Header := [("Origin", ["http://malicious.com"])] } {}
    (by decide)).1.trans (by decide)

/-! ## Claims on the routing table -/

/-- C6 (evaluation at the failing input): with the forward endpoint enabled and
no configured endpoint, the routing table holds the single exact pattern
`/forward`; the trailing-slash normaliser turns the request path `/forward`
into `/forward/`, which that pattern does not match, so the request is not
dispatched to the forward handler but answered with 404. -/
theorem forward_path_not_dispatched_to_forward_handler :
    registerRoutes { Server := { ForwardEndpointEnabled := some true } }
      = some { mux := { entries := [("/forward", .forward)] } } ∧
    TrailingSlash.normalize "/forward" = "/forward/" ∧
    dispatch { entries := [("/forward", .forward)] }
      { URL := { Path := "/forward", RawQuery := "url=http://example.com" } } = .notFound ∧
    (∀ std : Stdlib,
      (ServeHTTP std { Server := { ForwardEndpointEnabled := some true } }
        { entries := [("/forward", .forward)] }
        { URL := { Path := "/forward", RawQuery := "url=http://example.com" } } {}).status
        = some 404) ∧
    ServeMux.Handler { entries := [("/forward", .forward)] } "/forward" = .handler .forward := by
  refine ⟨by decide, by decide, by decide, fun std => ?_, by decide⟩
  rfl

/-- C7 (evaluation at the failing input): with the forward endpoint enabled and
an endpoint configured at the root path `/`, a request to `/forward` sent
through the composed handler is dispatched to the root endpoint's proxy handler. -/
theorem forward_path_shadowed_by_root_endpoint :
    registerRoutes { Server := { ForwardEndpointEnabled := some true },
                     Endpoints := [{ Path := "/", RemoteURL := "http://up.example" }] }
      = some { mux := { entries := [("/forward", .forward),
                          ("/", .endpoint { Path := "/", RemoteURL := "http://up.example" })] },
               registeredCount := 1 } ∧
    dispatch { entries := [("/forward", .forward),
                 ("/", .endpoint { Path := "/", RemoteURL := "http://up.example" })] }
      { URL := { Path := "/forward", RawQuery := "url=http://example.com" } }
      = .handler (.endpoint { Path := "/", RemoteURL := "http://up.example" }) ∧
    (∀ (std : Stdlib) (w : ResponseWriter),
      ServeHTTP std { Server := { ForwardEndpointEnabled := some true },
                      Endpoints := [{ Path := "/", RemoteURL := "http://up.example" }] }
        { entries := [("/forward", .forward),
            ("/", .endpoint { Path := "/", RemoteURL := "http://up.example" })] }
        { URL := { Path := "/forward", RawQuery := "url=http://example.com" } } w
      = CORS {} (ProxyHandler std { Path := "/", RemoteURL := "http://up.example" }
            { Server := { ForwardEndpointEnabled := some true },
              Endpoints := [{ Path := "/", RemoteURL := "http://up.example" }] })
          { URL := { Path := "/forward/", RawQuery := "url=http://example.com" } } w) := by
  refine ⟨by decide, by decide, fun std w => rfl⟩

/-! ## Claims on the forward handler -/

theorem ForwardHandler.plan_of_execute (std : Stdlib) (cfg : Config) (r : Request)
    (proxyReq : OutboundRequest) (timeout : Int)
    (h : ForwardHandler.plan std cfg r = .execute proxyReq timeout) :
    ∃ parsed : URL,
      std.urlParse (Values.Get (std.parseQuery r.URL.RawQuery) "url") = some parsed ∧
      ((if parsed.Scheme = "" then "https" else parsed.Scheme) = "http" ∨
        (if parsed.Scheme = "" then "https" else parsed.Scheme) = "https") ∧
      std.newRequest r.Method (std.urlString
        { parsed with Scheme := if parsed.Scheme = "" then "https" else parsed.Scheme })
        = some proxyReq.URL ∧
      proxyReq.Host = parsed.Host := by
  unfold ForwardHandler.plan at h
  simp only at h
  split at h
  · simp at h
  · split at h
    · simp at h
    · rename_i parsed hp
      refine ⟨parsed, hp, ?_⟩
      by_cases h2 : parsed.Scheme = ""
      · simp only [h2, if_true] at h ⊢
        split at h
        · simp at h
        · split at h
          · simp at h
          · rename_i u hq
            simp only [Step.execute.injEq] at h
            obtain ⟨rfl, -⟩ := h
            exact ⟨Or.inr trivial, hq, rfl⟩
      · simp only [if_neg h2] at h ⊢
        split at h
        · simp at h
        · rename_i h3
          split at h
          · simp at h
          · rename_i u hq
            simp only [Step.execute.injEq] at h
            obtain ⟨rfl, -⟩ := h
            refine ⟨?_, hq, rfl⟩
            by_contra hc
            push_neg at hc
            exact h3 (by simp [hc.1, hc.2])

/-- C8: whenever the forward handler accepts its `url` parameter, that is,
whenever it calls the proxy executor, the target URL it hands to
`http.NewRequest` is the parsed URL with scheme `https` when the parsed URL had
no scheme and with the parsed scheme otherwise, that scheme is `http` or
`https`, and the outbound request is the one `http.NewRequest` creates from the
rendered target.  As `http.NewRequest` keeps the scheme of the URL it is given,
the outbound request handed to the executor has that same scheme. -/
theorem ForwardHandler_target_scheme (std : Stdlib) (cfg : Config) (r : Request)
    (proxyReq : OutboundRequest) (timeout : Int)
    (h : ForwardHandler.plan std cfg r = .execute proxyReq timeout)
    (hlib : ∀ parsed u : URL,
      std.urlParse (Values.Get (std.parseQuery r.URL.RawQuery) "url") = some parsed →
      std.newRequest r.Method (std.urlString
        { parsed with Scheme := if parsed.Scheme = "" then "https" else parsed.Scheme })
        = some u →
      u.Scheme = (if parsed.Scheme = "" then "https" else parsed.Scheme)) :
    (proxyReq.URL.Scheme = "http" ∨ proxyReq.URL.Scheme = "https") ∧
    (∃ parsed : URL,
      std.urlParse (Values.Get (std.parseQuery r.URL.RawQuery) "url") = some parsed ∧
      proxyReq.URL.Scheme = (if parsed.Scheme = "" then "https" else parsed.Scheme) ∧
      std.newRequest r.Method (std.urlString
        { parsed with Scheme := if parsed.Scheme = "" then "https" else parsed.Scheme })
        = some proxyReq.URL) ∧
    (∀ w : ResponseWriter,
      ForwardHandler std cfg r w = executeProxyRequest std proxyReq w timeout) := by
  obtain ⟨parsed, hp, hs, hq, -⟩ := ForwardHandler.plan_of_execute std cfg r proxyReq timeout h
  have hk := hlib _ _ hp hq
  refine ⟨?_, ⟨parsed, hp, hk, hq⟩, fun w => by simp [ForwardHandler, h, Step.run]⟩
  rw [hk]
  exact hs

/-- Witness for C8: `url=httpbin.org/get` has no scheme; the target is rendered
as `https://httpbin.org/get` and the outbound request has scheme `https`. -/
theorem ForwardHandler_target_scheme_witness :
    ForwardHandler.plan sampleStdlib {}
        { URL := { Path := "/forward", RawQuery := "url=httpbin.org/get" } }
      = .execute { URL := { Scheme := "https", Host := "httpbin.org", Path := "/get" } }
          DEFAULT_TIMEOUT ∧
    sampleStdlib.urlString { Scheme := "https", Path := "httpbin.org/get" }
      = "https://httpbin.org/get" ∧
    (({ URL := { Scheme := "https", Host := "httpbin.org", Path := "/get" } }
        : OutboundRequest).URL.Scheme = "http" ∨
      ({ URL := { Scheme := "https", Host := "httpbin.org", Path := "/get" } }
        : OutboundRequest).URL.Scheme = "https") :=
  ⟨rfl, rfl, (ForwardHandler_target_scheme sampleStdlib {}
      { URL := { Path := "/forward", RawQuery := "url=httpbin.org/get" } }
      { URL := { Scheme := "https", Host := "httpbin.org", Path := "/get" } } DEFAULT_TIMEOUT rfl
      (fun parsed u hp hq => by
        have h1 : parsed = { Path := "httpbin.org/get" } :=
          (Option.some.inj hp).symm.trans rfl
        subst h1
        have h2 : u = { Scheme := "https", Host := "httpbin.org", Path := "/get" } :=
          (Option.some.inj hq).symm.trans rfl
        subst h2
        rfl)).1⟩

/-- C9: the forward handler answers with a 400 of its own, without calling the
proxy executor, exactly when the `url` parameter is missing or empty, or does
not parse, or parses to a non-empty scheme other than `http` and `https`; the
checks are made in that order and each has its own message (`http.Error` writes
the message followed by a newline as the body). -/
theorem ForwardHandler_bad_request (std : Stdlib) (cfg : Config) (r : Request) :
    ((∃ msg, ForwardHandler.plan std cfg r = .fail msg 400) ↔
      (Values.Get (std.parseQuery r.URL.RawQuery) "url" = "" ∨
       std.urlParse (Values.Get (std.parseQuery r.URL.RawQuery) "url") = none ∨
       ∃ parsed, std.urlParse (Values.Get (std.parseQuery r.URL.RawQuery) "url") = some parsed ∧
         parsed.Scheme ≠ "" ∧ parsed.Scheme ≠ "http" ∧ parsed.Scheme ≠ "https")) ∧
    (Values.Get (std.parseQuery r.URL.RawQuery) "url" = "" →
      ForwardHandler.plan std cfg r = .fail "Missing 'url' query parameter" 400) ∧
    (Values.Get (std.parseQuery r.URL.RawQuery) "url" ≠ "" →
      std.urlParse (Values.Get (std.parseQuery r.URL.RawQuery) "url") = none →
      ForwardHandler.plan std cfg r = .fail "Invalid URL in 'url' parameter" 400) ∧
    (∀ parsed, Values.Get (std.parseQuery r.URL.RawQuery) "url" ≠ "" →
      std.urlParse (Values.Get (std.parseQuery r.URL.RawQuery) "url") = some parsed →
      parsed.Scheme ≠ "" → parsed.Scheme ≠ "http" → parsed.Scheme ≠ "https" →
      ForwardHandler.plan std cfg r = .fail "Only HTTP and HTTPS URLs are allowed" 400) ∧
    (∀ msg (w : ResponseWriter), ForwardHandler.plan std cfg r = .fail msg 400 →
      w.status = none →
      (ForwardHandler std cfg r w).status = some 400 ∧
      (ForwardHandler std cfg r w).body = w.body ++ (msg ++ "\n")) := by
  refine ⟨?_, ?_, ?_, ?_, ?_⟩
  · unfold ForwardHandler.plan
    simp only
    by_cases h1 : Values.Get (std.parseQuery r.URL.RawQuery) "url" = ""
    · simp [h1]
    · cases hp : std.urlParse (Values.Get (std.parseQuery r.URL.RawQuery) "url") with
      | none => simp [h1]
      | some parsed =>
        simp only [if_neg h1, h1, false_or, Option.some.injEq, exists_eq_left', reduceCtorEq]
        by_cases h2 : parsed.Scheme = ""
        · simp only [h2, if_true]
          cases std.newRequest r.Method (std.urlString { parsed with Scheme := "https" }) <;>
            simp
        · simp only [if_neg h2]
          by_cases h3 : parsed.Scheme = "http"
          · cases hq : std.newRequest r.Method (std.urlString parsed) <;> simp [h3, hq]
          · by_cases h4 : parsed.Scheme = "https"
            · cases hq : std.newRequest r.Method (std.urlString parsed) <;> simp [h4, hq]
            · simp [h2, h3, h4]
  · intro h1
    simp [ForwardHandler.plan, h1]
  · intro h1 hp
    simp [ForwardHandler.plan, h1, hp]
  · intro parsed h1 hp h2 h3 h4
    simp [ForwardHandler.plan, h1, hp, h2, h3, h4]
  · intro msg w h hs
    simp [ForwardHandler, h, Step.run, httpError, ResponseWriter.Write, ResponseWriter.WriteHeader,
      ResponseWriter.SetHeader, hs]

/-! ## Claims on the endpoint proxy handler -/

theorem strings.head_slash_iff (s : String) :
    s.data.head? = some '/' ↔ strings.HasPrefix s "/" = true := by
  unfold strings.HasPrefix
  cases hs : s.data with
  | nil => simp [List.isPrefixOf]
  | cons c cs =>
    have hd : ("/" : String).data = ['/'] := rfl
    rw [hd]
    constructor
    · intro h
      have hc : c = '/' := by simpa using h
      simp [List.isPrefixOf, hc]
    · intro h
      have hc : '/' = c := by simpa [List.isPrefixOf] using h
      simp [← hc]

theorem ProxyHandler.targetURL_eq (std : Stdlib) (endpoint : Endpoint) (r : Request)
    (targetURL : URL)
    (hu : std.urlParse (ProcessTemplates std.getenv endpoint.RemoteURL) = some targetURL) :
    ProxyHandler.targetURL std endpoint r = some { targetURL with
      Path := strings.TrimSuffix targetURL.Path "/" ++
        (if strings.TrimPrefix r.URL.Path endpoint.Path = "" ||
            (strings.TrimPrefix r.URL.Path endpoint.Path).data.head? ≠ some '/'
          then "/" ++ strings.TrimPrefix r.URL.Path endpoint.Path
          else strings.TrimPrefix r.URL.Path endpoint.Path),
      RawQuery := r.URL.RawQuery } := by
  unfold ProxyHandler.targetURL
  simp only [ProcessEndpointTemplates, hu]

theorem ProxyHandler.targetURL_none (std : Stdlib) (endpoint : Endpoint) (r : Request)
    (hu : std.urlParse (ProcessTemplates std.getenv endpoint.RemoteURL) = none) :
    ProxyHandler.targetURL std endpoint r = none := by
  unfold ProxyHandler.targetURL
  simp only [ProcessEndpointTemplates, hu]

theorem ProxyHandler.plan_of_newRequest (std : Stdlib) (endpoint : Endpoint) (cfg : Config)
    (r : Request) (t u : URL) (ht : ProxyHandler.targetURL std endpoint r = some t)
    (hn : std.newRequest r.Method (std.urlString t) = some u) :
    ProxyHandler.plan std endpoint cfg r = .execute
      { Method := if r.Method = "" then "GET" else r.Method,
        URL := { u with RawQuery := (std.encodeQuery
          ((endpoint.QueryParams.map
              (fun m => m.map (fun kv => (kv.1, ProcessTemplates std.getenv kv.2)))).foldl
            (fun q m => m.foldl (fun q kv => Values.Set q kv.1 kv.2) q)
            (std.parseQuery u.RawQuery))) },
        Header := ((endpoint.Headers.map
              (fun m => m.map (fun kv => (kv.1, ProcessTemplates std.getenv kv.2)))).foldl
            (fun (h : Header) m =>
              m.foldl (fun (h : Header) kv => h.Set (textproto.CanonicalMIMEHeaderKey kv.1) kv.2) h)
            (r.Header.foldl (fun (h : Header) kv => kv.2.foldl
              (fun (h : Header) value => h.Add (textproto.CanonicalMIMEHeaderKey kv.1) value) h)
              ([] : Header))),
        Host := t.Host, Body := r.Body }
      (cfg.GetEffectiveTimeout std (ProcessEndpointTemplates std.getenv endpoint)) := by
  unfold ProxyHandler.plan
  simp only [ht, hn, ProcessEndpointTemplates]

theorem ProxyHandler.rest_path (rest : String) :
    (if (rest = "" || decide (rest.data.head? ≠ some '/')) = true then "/" ++ rest
      else rest) = (if strings.HasPrefix rest "/" then rest else "/" ++ rest) := by
  by_cases hh : strings.HasPrefix rest "/" = true
  · have h1 := (strings.head_slash_iff rest).2 hh
    have h2 : rest ≠ "" := by
      intro he
      rw [he] at h1
      simp at h1
    simp [hh, h1, h2]
  · have h1 : ¬ rest.data.head? = some '/' := fun h => hh ((strings.head_slash_iff rest).1 h)
    simp [hh, h1]

theorem ProxyHandler.plan_path (std : Stdlib) (endpoint : Endpoint) (cfg : Config) (r : Request)
    (targetURL : URL) (rest : String)
    (hp : r.URL.Path = endpoint.Path ++ rest)
    (hu : std.urlParse (ProcessTemplates std.getenv endpoint.RemoteURL) = some targetURL)
    (hn : ∀ t, ProxyHandler.targetURL std endpoint r = some t →
      ∃ u, std.newRequest r.Method (std.urlString t) = some u ∧
        u.Scheme = t.Scheme ∧ u.Host = t.Host ∧ u.Path = t.Path) :
    ∃ proxyReq timeout, ProxyHandler.plan std endpoint cfg r = .execute proxyReq timeout ∧
      proxyReq.URL.Scheme = targetURL.Scheme ∧ proxyReq.URL.Host = targetURL.Host ∧
      proxyReq.URL.Path = strings.TrimSuffix targetURL.Path "/" ++
        (if strings.HasPrefix rest "/" then rest else "/" ++ rest) := by
  have hpath : strings.TrimPrefix r.URL.Path endpoint.Path = rest := by
    rw [hp, strings.TrimPrefix_append]
  have ht := ProxyHandler.targetURL_eq std endpoint r targetURL hu
  rw [hpath, ProxyHandler.rest_path] at ht
  obtain ⟨u, hu2, h1, h2, h3⟩ := hn _ ht
  refine ⟨_, _, ProxyHandler.plan_of_newRequest std endpoint cfg r _ u ht hu2, ?_, ?_, ?_⟩
  · exact h1
  · exact h2
  · exact h3

/-- C10: for an endpoint configured at path `p` whose (template-resolved) remote
URL parses with base path `b`, a request for path `p ++ rest` is sent upstream
with target path `b` (without one trailing `/`) followed by `rest` when `rest`
begins with `/` and by `"/" ++ rest` otherwise (also when `rest` is empty);
scheme and host are those of the remote URL.  With endpoint `/api/`, remote
base `http://up.example/v1` and request path `/api/users/123` the target is
`http://up.example/v1/users/123`.  The outbound request is the one
`http.NewRequest` creates from the rendered target URL, which it parses again:
it is taken to succeed and to give back the scheme, host and path of the
target it was given. -/
theorem ProxyHandler_target_path (std : Stdlib) (endpoint : Endpoint) (cfg : Config) (r : Request)
    (targetURL : URL) (rest : String)
    (hp : r.URL.Path = endpoint.Path ++ rest)
    (hu : std.urlParse (ProcessTemplates std.getenv endpoint.RemoteURL) = some targetURL)
    (hn : ∀ t, ProxyHandler.targetURL std endpoint r = some t →
      ∃ u, std.newRequest r.Method (std.urlString t) = some u ∧
        u.Scheme = t.Scheme ∧ u.Host = t.Host ∧ u.Path = t.Path) :
    (∃ t, ProxyHandler.targetURL std endpoint r = some t ∧
      t.Scheme = targetURL.Scheme ∧ t.Host = targetURL.Host ∧
      t.Path = strings.TrimSuffix targetURL.Path "/" ++
        (if strings.HasPrefix rest "/" then rest else "/" ++ rest)) ∧
    (∃ proxyReq timeout, ProxyHandler.plan std endpoint cfg r = .execute proxyReq timeout ∧
      proxyReq.URL.Scheme = targetURL.Scheme ∧ proxyReq.URL.Host = targetURL.Host ∧
      proxyReq.URL.Path = strings.TrimSuffix targetURL.Path "/" ++
        (if strings.HasPrefix rest "/" then rest else "/" ++ rest) ∧
      (∀ b : String, targetURL.Path = b ++ "/" →
        proxyReq.URL.Path = b ++ (if strings.HasPrefix rest "/" then rest else "/" ++ rest)) ∧
      (strings.HasSuffix targetURL.Path "/" = false →
        proxyReq.URL.Path =
          targetURL.Path ++ (if strings.HasPrefix rest "/" then rest else "/" ++ rest))) ∧
    (∀ (std1 : Stdlib) (r1 : Request), r1.URL.Path = "/api/users/123" →
      std1.urlParse "http://up.example/v1"
        = some { Scheme := "http", Host := "up.example", Path := "/v1" } →
      (∀ t, ProxyHandler.targetURL std1
          { Path := "/api/", RemoteURL := "http://up.example/v1" } r1 = some t →
        ∃ u, std1.newRequest r1.Method (std1.urlString t) = some u ∧
          u.Scheme = t.Scheme ∧ u.Host = t.Host ∧ u.Path = t.Path) →
      ∃ proxyReq timeout,
        ProxyHandler.plan std1 { Path := "/api/", RemoteURL := "http://up.example/v1" } cfg r1
          = .execute proxyReq timeout ∧
        URL.String { Scheme := proxyReq.URL.Scheme, Host := proxyReq.URL.Host,
                     Path := proxyReq.URL.Path } = "http://up.example/v1/users/123") := by
  refine ⟨?_, ?_, ?_⟩
  · have hpath : strings.TrimPrefix r.URL.Path endpoint.Path = rest := by
      rw [hp, strings.TrimPrefix_append]
    have ht := ProxyHandler.targetURL_eq std endpoint r targetURL hu
    rw [hpath, ProxyHandler.rest_path] at ht
    exact ⟨_, ht, rfl, rfl, rfl⟩
  · obtain ⟨proxyReq, timeout, h1, h2, h3, h4⟩ :=
      ProxyHandler.plan_path std endpoint cfg r targetURL rest hp hu hn
    refine ⟨proxyReq, timeout, h1, h2, h3, h4, fun b hb => ?_, fun hb => ?_⟩
    · rw [h4, hb, strings.TrimSuffix_append]
    · rw [h4, strings.TrimSuffix_of_not _ _ hb]
  · intro std1 r1 hp1 hu1 hn1
    have hT : ProcessTemplates std1.getenv "http://up.example/v1" = "http://up.example/v1" := rfl
    obtain ⟨proxyReq, timeout, h1, h2, h3, h4⟩ :=
      ProxyHandler.plan_path std1 { Path := "/api/", RemoteURL := "http://up.example/v1" } cfg r1
        { Scheme := "http", Host := "up.example", Path := "/v1" } "users/123"
        (by rw [hp1]; rfl) (by rw [hT]; exact hu1) hn1
    refine ⟨proxyReq, timeout, h1, ?_⟩
    have h5 : proxyReq.URL.Path = "/v1/users/123" := by rw [h4]; decide
    simp only at h2 h3
    rw [h2, h3, h5]
    decide

/-- Witness for C10: the path-stripping example of the test suite in the sample world. -/
theorem ProxyHandler_target_path_witness :
    ∃ proxyReq timeout,
      ProxyHandler.plan sampleStdlib { Path := "/api/", RemoteURL := "http://up.example/v1" } {}
          { URL := { Path := "/api/users/123" } } = .execute proxyReq timeout ∧
      proxyReq.URL.Path = "/v1/users/123" :=
  match (ProxyHandler_target_path sampleStdlib
      { Path := "/api/", RemoteURL := "http://up.example/v1" } {}
      { URL := { Path := "/api/users/123" } }
      { Scheme := "http", Host := "up.example", Path := "/v1" } "users/123"
      rfl rfl
      (fun t ht => Option.some.inj ht ▸ ⟨_, rfl, rfl, rfl, rfl⟩)).2.1 with
  | ⟨proxyReq, timeout, h1, _, _, h4, _⟩ => ⟨proxyReq, timeout, h1, h4.trans (by decide)⟩

/-! ## Claims on timeouts and on the proxy executor -/

/-- C19 (counterexample): with server default `30s` and an endpoint timeout
that is non-empty but does not parse, `GetEffectiveTimeout` returns the constant
ten seconds, not the thirty seconds `GetDefaultTimeout` returns. -/
theorem GetEffectiveTimeout_unparsable_not_server_default :
    sampleStdlib.parseDuration "invalid" = none ∧
    Config.GetDefaultTimeout sampleStdlib { Server := { DefaultTimeout := "30s" } }
      = 30 * 1000000000 ∧
    Config.GetEffectiveTimeout sampleStdlib { Server := { DefaultTimeout := "30s" } }
      { Path := "/test", Timeout := "invalid" } = 10 * 1000000000 ∧
    Config.GetEffectiveTimeout sampleStdlib { Server := { DefaultTimeout := "30s" } }
        { Path := "/test", Timeout := "invalid" }
      ≠ Config.GetDefaultTimeout sampleStdlib { Server := { DefaultTimeout := "30s" } } := by
  decide

/-- C19 (amended): the effective timeout is the endpoint's own timeout when that
string is non-empty and parses, the server-wide default of `GetDefaultTimeout`
when the string is empty, and the constant `DEFAULT_TIMEOUT` (ten seconds) when
the string is non-empty but does not parse. -/
theorem GetEffectiveTimeout_cases (std : Stdlib) (c : Config) (endpoint : Endpoint) :
    (∀ d, endpoint.Timeout ≠ "" → std.parseDuration endpoint.Timeout = some d →
      c.GetEffectiveTimeout std endpoint = d) ∧
    (endpoint.Timeout = "" → c.GetEffectiveTimeout std endpoint = c.GetDefaultTimeout std) ∧
    (endpoint.Timeout ≠ "" → std.parseDuration endpoint.Timeout = none →
      c.GetEffectiveTimeout std endpoint = DEFAULT_TIMEOUT) ∧
    DEFAULT_TIMEOUT = 10 * 1000000000 := by
  refine ⟨fun d h1 h2 => ?_, fun h1 => ?_, fun h1 h2 => ?_, rfl⟩
  · simp [Config.GetEffectiveTimeout, h1, h2]
  · simp [Config.GetEffectiveTimeout, h1]
  · simp [Config.GetEffectiveTimeout, h1, h2]

/-- C20: when the network client reports a transport failure, the proxy executor
answers, on a writer nothing was written to yet, with status 502 and the body
`Request failed` (plus newline); the response is the one `http.Error` builds,
every header other than the three `http.Error` sets is left as it was, and this
holds for the requests built by the endpoint proxy handler and by the forward
handler alike. -/
theorem executeProxyRequest_transport_failure (std : Stdlib) (proxyReq : OutboundRequest)
    (w : ResponseWriter) (timeout : Int)
    (hf : std.clientDo proxyReq timeout = none) (hs : w.status = none) :
    (executeProxyRequest std proxyReq w timeout).status = some 502 ∧
    (executeProxyRequest std proxyReq w timeout).body = w.body ++ "Request failed\n" ∧
    executeProxyRequest std proxyReq w timeout = httpError w "Request failed" 502 ∧
    (∀ k, k ∉ httpErrorKeys →
      (executeProxyRequest std proxyReq w timeout).header.Values k = w.header.Values k) ∧
    (∀ (endpoint : Endpoint) (cfg : Config) (r : Request),
      ProxyHandler.plan std endpoint cfg r = .execute proxyReq timeout →
      (ProxyHandler std endpoint cfg r w).status = some 502 ∧
      (ProxyHandler std endpoint cfg r w).body = w.body ++ "Request failed\n") ∧
    (∀ (cfg : Config) (r : Request),
      ForwardHandler.plan std cfg r = .execute proxyReq timeout →
      (ForwardHandler std cfg r w).status = some 502 ∧
      (ForwardHandler std cfg r w).body = w.body ++ "Request failed\n") := by
  have heq : executeProxyRequest std proxyReq w timeout = httpError w "Request failed" 502 := by
    simp [executeProxyRequest, hf]
  have hst : (httpError w "Request failed" 502).status = some 502 := by
    simp [httpError, ResponseWriter.Write, ResponseWriter.WriteHeader, ResponseWriter.SetHeader, hs]
  have hbo : (httpError w "Request failed" 502).body = w.body ++ "Request failed\n" := by
    simp [httpError, ResponseWriter.Write, ResponseWriter.WriteHeader, ResponseWriter.SetHeader, hs]
  refine ⟨heq ▸ hst, heq ▸ hbo, heq, fun k hk => ?_, fun endpoint cfg r hp => ?_,
    fun cfg r hp => ?_⟩
  · rw [heq]
    exact httpError_Values w _ _ k hk
  · simp only [ProxyHandler, hp, Step.run, heq]
    exact ⟨hst, hbo⟩
  · simp only [ForwardHandler, hp, Step.run, heq]
    exact ⟨hst, hbo⟩

/-- Witness for C20: the unreachable network of the sample world. -/
theorem executeProxyRequest_transport_failure_witness :
    (executeProxyRequest sampleStdlib { URL := { Scheme := "http", Host := "localhost:99999" } }
      {} DEFAULT_TIMEOUT).status = some 502 :=
  (executeProxyRequest_transport_failure sampleStdlib
    { URL := { Scheme := "http", Host := "localhost:99999" } } {} DEFAULT_TIMEOUT rfl rfl).1

/-! ## Claims on template resolution across requests -/

/-- C13 (evaluation at the failing input): an endpoint configured with header
`Authorization: Bearer {{ TOKEN }}` and query parameter `token={{ TOKEN }}`
serves a first request while `TOKEN=abc123` and a second one while
`TOKEN=xyz789`; the second outbound request still carries the values resolved
for the first, although the configured templates resolve to the new value. -/
theorem ProxyHandler_second_request_uses_stale_templates :
    (match (ProxyHandler.serveTwice (sampleWorld "abc123") (sampleWorld "xyz789")
        { Path := "/api/", RemoteURL := "http://up.example/v1",
          Headers := [[("Authorization", "Bearer {{ TOKEN }}")]],
          QueryParams := [[("token", "{{ TOKEN }}")]] } {}
        { URL := { Path := "/api/users" } } { URL := { Path := "/api/users" } }).2 with
      | .execute proxyReq _ => (proxyReq.Header.Get "Authorization", proxyReq.URL.RawQuery)
      | .fail _ _ => ("", "")) = ("Bearer abc123", "token=abc123") ∧
    ProcessTemplates (sampleWorld "xyz789").getenv "Bearer {{ TOKEN }}" = "Bearer xyz789" ∧
    ProcessTemplates (sampleWorld "xyz789").getenv "{{ TOKEN }}" = "xyz789" := by
  refine ⟨by rfl, by rfl, by rfl⟩

/-- C14 (evaluation at the failing input): after the endpoint proxy handler has
served one request while `TOKEN=abc123`, the remote URL kept by the handler and
the contents of the header and query maps it shares with the configuration are
the resolved strings, no longer the configured templates. -/
theorem ProxyHandler_serve_mutates_endpoint :
    (ProxyHandler.serve (sampleWorld "abc123")
        { Path := "/api/", RemoteURL := "http://up.example/{{ TOKEN }}",
          Headers := [[("Authorization", "Bearer {{ TOKEN }}")]],
          QueryParams := [[("token", "{{ TOKEN }}")]] } {}
        { URL := { Path := "/api/users" } }).2
      = { Path := "/api/", RemoteURL := "http://up.example/abc123",
          Headers := [[("Authorization", "Bearer abc123")]],
          QueryParams := [[("token", "abc123")]] } ∧
    (ProxyHandler.serve (sampleWorld "abc123")
        { Path := "/api/", RemoteURL := "http://up.example/{{ TOKEN }}",
          Headers := [[("Authorization", "Bearer {{ TOKEN }}")]],
          QueryParams := [[("token", "{{ TOKEN }}")]] } {}
        { URL := { Path := "/api/users" } }).2
      ≠ { Path := "/api/", RemoteURL := "http://up.example/{{ TOKEN }}",
          Headers := [[("Authorization", "Bearer {{ TOKEN }}")]],
          QueryParams := [[("token", "{{ TOKEN }}")]] } := by
  refine ⟨by rfl, by decide⟩

/-! ## Claims on the trailing-slash normaliser -/

theorem strings.containsList_dot (cs : List Char) :
    strings.containsList ['.'] cs = true ↔ '.' ∈ cs := by
  induction cs with
  | nil => simp [strings.containsList, List.isPrefixOf]
  | cons c rest ih =>
    simp only [strings.containsList, List.isPrefixOf, Bool.or_eq_true, Bool.and_eq_true,
      beq_iff_eq, ih, List.mem_cons]
    constructor
    · rintro (⟨h, -⟩ | h)
      · exact Or.inl h
      · exact Or.inr h
    · rintro (h | h)
      · exact Or.inl ⟨h, by simp⟩
      · exact Or.inr h

theorem strings.Contains_dot (s : String) : strings.Contains s "." = true ↔ '.' ∈ s.data :=
  strings.containsList_dot s.data

theorem strings.lastIndexFrom_no_slash (cs : List Char) (i last : Int) (h : '/' ∉ cs) :
    strings.lastIndexFrom ['/'] cs i last = last := by
  induction cs generalizing i last with
  | nil => simp [strings.lastIndexFrom, List.isPrefixOf]
  | cons c rest ih =>
    have hc : ('/' == c) = false := by
      simp only [beq_eq_false_iff_ne, ne_eq]
      intro hc
      exact h (by rw [hc]; exact List.mem_cons_self _ _)
    have hr : '/' ∉ rest := fun hr => h (List.mem_cons_of_mem _ hr)
    simp [strings.lastIndexFrom, List.isPrefixOf, hc, ih _ _ hr]

theorem strings.lastIndexFrom_last_slash (a seg : List Char) (i last : Int) (h : '/' ∉ seg) :
    strings.lastIndexFrom ['/'] (a ++ '/' :: seg) i last = i + a.length := by
  induction a generalizing i last with
  | nil =>
    simp [strings.lastIndexFrom, List.isPrefixOf, strings.lastIndexFrom_no_slash _ _ _ h]
  | cons c rest ih =>
    show strings.lastIndexFrom ['/'] (c :: (rest ++ '/' :: seg)) i last = _
    rw [strings.lastIndexFrom, ih]
    simp only [List.length_cons, Nat.cast_add, Nat.cast_one]
    omega

theorem strings.lastSegment_eq (p seg : String)
    (hd : (∃ a : String, p = a ++ "/" ++ seg) ∨ seg = p) (hs : '/' ∉ seg.data) :
    strings.sliceFrom p (strings.LastIndex p "/" + 1) = seg := by
  have hsl : ("/" : String).data = ['/'] := rfl
  rcases hd with ⟨a, rfl⟩ | rfl
  · apply String.ext
    simp only [strings.sliceFrom, strings.LastIndex, String.data_append, hsl,
      List.append_assoc, List.singleton_append,
      strings.lastIndexFrom_last_slash a.data seg.data 0 (-1) hs]
    have : ((0 : Int) + (a.data.length : Int) + 1).toNat = a.data.length + 1 := by omega
    rw [this]
    have hsplit : a.data ++ '/' :: seg.data = (a.data ++ ['/']) ++ seg.data := by simp
    rw [hsplit]
    exact List.drop_left' (by simp)
  · apply String.ext
    simp [strings.sliceFrom, strings.LastIndex, hsl, strings.lastIndexFrom_no_slash _ _ _ hs]

/-- C17: let `seg` be the text after the last `/` of the request path `p` (all
of `p` when it has no `/`).  The normaliser hands `p` itself downstream when
`p` is `/`, or ends with `/`, or `seg` contains a `.`, and hands `p ++ "/"`
downstream otherwise; `/api` becomes `/api/`, while `/static/style.css` and `/`
are unchanged. -/
theorem TrailingSlash_normalizes (next : Handler) (r : Request) (w : ResponseWriter)
    (seg : String)
    (hd : (∃ a : String, r.URL.Path = a ++ "/" ++ seg) ∨ seg = r.URL.Path)
    (hs : '/' ∉ seg.data) :
    ((r.URL.Path = "/" ∨ (∃ q : String, r.URL.Path = q ++ "/") ∨ '.' ∈ seg.data) →
      TrailingSlash next r w = next r w) ∧
    (¬ (r.URL.Path = "/" ∨ (∃ q : String, r.URL.Path = q ++ "/") ∨ '.' ∈ seg.data) →
      TrailingSlash next r w
        = next { r with URL := { r.URL with Path := r.URL.Path ++ "/" } } w) ∧
    TrailingSlash.normalize "/api" = "/api/" ∧
    TrailingSlash.normalize "/static/style.css" = "/static/style.css" ∧
    TrailingSlash.normalize "/" = "/" := by
  have hseg := strings.lastSegment_eq r.URL.Path seg hd hs
  refine ⟨fun h => ?_, fun h => ?_, by decide, by decide, by decide⟩
  · unfold TrailingSlash
    simp only [hseg]
    rcases h with h | h | h
    · simp [h]
    · have := (strings.HasSuffix_iff _ _).2 h
      simp [this]
    · have := (strings.Contains_dot seg).2 h
      simp [this]
  · unfold TrailingSlash
    simp only [hseg]
    have h1 : r.URL.Path ≠ "/" := fun h1 => h (Or.inl h1)
    have h2 : strings.HasSuffix r.URL.Path "/" = false := by
      rw [Bool.eq_false_iff]
      exact fun h2 => h (Or.inr (Or.inl ((strings.HasSuffix_iff _ _).1 h2)))
    have h3 : strings.Contains seg "." = false := by
      rw [Bool.eq_false_iff]
      exact fun h3 => h (Or.inr (Or.inr ((strings.Contains_dot seg).1 h3)))
    simp [h1, h2, h3]

/-- Witness for C17: the request path `/api`, whose last segment is `api`. -/
theorem TrailingSlash_normalizes_witness :
    TrailingSlash (fun r w => w.Write r.URL.Path) { URL := { Path := "/api" } } {}
      = { status := some 200, body := "/api/" } :=
  ((TrailingSlash_normalizes (fun r w => w.Write r.URL.Path) { URL := { Path := "/api" } } {}
    "api" (Or.inl ⟨"", by decide⟩) (by decide)).2.1 (by
      rintro (h | ⟨q, h⟩ | h)
      · exact absurd h (by decide)
      · have := congrArg (fun s : String => s.data.getLast?) h
        simp at this
      · exact absurd h (by decide))).trans (by decide)

/-! ## Claims on header and query precedence -/

theorem Header.Values_foldl_Set (f g : String → String) (entries : List (String × String))
    (h0 : Header) (k : String) :
    (entries.foldl (fun h kv => h.Set (f kv.1) (g kv.2)) h0).Values k =
      match (entries.filter (fun e => f e.1 == k)).getLast? with
      | some e => [g e.2]
      | none => h0.Values k := by
  induction entries generalizing h0 with
  | nil => simp
  | cons x xs ih =>
    rw [List.foldl_cons, ih]
    by_cases hx : f x.1 = k
    · have hf : (x :: xs).filter (fun e => f e.1 == k)
          = x :: xs.filter (fun e => f e.1 == k) := by simp [List.filter_cons, hx]
      rw [hf, List.getLast?_cons]
      cases hl : (xs.filter (fun e => f e.1 == k)).getLast? with
      | none => simp [← hx, Header.Values_Set_same]
      | some e => simp
    · have hf : (x :: xs).filter (fun e => f e.1 == k)
          = xs.filter (fun e => f e.1 == k) := by simp [List.filter_cons, hx]
      rw [hf]
      cases hl : (xs.filter (fun e => f e.1 == k)).getLast? with
      | none => simp [Header.Values_Set_ne _ _ _ _ (Ne.symm hx)]
      | some e => simp

theorem Header.Values_foldl_Set_nested (f g : String → String)
    (maps : List (List (String × String))) (h0 : Header) (k : String) :
    ((maps.map (fun m => m.map (fun kv => (kv.1, g kv.2)))).foldl
        (fun h m => m.foldl (fun h kv => h.Set (f kv.1) kv.2) h) h0).Values k =
      match (maps.flatten.filter (fun e => f e.1 == k)).getLast? with
      | some e => [g e.2]
      | none => h0.Values k := by
  rw [← List.foldl_flatten, ← List.map_flatten, List.foldl_map]
  exact Header.Values_foldl_Set f g maps.flatten h0 k

theorem Header.Values_foldl_Add_eq (k key : String) (values : List String) (h : Header) :
    (values.foldl (fun h value => h.Add key value) h).Values k =
      if k = key then h.Values key ++ values else h.Values k := by
  induction values generalizing h with
  | nil => by_cases hk : k = key <;> simp [hk]
  | cons v rest ih =>
    rw [List.foldl_cons, ih, Header.Values_Add, Header.Values_Add]
    by_cases hk : k = key <;> simp [hk]

theorem Header.Values_of_not_mem (h : Header) (k : String) (hk : k ∉ h.map Prod.fst) :
    h.Values k = [] := by
  induction h with
  | nil => rfl
  | cons e rest ih =>
    obtain ⟨a, vs⟩ := e
    simp only [List.map_cons, List.mem_cons, not_or] at hk
    have h1 : (k == a) = false := by simpa using hk.1
    have := ih hk.2
    simp only [Header.Values, List.lookup_cons, h1] at this ⊢
    exact this

theorem Header.Values_foldl_copy_eq (src acc : Header) (k : String)
    (hnd : (src.map Prod.fst).Nodup)
    (hcanon : ∀ e ∈ src, textproto.CanonicalMIMEHeaderKey e.1 = e.1)
    (hacc : ∀ e ∈ src, acc.Values e.1 = []) :
    (src.foldl (fun h kv =>
        kv.2.foldl (fun h value => h.Add (textproto.CanonicalMIMEHeaderKey kv.1) value) h)
        acc).Values k
      = if k ∈ src.map Prod.fst then src.Values k else acc.Values k := by
  induction src generalizing acc with
  | nil => simp
  | cons e rest ih =>
    obtain ⟨a, vs⟩ := e
    simp only [List.map_cons, List.nodup_cons] at hnd
    have hca : textproto.CanonicalMIMEHeaderKey a = a := hcanon (a, vs) (List.mem_cons_self _ _)
    have hacc1 : ∀ e ∈ rest,
        (vs.foldl (fun h value => h.Add a value) acc).Values e.1 = [] := by
      intro e he
      have hne : e.1 ≠ a := by
        intro heq
        exact hnd.1 (heq ▸ List.mem_map_of_mem Prod.fst he)
      rw [Header.Values_foldl_Add_eq, if_neg hne]
      exact hacc e (List.mem_cons_of_mem _ he)
    rw [List.foldl_cons]
    simp only [hca]
    rw [ih _ hnd.2 (fun e he => hcanon e (List.mem_cons_of_mem _ he)) hacc1,
      Header.Values_foldl_Add_eq]
    by_cases hk : k = a
    · subst hk
      have h0 : acc.Values k = [] := hacc (k, vs) (List.mem_cons_self _ _)
      have hcons : Header.Values ((k, vs) :: rest) k = vs := by
        simp [Header.Values, List.lookup_cons]
      rw [if_neg hnd.1, if_pos rfl, h0, hcons]
      simp
    · have h1 : (k == a) = false := by simpa using hk
      have hcons : Header.Values ((a, vs) :: rest) k = Header.Values rest k := by
        simp [Header.Values, List.lookup_cons, h1]
      rw [if_neg hk, hcons]
      by_cases hm : k ∈ rest.map Prod.fst
      · rw [if_pos hm,
          if_pos (show k ∈ List.map Prod.fst ((a, vs) :: rest) from List.mem_cons_of_mem _ hm)]
      · have hm2 : k ∉ List.map Prod.fst ((a, vs) :: rest) := by
          intro hmem
          rcases List.mem_cons.1 hmem with h2 | h2
          · exact hk h2
          · exact hm h2
        rw [if_neg hm, if_neg hm2]

theorem ProxyHandler.plan_execute (std : Stdlib) (endpoint : Endpoint) (cfg : Config)
    (r : Request) (targetURL : URL)
    (hu : std.urlParse (ProcessTemplates std.getenv endpoint.RemoteURL) = some targetURL)
    (hn : ∀ t, ProxyHandler.targetURL std endpoint r = some t →
      (std.newRequest r.Method (std.urlString t)).isSome = true) :
    ∃ proxyReq timeout t u, ProxyHandler.plan std endpoint cfg r = .execute proxyReq timeout ∧
      ProxyHandler.targetURL std endpoint r = some t ∧
      std.newRequest r.Method (std.urlString t) = some u ∧
      proxyReq.Header =
        (endpoint.Headers.map (fun m => m.map (fun kv => (kv.1, ProcessTemplates std.getenv kv.2)))
          ).foldl (fun (h : Header) m =>
            m.foldl (fun (h : Header) kv => h.Set (textproto.CanonicalMIMEHeaderKey kv.1) kv.2) h)
          (r.Header.foldl (fun (h : Header) kv => kv.2.foldl
            (fun (h : Header) value => h.Add (textproto.CanonicalMIMEHeaderKey kv.1) value) h)
            ([] : Header)) ∧
      proxyReq.URL.RawQuery = std.encodeQuery
        ((endpoint.QueryParams.map
            (fun m => m.map (fun kv => (kv.1, ProcessTemplates std.getenv kv.2)))).foldl
          (fun q m => m.foldl (fun q kv => Values.Set q kv.1 kv.2) q)
          (std.parseQuery u.RawQuery)) := by
  have ht := ProxyHandler.targetURL_eq std endpoint r targetURL hu
  obtain ⟨u, hu2⟩ := Option.isSome_iff_exists.1 (hn _ ht)
  exact ⟨_, _, _, u, ProxyHandler.plan_of_newRequest std endpoint cfg r _ u ht hu2, ht, hu2,
    rfl, rfl⟩

/-- C11: on the outbound request built by the endpoint proxy handler, every
configured header key (in canonical form `k`) carries exactly one value, the
template-resolved value of the last configured entry for that key in
declaration order, whatever the inbound request carried under it; every header
whose key is not configured carries exactly the inbound values.  The inbound
header map has pairwise distinct keys in canonical form, as `net/http` delivers
it, and `http.NewRequest` succeeds on the rendered target URL. -/
theorem ProxyHandler_header_precedence (std : Stdlib) (endpoint : Endpoint) (cfg : Config)
    (r : Request) (targetURL : URL)
    (hu : std.urlParse (ProcessTemplates std.getenv endpoint.RemoteURL) = some targetURL)
    (hn : ∀ t, ProxyHandler.targetURL std endpoint r = some t →
      (std.newRequest r.Method (std.urlString t)).isSome = true)
    (hnd : (r.Header.map Prod.fst).Nodup)
    (hcanon : ∀ e ∈ r.Header, textproto.CanonicalMIMEHeaderKey e.1 = e.1) :
    ∃ proxyReq timeout, ProxyHandler.plan std endpoint cfg r = .execute proxyReq timeout ∧
      (∀ k key value,
        (endpoint.Headers.flatten.filter
          (fun e => textproto.CanonicalMIMEHeaderKey e.1 == k)).getLast? = some (key, value) →
        proxyReq.Header.Values k = [ProcessTemplates std.getenv value]) ∧
      (∀ k, (∀ e ∈ endpoint.Headers.flatten, textproto.CanonicalMIMEHeaderKey e.1 ≠ k) →
        proxyReq.Header.Values k = r.Header.Values k) := by
  obtain ⟨proxyReq, timeout, -, -, hplan, -, -, hh, -⟩ :=
    ProxyHandler.plan_execute std endpoint cfg r targetURL hu hn
  have hcopy : ∀ k, Header.Values (r.Header.foldl (fun (h : Header) kv => kv.2.foldl
      (fun (h : Header) value => h.Add (textproto.CanonicalMIMEHeaderKey kv.1) value) h)
      ([] : Header)) k = r.Header.Values k := by
    intro k
    rw [Header.Values_foldl_copy_eq r.Header [] k hnd hcanon (fun _ _ => rfl)]
    by_cases hm : k ∈ r.Header.map Prod.fst
    · rw [if_pos hm]
    · rw [if_neg hm, Header.Values_of_not_mem _ _ hm]
      rfl
  refine ⟨proxyReq, timeout, hplan, fun k key value hl => ?_, fun k hk => ?_⟩
  · rw [hh, Header.Values_foldl_Set_nested, hl]
  · have hf : endpoint.Headers.flatten.filter
        (fun e => textproto.CanonicalMIMEHeaderKey e.1 == k) = [] := by
      rw [List.filter_eq_nil_iff]
      intro e he
      simpa using hk e he
    rw [hh, Header.Values_foldl_Set_nested, hf]
    exact hcopy k

/-- Witness for C11: the configured `X-Key: server` replaces the inbound
`X-Key: client`, and the inbound `Accept` header is carried over. -/
theorem ProxyHandler_header_precedence_witness :
    ∃ proxyReq timeout,
      ProxyHandler.plan sampleStdlib
          { Path := "/api/", RemoteURL := "http://up.example/v1",
            Headers := [[("X-Key", "server")]] } {}
          { URL := { Path := "/api/users" },
            Header := [("X-Key", ["client"]), ("Accept", ["a", "b"])] }
        = .execute proxyReq timeout ∧
      proxyReq.Header.Values "X-Key" = ["server"] ∧
      proxyReq.Header.Values "Accept" = ["a", "b"] :=
  match ProxyHandler_header_precedence sampleStdlib
      { Path := "/api/", RemoteURL := "http://up.example/v1",
        Headers := [[("X-Key", "server")]] } {}
      { URL := { Path := "/api/users" },
        Header := [("X-Key", ["client"]), ("Accept", ["a", "b"])] }
      { Scheme := "http", Host := "up.example", Path := "/v1" }
      rfl (fun t ht => Option.some.inj ht ▸ rfl) (by decide) (by decide) with
  | ⟨proxyReq, timeout, h1, h2, h3⟩ =>
    ⟨proxyReq, timeout, h1, (h2 "X-Key" "X-Key" "server" (by decide)).trans (by decide),
      (h3 "Accept" (by decide)).trans (by decide)⟩

/-- C12 (counterexample): the client sends `tag=a#b&limit=10`, two parameters
none of which is configured.  The handler renders the target URL with that raw
query and `http.NewRequest` parses the string again, taking everything after
`#` as the fragment: the outbound query is `tag=a`, so `tag` has lost part of
its value and `limit` is gone. -/
theorem ProxyHandler_query_cut_at_fragment :
    sampleStdlib.parseQuery "tag=a#b&limit=10" = [("limit", ["10"]), ("tag", ["a#b"])] ∧
    ProxyHandler.targetURL sampleStdlib { Path := "/search", RemoteURL := "http://up.example/v1" }
        { URL := { Path := "/search", RawQuery := "tag=a#b&limit=10" } }
      = some { Scheme := "http", Host := "up.example", Path := "/v1/",
               RawQuery := "tag=a#b&limit=10" } ∧
    sampleStdlib.urlString { Scheme := "http", Host := "up.example", Path := "/v1/",
                             RawQuery := "tag=a#b&limit=10" }
      = "http://up.example/v1/?tag=a#b&limit=10" ∧
    ProxyHandler.plan sampleStdlib { Path := "/search", RemoteURL := "http://up.example/v1" } {}
        { URL := { Path := "/search", RawQuery := "tag=a#b&limit=10" } }
      = .execute { URL := { Scheme := "http", Host := "up.example", Path := "/v1/",
                            RawQuery := "tag=a", Fragment := "b&limit=10" },
                   Host := "up.example" } DEFAULT_TIMEOUT ∧
    Values.All (sampleStdlib.parseQuery "tag=a") "tag" ≠
      Values.All (sampleStdlib.parseQuery "tag=a#b&limit=10") "tag" ∧
    Values.All (sampleStdlib.parseQuery "tag=a") "limit" ≠
      Values.All (sampleStdlib.parseQuery "tag=a#b&limit=10") "limit" := by
  refine ⟨by rfl, by rfl, by rfl, by rfl, by decide, by decide⟩

/-- C12 (amended): when the URL `http.NewRequest` parses from the rendered
target has the inbound raw query (as it does when that query holds no `#`), the
query handed to `Values.Encode` for the outbound request has, for every
configured query key, exactly one value, the template-resolved value of the
last configured entry for that key, however many values the client sent for
it; every other key keeps all the values parsed from the inbound query string. -/
theorem ProxyHandler_query_precedence (std : Stdlib) (endpoint : Endpoint) (cfg : Config)
    (r : Request) (targetURL : URL)
    (hu : std.urlParse (ProcessTemplates std.getenv endpoint.RemoteURL) = some targetURL)
    (hn : ∀ t, ProxyHandler.targetURL std endpoint r = some t →
      ∃ u, std.newRequest r.Method (std.urlString t) = some u ∧ u.RawQuery = r.URL.RawQuery) :
    ∃ proxyReq timeout q, ProxyHandler.plan std endpoint cfg r = .execute proxyReq timeout ∧
      proxyReq.URL.RawQuery = std.encodeQuery q ∧
      (∀ k key value,
        (endpoint.QueryParams.flatten.filter (fun e => e.1 == k)).getLast? = some (key, value) →
        Values.All q k = [ProcessTemplates std.getenv value]) ∧
      (∀ k, (∀ e ∈ endpoint.QueryParams.flatten, e.1 ≠ k) →
        Values.All q k = Values.All (std.parseQuery r.URL.RawQuery) k) := by
  have ht := ProxyHandler.targetURL_eq std endpoint r targetURL hu
  obtain ⟨u, hu2, hq⟩ := hn _ ht
  refine ⟨_, _, _, ProxyHandler.plan_of_newRequest std endpoint cfg r _ u ht hu2, rfl,
    fun k key value hl => ?_, fun k hk => ?_⟩
  · have := Header.Values_foldl_Set_nested id (ProcessTemplates std.getenv)
      endpoint.QueryParams (std.parseQuery u.RawQuery) k
    simp only [id, hl] at this
    exact this
  · have hf : endpoint.QueryParams.flatten.filter (fun e => e.1 == k) = [] := by
      rw [List.filter_eq_nil_iff]
      intro e he
      simpa using hk e he
    have := Header.Values_foldl_Set_nested id (ProcessTemplates std.getenv)
      endpoint.QueryParams (std.parseQuery u.RawQuery) k
    simp only [id, hf] at this
    rw [← hq]
    exact this

/-- Witness for C12: the client sends `q=test&version=v0&version=v9`; the
configured `version=v1` is the single value of `version` in the outbound query
and the client's `q=test` is preserved. -/
theorem ProxyHandler_query_precedence_witness :
    (∃ proxyReq timeout q,
      ProxyHandler.plan sampleStdlib
          { Path := "/search", RemoteURL := "http://up.example/v1",
            QueryParams := [[("version", "v0")], [("version", "v1")]] } {}
          { URL := { Path := "/search", RawQuery := "q=test&version=v0&version=v9" } }
        = .execute proxyReq timeout ∧
      proxyReq.URL.RawQuery = sampleStdlib.encodeQuery q ∧
      Values.All q "version" = ["v1"] ∧ Values.All q "q" = ["test"]) ∧
    ProxyHandler.plan sampleStdlib
        { Path := "/search", RemoteURL := "http://up.example/v1",
          QueryParams := [[("version", "v0")], [("version", "v1")]] } {}
        { URL := { Path := "/search", RawQuery := "q=test&version=v0&version=v9" } }
      = .execute { URL := { Scheme := "http", Host := "up.example", Path := "/v1/",
                            RawQuery := "q=test&version=v1" },
                   Host := "up.example" } DEFAULT_TIMEOUT :=
  ⟨match ProxyHandler_query_precedence sampleStdlib
      { Path := "/search", RemoteURL := "http://up.example/v1",
        QueryParams := [[("version", "v0")], [("version", "v1")]] } {}
      { URL := { Path := "/search", RawQuery := "q=test&version=v0&version=v9" } }
      { Scheme := "http", Host := "up.example", Path := "/v1" }
      rfl (fun t ht => Option.some.inj ht ▸ ⟨_, rfl, rfl⟩) with
    | ⟨proxyReq, timeout, q, h1, h2, h3, h4⟩ =>
      ⟨proxyReq, timeout, q, h1, h2,
        (h3 "version" "version" "v1" (by decide)).trans (by decide),
        (h4 "q" (by decide)).trans (by decide)⟩,
    by rfl⟩

/-! ## Claims on the template resolver -/

theorem takeWhile_no_close (body t : List Char) (hb : ∀ c ∈ body, c ≠ '}') :
    (body ++ '}' :: t).takeWhile (fun c => c != '}') = body ∧
    (body ++ '}' :: t).dropWhile (fun c => c != '}') = '}' :: t := by
  induction body with
  | nil => simp [List.takeWhile, List.dropWhile]
  | cons x xs ih =>
    have hx : (x != '}') = true := by simpa using hb x (List.mem_cons_self _ _)
    have := ih (fun c hc => hb c (List.mem_cons_of_mem _ hc))
    simp [List.takeWhile, List.dropWhile, hx, this.1, this.2]

theorem matchTemplate_open (rest : List Char) :
    matchTemplate ('{' :: '{' :: rest) =
      match rest.takeWhile (fun c => c != '}'), rest.dropWhile (fun c => c != '}') with
      | x :: run, '}' :: '}' :: tail => some ('{' :: '{' :: (x :: run) ++ ['}', '}'], tail)
      | _, _ => none := by
  rw [matchTemplate]

theorem matchTemplate_of_body (body tail : List Char) (hne : body ≠ [])
    (hb : ∀ c ∈ body, c ≠ '}') :
    matchTemplate ('{' :: '{' :: body ++ '}' :: '}' :: tail)
      = some ('{' :: '{' :: body ++ ['}', '}'], tail) := by
  obtain ⟨h1, h2⟩ := takeWhile_no_close body ('}' :: tail) hb
  have : '{' :: '{' :: body ++ '}' :: '}' :: tail = '{' :: '{' :: (body ++ '}' :: '}' :: tail) := by
    simp
  rw [this, matchTemplate_open, h1, h2]
  cases body with
  | nil => exact absurd rfl hne
  | cons x xs => simp

theorem matchTemplate_some (cs m tail : List Char) (h : matchTemplate cs = some (m, tail)) :
    ∃ body, body ≠ [] ∧ (∀ c ∈ body, c ≠ '}') ∧ m = '{' :: '{' :: body ++ ['}', '}'] ∧
      cs = '{' :: '{' :: body ++ '}' :: '}' :: tail := by
  unfold matchTemplate at h
  split at h
  · rename_i rest
    split at h
    · rename_i x run tail2 htw hdw
      simp only [Option.some.injEq, Prod.mk.injEq] at h
      obtain ⟨rfl, rfl⟩ := h
      refine ⟨x :: run, by simp, fun c hc => ?_, rfl, ?_⟩
      · have hc2 : c ∈ rest.takeWhile (fun c => c != '}') := htw ▸ hc
        simpa using List.mem_takeWhile_imp hc2
      · have := List.takeWhile_append_dropWhile (fun c => c != '}') rest
        rw [htw, hdw] at this
        simp [← this]
    · simp at h
  · simp at h

theorem matchTemplate_tail_length (cs m tail : List Char)
    (h : matchTemplate cs = some (m, tail)) : tail.length < cs.length := by
  obtain ⟨body, -, -, -, rfl⟩ := matchTemplate_some cs m tail h
  simp
  omega

theorem matchTemplate_head (c : Char) (cs : List Char) (hc : c ≠ '{') :
    matchTemplate (c :: cs) = none := by
  cases hm : matchTemplate (c :: cs) with
  | none => rfl
  | some p =>
    obtain ⟨m, tail⟩ := p
    obtain ⟨body, -, -, -, h⟩ := matchTemplate_some _ m tail hm
    simp only [List.cons_append, List.cons.injEq] at h
    exact absurd h.1 hc

theorem ProcessTemplates.scan_fuel (getenv : String → String) (fuel1 fuel2 : Nat)
    (cs : List Char) (h1 : cs.length < fuel1) (h2 : cs.length < fuel2) :
    ProcessTemplates.scan getenv fuel1 cs = ProcessTemplates.scan getenv fuel2 cs := by
  induction fuel1 generalizing fuel2 cs with
  | zero => omega
  | succ n ih =>
    cases fuel2 with
    | zero => omega
    | succ k =>
      cases cs with
      | nil => simp [ProcessTemplates.scan]
      | cons c rest =>
        simp only [List.length_cons] at h1 h2
        cases hm : matchTemplate (c :: rest) with
        | none =>
          simp only [ProcessTemplates.scan, hm]
          rw [ih k rest (by omega) (by omega)]
        | some p =>
          obtain ⟨m, tail⟩ := p
          have hl := matchTemplate_tail_length _ m tail hm
          simp only [List.length_cons] at hl
          simp only [ProcessTemplates.scan, hm]
          rw [ih k tail (by omega) (by omega)]

theorem ProcessTemplates.chars_nil (getenv : String → String) :
    ProcessTemplates.chars getenv [] = [] := rfl

theorem ProcessTemplates.chars_match (getenv : String → String) (cs m tail : List Char)
    (hm : matchTemplate cs = some (m, tail)) :
    ProcessTemplates.chars getenv cs
      = ProcessTemplates.replace getenv m ++ ProcessTemplates.chars getenv tail := by
  have hl := matchTemplate_tail_length cs m tail hm
  cases cs with
  | nil => simp at hl
  | cons c rest =>
    simp only [List.length_cons] at hl
    simp only [ProcessTemplates.chars, List.length_cons, ProcessTemplates.scan, hm]
    rw [ProcessTemplates.scan_fuel getenv (rest.length + 1) (tail.length + 1) tail (by omega)
      (by omega)]

theorem ProcessTemplates.chars_skip (getenv : String → String) (c : Char) (cs : List Char)
    (hm : matchTemplate (c :: cs) = none) :
    ProcessTemplates.chars getenv (c :: cs) = c :: ProcessTemplates.chars getenv cs := by
  simp only [ProcessTemplates.chars, List.length_cons, ProcessTemplates.scan, hm]

theorem ProcessTemplates.chars_no_open (getenv : String → String) (pre cs : List Char)
    (hp : '{' ∉ pre) :
    ProcessTemplates.chars getenv (pre ++ cs) = pre ++ ProcessTemplates.chars getenv cs := by
  induction pre with
  | nil => rfl
  | cons c rest ih =>
    have hc : c ≠ '{' := fun h => hp (h ▸ List.mem_cons_self _ _)
    have hr : '{' ∉ rest := fun h => hp (List.mem_cons_of_mem _ h)
    rw [List.cons_append, ProcessTemplates.chars_skip getenv c _ (matchTemplate_head c _ hc),
      ih hr, List.cons_append]

theorem ProcessTemplates.chars_no_open_self (getenv : String → String) (cs : List Char)
    (hp : '{' ∉ cs) : ProcessTemplates.chars getenv cs = cs := by
  have := ProcessTemplates.chars_no_open getenv cs [] hp
  simpa [ProcessTemplates.chars_nil] using this

theorem ProcessTemplates_data (getenv : String → String) (input : String) :
    (ProcessTemplates getenv input).data = ProcessTemplates.chars getenv input.data := rfl

theorem dropWhile_isSpace_of_head (cs : List Char)
    (h : ∀ c, cs.head? = some c → isSpace c = false) : cs.dropWhile isSpace = cs := by
  cases cs with
  | nil => rfl
  | cons c rest => simp [List.dropWhile, h c rfl]

theorem strings.TrimSpace_padded (name : List Char) (hne : name ≠ [])
    (hhead : ∀ c, name.head? = some c → isSpace c = false)
    (hlast : ∀ c, name.getLast? = some c → isSpace c = false) :
    strings.TrimSpace ⟨' ' :: name ++ [' ']⟩ = ⟨name⟩ := by
  have hsp : isSpace ' ' = true := by decide
  have h1 : (' ' :: name ++ [' ']).dropWhile isSpace = name ++ [' '] := by
    rw [List.cons_append, List.dropWhile_cons, if_pos hsp]
    apply dropWhile_isSpace_of_head
    intro c hc
    cases name with
    | nil => exact absurd rfl hne
    | cons x xs => exact hhead c (by simpa using hc)
  have h2 : (name ++ [' ']).reverse.dropWhile isSpace = name.reverse := by
    rw [List.reverse_append, List.reverse_singleton, List.singleton_append, List.dropWhile_cons,
      if_pos hsp]
    apply dropWhile_isSpace_of_head
    intro c hc
    exact hlast c (by rw [← List.head?_reverse]; exact hc)
  apply String.ext
  simp only [strings.TrimSpace, h1, h2, List.reverse_reverse]

theorem ProcessTemplates.replace_padded (getenv : String → String) (name : List Char)
    (hne : name ≠ [])
    (hhead : ∀ c, name.head? = some c → isSpace c = false)
    (hlast : ∀ c, name.getLast? = some c → isSpace c = false) :
    ProcessTemplates.replace getenv ('{' :: '{' :: (' ' :: name ++ [' ']) ++ ['}', '}'])
      = if getenv ⟨name⟩ ≠ "" then (getenv ⟨name⟩).data
        else '{' :: '{' :: (' ' :: name ++ [' ']) ++ ['}', '}'] := by
  have hmid : (('{' :: '{' :: (' ' :: name ++ [' ']) ++ ['}', '}']).drop 2).take
      (('{' :: '{' :: (' ' :: name ++ [' ']) ++ ['}', '}']).length - 4)
      = ' ' :: name ++ [' '] := by
    have hlen : ('{' :: '{' :: (' ' :: name ++ [' ']) ++ ['}', '}']).length - 4
        = (' ' :: name ++ [' ']).length := by
      simp
    rw [hlen]
    show ((' ' :: name ++ [' ']) ++ ['}', '}']).take (' ' :: name ++ [' ']).length = _
    exact List.take_left' rfl
  unfold ProcessTemplates.replace
  simp only [hmid, strings.TrimSpace_padded name hne hhead hlast]

/-- C15: for a text `pre ++ "{{ " ++ name ++ " }}" ++ post` in which `name` is
non-empty, holds no closing brace and neither starts nor ends with white space,
and `pre` and `post` hold no opening brace, `ProcessTemplates` returns
`pre ++ v ++ post` when the environment gives `name` the non-empty value `v`,
and the text unchanged when the variable is unset or empty (`os.Getenv` returns
the empty string in both cases).  `Bearer {{ TOKEN }}` resolves to
`Bearer abc123` with `TOKEN=abc123` and to itself with `TOKEN` empty or unset. -/
theorem ProcessTemplates_single_placeholder (getenv : String → String) (pre name post : String)
    (hname : name ≠ "") (hclose : '}' ∉ name.data)
    (hhead : ∀ c, name.data.head? = some c → isSpace c = false)
    (hlast : ∀ c, name.data.getLast? = some c → isSpace c = false)
    (hpre : '{' ∉ pre.data) (hpost : '{' ∉ post.data) :
    (getenv name ≠ "" →
      ProcessTemplates getenv (pre ++ "\x7b\x7b " ++ name ++ " \x7d\x7d" ++ post)
        = pre ++ getenv name ++ post) ∧
    (getenv name = "" →
      ProcessTemplates getenv (pre ++ "\x7b\x7b " ++ name ++ " \x7d\x7d" ++ post)
        = pre ++ "\x7b\x7b " ++ name ++ " \x7d\x7d" ++ post) ∧
    ProcessTemplates (sampleWorld "abc123").getenv "Bearer {{ TOKEN }}" = "Bearer abc123" ∧
    ProcessTemplates (sampleWorld "").getenv "Bearer {{ TOKEN }}" = "Bearer {{ TOKEN }}" ∧
    ProcessTemplates sampleStdlib.getenv "Bearer {{ TOKEN }}" = "Bearer {{ TOKEN }}" := by
  have hne : name.data ≠ [] := fun h => hname (String.ext h)
  have hbody : ∀ c ∈ ' ' :: name.data ++ [' '], c ≠ '}' := by
    intro c hc
    simp only [List.cons_append, List.mem_cons, List.mem_append, List.mem_singleton,
      List.mem_nil_iff, or_false] at hc
    rcases hc with rfl | hc | rfl
    · decide
    · exact fun h => hclose (h ▸ hc)
    · decide
  have hdata : (pre ++ "\x7b\x7b " ++ name ++ " \x7d\x7d" ++ post).data
      = pre.data ++ ('{' :: '{' :: (' ' :: name.data ++ [' ']) ++ '}' :: '}' :: post.data) := by
    have h1 : ("\x7b\x7b " : String).data = ['{', '{', ' '] := rfl
    have h2 : (" \x7d\x7d" : String).data = [' ', '}', '}'] := rfl
    simp [String.data_append, h1, h2]
  have hmain : (ProcessTemplates getenv (pre ++ "\x7b\x7b " ++ name ++ " \x7d\x7d" ++ post)).data
      = pre.data ++ ((if getenv name ≠ "" then (getenv name).data
          else '{' :: '{' :: (' ' :: name.data ++ [' ']) ++ ['}', '}']) ++ post.data) := by
    rw [ProcessTemplates_data, hdata, ProcessTemplates.chars_no_open getenv _ _ hpre,
      ProcessTemplates.chars_match getenv _ _ _
        (matchTemplate_of_body (' ' :: name.data ++ [' ']) post.data (by simp) hbody),
      ProcessTemplates.replace_padded getenv name.data hne hhead hlast,
      ProcessTemplates.chars_no_open_self getenv _ hpost]
  refine ⟨fun hv => ?_, fun hv => ?_, by decide, by decide, by decide⟩
  · apply String.ext
    rw [hmain, if_pos hv]
    simp [String.data_append]
  · apply String.ext
    have hv2 : ¬ getenv name ≠ "" := fun h => h hv
    rw [hmain, if_neg hv2, hdata]
    simp

/-- Witness for C15: `name = "TOKEN"` between `"Bearer "` and the empty text. -/
theorem ProcessTemplates_single_placeholder_witness :
    ProcessTemplates (sampleWorld "abc123").getenv ("Bearer " ++ "\x7b\x7b " ++ "TOKEN" ++ " \x7d\x7d" ++ "")
      = "Bearer " ++ (sampleWorld "abc123").getenv "TOKEN" ++ "" :=
  (ProcessTemplates_single_placeholder (sampleWorld "abc123").getenv "Bearer " "TOKEN" ""
    (by decide) (by decide) (by intro c hc; cases hc; decide)
    (by intro c hc; cases hc; decide) (by decide) (by decide)).1 (by decide)

/-- C16 (counterexample): with `X` set to the text `{{ Y }}` and `Y` set to `z`
(no variable is empty), one pass over `{{ X }}` gives `{{ Y }}` and a second
pass gives `z`. -/
theorem ProcessTemplates_not_idempotent :
    nestedEnvironment "X" ≠ "" ∧ nestedEnvironment "Y" ≠ "" ∧
    ProcessTemplates nestedEnvironment "{{ X }}" = "{{ Y }}" ∧
    ProcessTemplates nestedEnvironment (ProcessTemplates nestedEnvironment "{{ X }}") = "z" ∧
    ProcessTemplates nestedEnvironment (ProcessTemplates nestedEnvironment "{{ X }}")
      ≠ ProcessTemplates nestedEnvironment "{{ X }}" := by
  decide

theorem first_close_unique (u v t t2 : List Char) (hu : ∀ c ∈ u, c ≠ '}')
    (hv : ∀ c ∈ v, c ≠ '}') (h : u ++ '}' :: t = v ++ '}' :: t2) : u = v ∧ t = t2 := by
  have h1 := takeWhile_no_close u t hu
  have h2 := takeWhile_no_close v t2 hv
  rw [h] at h1
  refine ⟨h1.1.symm.trans h2.1, ?_⟩
  have := h1.2.symm.trans h2.2
  simpa using this

theorem matchTemplate_none_iff (rest : List Char) :
    matchTemplate ('{' :: '{' :: rest) = none ↔ ¬ closesTemplate rest := by
  constructor
  · rintro h ⟨body, tail, hne, hb, rfl⟩
    have := matchTemplate_of_body body tail hne hb
    simp only [List.cons_append] at this h
    rw [h] at this
    exact absurd this (by simp)
  · intro h
    cases hm : matchTemplate ('{' :: '{' :: rest) with
    | none => rfl
    | some p =>
      obtain ⟨m, tail⟩ := p
      obtain ⟨body, hne, hb, -, hcs⟩ := matchTemplate_some _ m tail hm
      simp only [List.cons_append, List.cons.injEq, true_and] at hcs
      exact absurd ⟨body, tail, hne, hb, hcs⟩ h

theorem matchTemplate_second (c d : Char) (cs : List Char) (hd : d ≠ '{') :
    matchTemplate (c :: d :: cs) = none := by
  cases hm : matchTemplate (c :: d :: cs) with
  | none => rfl
  | some p =>
    obtain ⟨m, tail⟩ := p
    obtain ⟨body, -, -, -, h⟩ := matchTemplate_some _ m tail hm
    simp only [List.cons_append, List.cons.injEq] at h
    exact absurd h.2.1 hd

theorem ProcessTemplates.replace_cases (getenv : String → String) (m : List Char) :
    ProcessTemplates.replace getenv m = m ∨
    ∃ name, getenv name ≠ "" ∧ ProcessTemplates.replace getenv m = (getenv name).data := by
  unfold ProcessTemplates.replace
  simp only
  split_ifs with h
  · exact Or.inr ⟨_, h, rfl⟩
  · exact Or.inl rfl

theorem String.data_ne_nil_of_ne (s : String) (h : s ≠ "") : s.data ≠ [] :=
  fun hd => h (String.ext hd)

theorem ProcessTemplates.chars_head (getenv : String → String)
    (hv : ∀ name, '{' ∉ (getenv name).data ∧ '}' ∉ (getenv name).data)
    (cs : List Char) (h : cs.head? ≠ some '}') :
    (ProcessTemplates.chars getenv cs).head? ≠ some '}' := by
  cases cs with
  | nil => simp [ProcessTemplates.chars_nil]
  | cons c rest =>
    cases hm : matchTemplate (c :: rest) with
    | none =>
      rw [ProcessTemplates.chars_skip getenv c rest hm]
      simpa using h
    | some p =>
      obtain ⟨m, tail⟩ := p
      rw [ProcessTemplates.chars_match getenv _ m tail hm]
      obtain ⟨body, -, -, hmeq, -⟩ := matchTemplate_some _ m tail hm
      rcases ProcessTemplates.replace_cases getenv m with hr | ⟨name, hne, hr⟩
      · rw [hr, hmeq]
        simp
      · rw [hr]
        cases hd : (getenv name).data with
        | nil => exact absurd hd (String.data_ne_nil_of_ne _ hne)
        | cons x xs =>
          have hx : x ≠ '}' := fun hx => (hv name).2 (by rw [hd, hx]; exact List.mem_cons_self _ _)
          simpa using hx

theorem ProcessTemplates.chars_run (getenv : String → String) (r a : List Char)
    (hr : ∀ c ∈ r, c ≠ '}')
    (ha : a = [] ∨ ∃ t, a = '}' :: t ∧ t.head? ≠ some '}') :
    ProcessTemplates.chars getenv (r ++ a) = r ++ ProcessTemplates.chars getenv a := by
  induction r with
  | nil => rfl
  | cons x rest ih =>
    have hrest : ∀ c ∈ rest, c ≠ '}' := fun c hc => hr c (List.mem_cons_of_mem _ hc)
    have hm : matchTemplate (x :: (rest ++ a)) = none := by
      cases hm : matchTemplate (x :: (rest ++ a)) with
      | none => rfl
      | some p =>
        exfalso
        obtain ⟨m, tail⟩ := p
        obtain ⟨body, -, hb, -, hcs⟩ := matchTemplate_some _ m tail hm
        simp only [List.cons_append, List.cons.injEq] at hcs
        have hcs2 : rest ++ a = ('{' :: body) ++ '}' :: ('}' :: tail) := by
          rw [hcs.2]
          simp
        have hb2 : ∀ c ∈ '{' :: body, c ≠ '}' := by
          intro c hc
          rcases List.mem_cons.1 hc with rfl | hc
          · decide
          · exact hb c hc
        rcases ha with rfl | ⟨t, rfl, ht⟩
        · have hmem : '}' ∈ rest ++ ([] : List Char) := by
            rw [hcs2]
            simp
          rw [List.append_nil] at hmem
          exact hrest _ hmem rfl
        · have := (first_close_unique rest ('{' :: body) t ('}' :: tail) hrest hb2 hcs2).2
          rw [this] at ht
          simp at ht
    rw [List.cons_append, ProcessTemplates.chars_skip getenv x _ hm, ih hrest, List.cons_append]

theorem span_close (rest : List Char) :
    ∃ r a, rest = r ++ a ∧ (∀ c ∈ r, c ≠ '}') ∧ (a = [] ∨ ∃ t, a = '}' :: t) := by
  refine ⟨rest.takeWhile (fun c => c != '}'), rest.dropWhile (fun c => c != '}'),
    (List.takeWhile_append_dropWhile _ rest).symm, fun c hc => ?_, ?_⟩
  · simpa using List.mem_takeWhile_imp hc
  · cases hd : rest.dropWhile (fun c => c != '}') with
    | nil => exact Or.inl rfl
    | cons d t =>
      right
      have := List.head_dropWhile_not (fun c => c != '}') rest (by rw [hd]; simp)
      simp only [hd, List.head_cons] at this
      have hd2 : d = '}' := by simpa using this
      exact ⟨t, by rw [hd2]⟩

theorem ProcessTemplates.chars_keeps_open (getenv : String → String)
    (hv : ∀ name, '{' ∉ (getenv name).data ∧ '}' ∉ (getenv name).data)
    (rest : List Char) (h : ¬ closesTemplate rest) :
    ¬ closesTemplate (ProcessTemplates.chars getenv rest) := by
  obtain ⟨r, a, rfl, hr, ha⟩ := span_close rest
  rcases ha with rfl | ⟨t, rfl⟩
  · rw [List.append_nil, ← List.append_nil r, ProcessTemplates.chars_run getenv r [] hr
      (Or.inl rfl), ProcessTemplates.chars_nil, List.append_nil]
    rintro ⟨body, tail, -, -, hcs⟩
    have : '}' ∈ r := by rw [hcs]; simp
    exact hr _ this rfl
  · by_cases ht : t.head? = some '}'
    · have hrn : r = [] := by
        by_contra hrn
        cases t with
        | nil => simp at ht
        | cons d t2 =>
          have hd : d = '}' := by simpa using ht
          exact h ⟨r, t2, hrn, hr, by rw [hd]⟩
      subst hrn
      rw [List.nil_append, ProcessTemplates.chars_skip getenv '}' t
        (matchTemplate_head '}' t (by decide))]
      rintro ⟨body, tail, hne, hb, hcs⟩
      cases body with
      | nil => exact hne rfl
      | cons b bs =>
        simp only [List.cons_append, List.cons.injEq] at hcs
        exact hb b (List.mem_cons_self _ _) hcs.1.symm
    · rw [ProcessTemplates.chars_run getenv r ('}' :: t) hr (Or.inr ⟨t, rfl, ht⟩),
        ProcessTemplates.chars_skip getenv '}' t (matchTemplate_head '}' t (by decide))]
      rintro ⟨body, tail, -, hb, hcs⟩
      have := (first_close_unique r body _ ('}' :: tail) hr hb hcs).2
      have hh := ProcessTemplates.chars_head getenv hv t ht
      rw [this] at hh
      simp at hh

theorem ProcessTemplates.chars_keeps_unmatched (getenv : String → String)
    (hv : ∀ name, '{' ∉ (getenv name).data ∧ '}' ∉ (getenv name).data)
    (c : Char) (cs : List Char) (h : matchTemplate (c :: cs) = none) :
    matchTemplate (c :: ProcessTemplates.chars getenv cs) = none := by
  by_cases hc : c = '{'
  · subst hc
    cases cs with
    | nil => rfl
    | cons d rest =>
      by_cases hd : d = '{'
      · subst hd
        have hopen := (matchTemplate_none_iff rest).1 h
        have hm : matchTemplate ('{' :: rest) = none := by
          cases hm : matchTemplate ('{' :: rest) with
          | none => rfl
          | some p =>
            exfalso
            obtain ⟨m, tail⟩ := p
            obtain ⟨body, -, hb, -, hcs⟩ := matchTemplate_some _ m tail hm
            simp only [List.cons_append, List.cons.injEq, true_and] at hcs
            refine hopen ⟨'{' :: body, tail, by simp, ?_, by rw [hcs]; simp⟩
            intro x hx
            rcases List.mem_cons.1 hx with rfl | hx
            · decide
            · exact hb x hx
        rw [ProcessTemplates.chars_skip getenv '{' rest hm, matchTemplate_none_iff]
        exact ProcessTemplates.chars_keeps_open getenv hv rest hopen
      · rw [ProcessTemplates.chars_skip getenv d rest (matchTemplate_head d rest hd)]
        exact matchTemplate_second '{' d _ hd
  · exact matchTemplate_head c _ hc

theorem ProcessTemplates.chars_idempotent (getenv : String → String)
    (hv : ∀ name, '{' ∉ (getenv name).data ∧ '}' ∉ (getenv name).data) :
    ∀ (n : Nat) (cs : List Char), cs.length ≤ n →
      ProcessTemplates.chars getenv (ProcessTemplates.chars getenv cs)
        = ProcessTemplates.chars getenv cs := by
  intro n
  induction n with
  | zero =>
    intro cs hcs
    have : cs = [] := List.length_eq_zero.1 (by omega)
    subst this
    rfl
  | succ n ih =>
    intro cs hcs
    cases cs with
    | nil => rfl
    | cons c rest =>
      simp only [List.length_cons] at hcs
      cases hm : matchTemplate (c :: rest) with
      | none =>
        rw [ProcessTemplates.chars_skip getenv c rest hm,
          ProcessTemplates.chars_skip getenv c _
            (ProcessTemplates.chars_keeps_unmatched getenv hv c rest hm),
          ih rest (by omega)]
      | some p =>
        obtain ⟨m, tail⟩ := p
        have hl := matchTemplate_tail_length _ m tail hm
        simp only [List.length_cons] at hl
        rw [ProcessTemplates.chars_match getenv _ m tail hm]
        obtain ⟨body, hne, hb, hmeq, -⟩ := matchTemplate_some _ m tail hm
        rcases ProcessTemplates.replace_cases getenv m with hr | ⟨name, -, hr⟩
        · have hm2 : matchTemplate (m ++ ProcessTemplates.chars getenv tail)
              = some (m, ProcessTemplates.chars getenv tail) := by
            have := matchTemplate_of_body body (ProcessTemplates.chars getenv tail) hne hb
            rw [hmeq]
            simpa using this
          rw [hr, ProcessTemplates.chars_match getenv _ m _ hm2, hr, ih tail (by omega)]
        · rw [hr, ProcessTemplates.chars_no_open getenv _ _ (hv name).1, ih tail (by omega)]

/-- C16 (amended): in every environment in which no variable's value holds a
brace, `ProcessTemplates` is idempotent on every input text (whether or not
some variable is unset or empty). -/
theorem ProcessTemplates_idempotent (getenv : String → String)
    (hv : ∀ name, '{' ∉ (getenv name).data ∧ '}' ∉ (getenv name).data) (text : String) :
    ProcessTemplates getenv (ProcessTemplates getenv text) = ProcessTemplates getenv text := by
  apply String.ext
  rw [ProcessTemplates_data, ProcessTemplates_data]
  exact ProcessTemplates.chars_idempotent getenv hv text.data.length text.data (Nat.le_refl _)

/-- Witness for C16: the environment `TOKEN=abc123` on the text `Bearer {{ TOKEN }}`. -/
theorem ProcessTemplates_idempotent_witness :
    ProcessTemplates (sampleWorld "abc123").getenv
        (ProcessTemplates (sampleWorld "abc123").getenv "Bearer {{ TOKEN }} {{ OTHER }}")
      = ProcessTemplates (sampleWorld "abc123").getenv "Bearer {{ TOKEN }} {{ OTHER }}" :=
  ProcessTemplates_idempotent (sampleWorld "abc123").getenv
    (fun name => by
      show '{' ∉ (if name = "TOKEN" then "abc123" else "").data ∧
        '}' ∉ (if name = "TOKEN" then "abc123" else "").data
      split_ifs <;> decide)
    "Bearer {{ TOKEN }} {{ OTHER }}"

/-! ## Lemmas on registered paths -/

theorem registeredPath_suffix (path : String) :
    strings.HasSuffix (registeredPath path) "/" = true := by
  unfold registeredPath
  by_cases h : strings.HasSuffix path "/" = true
  · simp [h]
  · simp only [h, Bool.not_false, if_true]
    exact (strings.HasSuffix_iff _ _).2 ⟨path, rfl⟩

theorem forward_no_slash : strings.HasSuffix "/forward" "/" = false := by decide

theorem registeredPath_ne_forward (path : String) : registeredPath path ≠ "/forward" := by
  intro h
  have := registeredPath_suffix path
  rw [h, forward_no_slash] at this
  exact absurd this (by simp)

theorem registeredPath_ne_empty (path : String) : registeredPath path ≠ "" := by
  intro h
  have := registeredPath_suffix path
  rw [h] at this
  exact absurd this (by decide)

theorem TrailingSlash.normalize_ne_forward (q : String) :
    TrailingSlash.normalize q ≠ "/forward" := by
  unfold TrailingSlash.normalize
  split_ifs with hc
  · intro h
    have h1 : strings.HasSuffix (q ++ "/") "/" = true := (strings.HasSuffix_iff _ _).2 ⟨q, rfl⟩
    rw [h, forward_no_slash] at h1
    exact absurd h1 (by simp)
  · intro h
    subst h
    exact hc (by decide)

/-! ## Lemmas on the routing tree of plain path patterns -/

namespace ServeMux



theorem matchPath_nil {α : Type} (segs : List String) :
    matchPath ([] : List (List Segment × α)) segs = none := by
  induction segs with
  | nil => simp [matchPath]
  | cons s rest ih => simp [matchPath, findChild, multiChild, ih]

theorem mem_findChild {α : Type} (key : String) (cands : List (List Segment × α))
    (c : List Segment × α) :
    c ∈ findChild key cands ↔
      ∃ sg, (sg :: c.1, c.2) ∈ cands ∧ sg.multi = false ∧ sg.key = key := by
  unfold findChild
  rw [List.mem_filterMap]
  constructor
  · rintro ⟨⟨segs, a⟩, hmem, h⟩
    cases segs with
    | nil => simp at h
    | cons sg tl =>
      simp only at h
      split_ifs at h with hc
      · simp only [Option.some.injEq] at h
        subst h
        simp only [Bool.and_eq_true, Bool.not_eq_true', decide_eq_true_eq] at hc
        exact ⟨sg, hmem, hc.1, hc.2⟩
  · rintro ⟨sg, hmem, h1, h2⟩
    exact ⟨(sg :: c.1, c.2), hmem, by simp [h1, h2]⟩

theorem plainSegments_tail (sg : Segment) (tl : List Segment)
    (h : plainSegments (sg :: tl) = true) : plainSegments tl = true := by
  unfold plainSegments at h
  simp only [Bool.or_eq_true, Bool.and_eq_true] at h
  rcases h with ⟨_, h⟩ | h
  · have : tl = [] := by simpa using h
    subst this
    rfl
  · exact h.2

theorem plainSegments_head (sg : Segment) (tl : List Segment)
    (h : plainSegments (sg :: tl) = true) (hm : sg.multi = false) :
    sg.wild = false ∧ sg.s ≠ "" ∧ sg.key = sg.s := by
  unfold plainSegments at h
  simp [hm] at h
  refine ⟨h.1.1, h.1.2, ?_⟩
  simp [Segment.key, h.1.1]

theorem plainSegments_multi (sg : Segment) (tl : List Segment)
    (h : plainSegments (sg :: tl) = true) (hm : sg.multi = true) :
    tl = [] ∧ sg = { wild := true, multi := true } := by
  unfold plainSegments at h
  simp [hm] at h
  refine ⟨h.2, ?_⟩
  obtain ⟨s, w, m⟩ := sg
  simp only at hm h
  simp [hm, h.1.1, h.1.2]

theorem findChild_plain {α : Type} (key : String) (cands : List (List Segment × α))
    (h : ∀ c ∈ cands, plainSegments c.1 = true) :
    ∀ c ∈ findChild key cands, plainSegments c.1 = true := by
  intro c hc
  obtain ⟨sg, hmem, _, _⟩ := (mem_findChild key cands c).1 hc
  exact plainSegments_tail sg c.1 (h _ hmem)

theorem findChild_empty_plain {α : Type} (cands : List (List Segment × α))
    (h : ∀ c ∈ cands, plainSegments c.1 = true) : findChild "" cands = [] := by
  rw [List.eq_nil_iff_forall_not_mem]
  intro c hc
  obtain ⟨sg, hmem, hm, hk⟩ := (mem_findChild "" cands c).1 hc
  obtain ⟨_, hs, hks⟩ := plainSegments_head sg c.1 (h _ hmem) hm
  exact hs (hks ▸ hk)

theorem multiChild_spec {α : Type} (cands : List (List Segment × α)) :
    (multiChild cands = none ∧ ∀ c ∈ cands, ∀ sg tl, c.1 = sg :: tl → sg.multi = false) ∨
    (∃ c ∈ cands, multiChild cands = some c.2 ∧ ∃ sg tl, c.1 = sg :: tl ∧ sg.multi = true) := by
  unfold multiChild
  generalize hl : (List.filter _ cands).getLast? = o
  cases o with
  | none =>
    left
    refine ⟨rfl, ?_⟩
    intro c hc sg tl hsg
    rw [List.getLast?_eq_none_iff, List.filter_eq_nil_iff] at hl
    have := hl c hc
    rw [hsg] at this
    simpa using this
  | some c =>
    right
    have hmem := List.mem_of_getLast?_eq_some hl
    rw [List.mem_filter] at hmem
    refine ⟨c, hmem.1, rfl, ?_⟩
    obtain ⟨segs, a⟩ := c
    cases segs with
    | nil => simp at hmem
    | cons sg tl => exact ⟨sg, tl, rfl, by simpa using hmem.2⟩

theorem matchPath_spec {α : Type} (segs : List String) :
    ∀ cands : List (List Segment × α), (∀ c ∈ cands, plainSegments c.1 = true) →
    (matchPath cands segs = none ∧ ∀ c ∈ cands, segmentsMatch c.1 segs = false) ∨
    (∃ c ∈ cands, matchPath cands segs = some c.2 ∧ segmentsMatch c.1 segs = true ∧
      ∀ d ∈ cands, segmentsMatch d.1 segs = true → d.1.length ≤ c.1.length) := by
  induction segs with
  | nil =>
    intro cands _
    simp only [matchPath]
    cases hf : cands.find? (fun c => c.1.isEmpty) with
    | none =>
      left
      refine ⟨rfl, ?_⟩
      intro c hc
      have := List.find?_eq_none.1 hf c hc
      obtain ⟨segs, a⟩ := c
      cases segs with
      | nil => simp at this
      | cons sg tl => rfl
    | some c =>
      right
      have h1 := List.find?_some hf
      have h2 := List.mem_of_find?_eq_some hf
      refine ⟨c, h2, rfl, ?_, ?_⟩
      · obtain ⟨segs, a⟩ := c
        cases segs with
        | nil => rfl
        | cons sg tl => simp at h1
      · intro d _ hd
        obtain ⟨segs, a⟩ := d
        cases segs with
        | nil => simp
        | cons sg tl => simp [segmentsMatch] at hd
  | cons seg rest ih =>
    intro cands hplain
    simp only [matchPath]
    have hB : findChild "" cands = [] := findChild_empty_plain cands hplain
    rw [hB, matchPath_nil]
    have key : ∀ d ∈ cands, segmentsMatch d.1 (seg :: rest) = true →
        (∃ sg tl, d.1 = sg :: tl ∧ sg.multi = true ∧ tl = []) ∨
        (∃ sg tl, d.1 = sg :: tl ∧ (tl, d.2) ∈ findChild seg cands ∧
          segmentsMatch tl rest = true) := by
      intro d hd hm
      obtain ⟨segs, a⟩ := d
      cases segs with
      | nil => simp [segmentsMatch] at hm
      | cons sg tl =>
        by_cases hmu : sg.multi = true
        · exact Or.inl ⟨sg, tl, rfl, hmu, (plainSegments_multi sg tl (hplain _ hd) hmu).1⟩
        · have hmu2 : sg.multi = false := by simpa using hmu
          right
          simp only [segmentsMatch, hmu2, Bool.false_or, Bool.and_eq_true,
            decide_eq_true_eq] at hm
          refine ⟨sg, tl, rfl, ?_, hm.2⟩
          rw [mem_findChild]
          refine ⟨sg, hd, hmu2, ?_⟩
          rw [(plainSegments_head sg tl (hplain _ hd) hmu2).2.2]
          exact hm.1
    rcases ih (findChild seg cands) (findChild_plain seg cands hplain) with
      ⟨hnone, hall⟩ | ⟨c', hc', hsome, hmatch, hmax⟩
    · rw [hnone]
      simp only [ite_self]
      rcases multiChild_spec cands with ⟨hmn, hno⟩ | ⟨c, hc, hms, sg, tl, hsg, hmu⟩
      · left
        refine ⟨hmn, ?_⟩
        intro d hd
        by_contra hne
        have hm : segmentsMatch d.1 (seg :: rest) = true := by simpa using hne
        rcases key d hd hm with ⟨sg, tl, hsg, hmu, _⟩ | ⟨sg, tl, hsg, hmem, hm2⟩
        · have := hno d hd sg tl hsg
          simp [hmu] at this
        · have := hall _ hmem
          simp only at this
          rw [hm2] at this
          exact absurd this (by simp)
      · right
        refine ⟨c, hc, hms, ?_, ?_⟩
        · rw [hsg]
          simp [segmentsMatch, hmu]
        · intro d hd hm
          rcases key d hd hm with ⟨sg2, tl2, hsg2, _, htl⟩ | ⟨sg2, tl2, hsg2, hmem, hm2⟩
          · rw [hsg2, htl, hsg]
            simp
          · have := hall _ hmem
            simp only at this
            rw [hm2] at this
            exact absurd this (by simp)
    · rw [hsome]
      right
      obtain ⟨sg, hmem, hmu, hk⟩ := (mem_findChild seg cands c').1 hc'
      refine ⟨(sg :: c'.1, c'.2), hmem, rfl, ?_, ?_⟩
      · have := (plainSegments_head sg c'.1 (hplain _ hmem) hmu).2.2
        simp only [segmentsMatch, hmu, Bool.false_or, Bool.and_eq_true, decide_eq_true_eq]
        exact ⟨this ▸ hk, hmatch⟩
      · intro d hd hm
        rcases key d hd hm with ⟨sg2, tl2, hsg2, _, htl⟩ | ⟨sg2, tl2, hsg2, hmem2, hm2⟩
        · rw [hsg2, htl]
          simp
        · have := hmax _ hmem2 hm2
          rw [hsg2]
          simpa using this

theorem List.perm_eq_of_length_le_one {β : Type} (l l' : List β) (h : l.Perm l')
    (hl : l.length ≤ 1) : l = l' := by
  cases l with
  | nil => exact (List.Perm.nil_eq h)
  | cons a t =>
    cases t with
    | nil => exact (List.perm_singleton.1 h.symm).symm
    | cons b t => simp at hl

theorem List.filter_length_le_one {β γ : Type} (l : List β) (f : β → γ) (p : β → Bool) (v : γ)
    (hnd : (l.map f).Nodup) (hv : ∀ c ∈ l, p c = true → f c = v) :
    (l.filter p).length ≤ 1 := by
  have hsub : ((l.filter p).map f).Nodup :=
    List.Nodup.sublist (List.Sublist.map f (List.filter_sublist l)) hnd
  have hall : ∀ c ∈ l.filter p, f c = v := fun c hc =>
    hv c (List.mem_filter.1 hc).1 (List.mem_filter.1 hc).2
  generalize l.filter p = fl at hsub hall
  cases fl with
  | nil => simp
  | cons a t =>
    cases t with
    | nil => simp
    | cons b t =>
      exfalso
      have ha := hall a (by simp)
      have hb := hall b (by simp)
      simp only [List.map_cons, List.nodup_cons, List.mem_cons] at hsub
      exact hsub.1 (Or.inl (ha.trans hb.symm))

theorem findChild_nodup {α : Type} (key : String) (cands : List (List Segment × α))
    (hplain : ∀ c ∈ cands, plainSegments c.1 = true)
    (hnd : (cands.map Prod.fst).Nodup) : ((findChild key cands).map Prod.fst).Nodup := by
  induction cands with
  | nil => simp [findChild]
  | cons c l ih =>
    have hpl : ∀ c ∈ l, plainSegments c.1 = true := fun d hd => hplain d (List.mem_cons_of_mem _ hd)
    simp only [List.map_cons, List.nodup_cons] at hnd
    have ih2 := ih hpl hnd.2
    have hcons : findChild key (c :: l) = findChild key [c] ++ findChild key l := by
      unfold findChild
      rw [← List.filterMap_append]
      rfl
    rw [hcons, List.map_append, List.nodup_append]
    refine ⟨?_, ih2, ?_⟩
    · unfold findChild
      obtain ⟨segs, a⟩ := c
      cases segs with
      | nil => simp
      | cons sg tl =>
        simp only [List.filterMap_cons, List.filterMap_nil]
        split <;> simp_all
    · intro x hx1 hx2
      rw [List.mem_map] at hx1 hx2
      obtain ⟨c1, hc1, rfl⟩ := hx1
      obtain ⟨c2, hc2, h12⟩ := hx2
      obtain ⟨sg1, hm1, hmu1, hk1⟩ := (mem_findChild key [c] c1).1 hc1
      obtain ⟨sg2, hm2, hmu2, hk2⟩ := (mem_findChild key l c2).1 hc2
      simp only [List.mem_singleton] at hm1
      have h1 := plainSegments_head sg1 c1.1 (by
        have := hplain c (by simp)
        rw [← hm1] at this
        exact this) hmu1
      have h2 := plainSegments_head sg2 c2.1 (hpl _ hm2) hmu2
      have hsg : sg1 = sg2 := by
        obtain ⟨s1, w1, m1⟩ := sg1
        obtain ⟨s2, w2, m2⟩ := sg2
        simp only at hmu1 hmu2 h1 h2 hk1 hk2
        simp only [Segment.mk.injEq]
        refine ⟨?_, h1.1.trans h2.1.symm, hmu1.trans hmu2.symm⟩
        rw [← h1.2.2, ← h2.2.2, hk1, hk2]
      apply hnd.1
      rw [List.mem_map]
      refine ⟨_, hm2, ?_⟩
      rw [← hm1]
      simp only [h12, hsg]

theorem matchPath_perm {α : Type} (segs : List String) :
    ∀ l l' : List (List Segment × α), l.Perm l' → (∀ c ∈ l, plainSegments c.1 = true) →
      (l.map Prod.fst).Nodup → matchPath l segs = matchPath l' segs := by
  induction segs with
  | nil =>
    intro l l' hp _ hnd
    simp only [matchPath]
    congr 1
    rw [← List.filter_head?, ← List.filter_head?]
    congr 1
    apply List.perm_eq_of_length_le_one _ _ (hp.filter _)
    apply List.filter_length_le_one l Prod.fst _ [] hnd
    intro c _ hc
    simpa using hc
  | cons seg rest ih =>
    intro l l' hp hplain hnd
    have hplain' : ∀ c ∈ l', plainSegments c.1 = true := fun c hc => hplain c (hp.mem_iff.2 hc)
    simp only [matchPath]
    rw [findChild_empty_plain l hplain, findChild_empty_plain l' hplain']
    rw [ih (findChild seg l) (findChild seg l') (hp.filterMap _) (findChild_plain seg l hplain)
      (findChild_nodup seg l hplain hnd)]
    have hm : multiChild l = multiChild l' := by
      unfold multiChild
      congr 2
      apply List.perm_eq_of_length_le_one _ _ (hp.filter _)
      apply List.filter_length_le_one l Prod.fst _ [{ wild := true, multi := true }] hnd
      intro c hc hcm
      obtain ⟨segs, a⟩ := c
      cases segs with
      | nil => simp at hcm
      | cons sg tl =>
        simp only at hcm
        obtain ⟨h1, h2⟩ := plainSegments_multi sg tl (hplain _ hc) hcm
        simp [h1, h2]
    rw [hm]

end ServeMux

namespace ServeMux



/-! ### splitSlash -/

theorem splitSlash_ne_nil (s : List Char) : splitSlash s ≠ [] := by
  cases s with
  | nil => simp [splitSlash]
  | cons c cs =>
    unfold splitSlash
    split
    · simp
    · split <;> simp

theorem splitSlash_cons (c : Char) (cs : List Char) :
    ∃ hd tl, splitSlash cs = hd :: tl ∧
      splitSlash (c :: cs) = if c = '/' then [] :: hd :: tl else (c :: hd) :: tl := by
  cases h : splitSlash cs with
  | nil => exact absurd h (splitSlash_ne_nil cs)
  | cons hd tl =>
    refine ⟨hd, tl, rfl, ?_⟩
    rw [splitSlash, h]

theorem splitSlash_noslash (p : List Char) (hp : '/' ∉ p) : splitSlash p = [p] := by
  induction p with
  | nil => rfl
  | cons c cs ih =>
    simp only [List.mem_cons, not_or] at hp
    obtain ⟨hd, tl, h1, h2⟩ := splitSlash_cons c cs
    rw [h2, if_neg (Ne.symm hp.1)]
    rw [ih hp.2] at h1
    simp only [List.cons.injEq] at h1
    rw [← h1.1, ← h1.2]

theorem splitSlash_append (p t : List Char) (hp : '/' ∉ p) :
    splitSlash (p ++ '/' :: t) = p :: splitSlash t := by
  induction p with
  | nil =>
    obtain ⟨hd, tl, h1, h2⟩ := splitSlash_cons '/' t
    simp only [List.nil_append]
    rw [h2, h1]
    simp
  | cons c cs ih =>
    simp only [List.mem_cons, not_or] at hp
    obtain ⟨hd, tl, h1, h2⟩ := splitSlash_cons c (cs ++ '/' :: t)
    simp only [List.cons_append]
    rw [h2, if_neg (Ne.symm hp.1)]
    rw [ih hp.2] at h1
    simp only [List.cons.injEq] at h1
    rw [← h1.1, ← h1.2]

theorem slash_cases (s : List Char) :
    '/' ∉ s ∨ ∃ p t, '/' ∉ p ∧ s = p ++ '/' :: t := by
  induction s with
  | nil => left; simp
  | cons c cs ih =>
    by_cases hc : c = '/'
    · right
      exact ⟨[], cs, by simp, by simp [hc]⟩
    · rcases ih with h | ⟨p, t, hp, hs⟩
      · left
        simp only [List.mem_cons, not_or]
        exact ⟨Ne.symm hc, h⟩
      · right
        refine ⟨c :: p, t, ?_, by simp [hs]⟩
        simp only [List.mem_cons, not_or]
        exact ⟨Ne.symm hc, hp⟩

theorem splitSlash_mem (s : List Char) :
    ∀ piece ∈ splitSlash s, ∀ c ∈ piece, c ∈ s ∧ c ≠ '/' := by
  induction s with
  | nil => simp [splitSlash]
  | cons c cs ih =>
    obtain ⟨hd, tl, h1, h2⟩ := splitSlash_cons c cs
    rw [h1] at ih
    rw [h2]
    intro piece hpiece x hx
    split_ifs at hpiece with hc
    · simp only [List.mem_cons] at hpiece
      rcases hpiece with rfl | hpiece
      · simp at hx
      · have := ih piece (by simpa using hpiece) x hx
        exact ⟨List.mem_cons_of_mem _ this.1, this.2⟩
    · simp only [List.mem_cons] at hpiece
      rcases hpiece with rfl | hpiece
      · simp only [List.mem_cons] at hx
        rcases hx with rfl | hx
        · exact ⟨by simp, hc⟩
        · have := ih hd (by simp) x hx
          exact ⟨List.mem_cons_of_mem _ this.1, this.2⟩
      · have := ih piece (by simp [hpiece]) x hx
        exact ⟨List.mem_cons_of_mem _ this.1, this.2⟩

theorem splitSlash_length (s : List Char) : (splitSlash s).length = s.count '/' + 1 := by
  induction s with
  | nil => rfl
  | cons c cs ih =>
    obtain ⟨hd, tl, h1, h2⟩ := splitSlash_cons c cs
    rw [h1] at ih
    rw [h2]
    by_cases hc : c = '/'
    · subst hc
      simp only [if_true, List.length_cons, List.count_cons_self]
      simp only [List.length_cons] at ih
      omega
    · rw [if_neg hc, List.count_cons_of_ne (Ne.symm hc)]
      simpa using ih

theorem splitSlash_injective (a : List Char) :
    ∀ b : List Char, splitSlash a = splitSlash b → a = b := by
  induction a with
  | nil =>
    intro b h
    cases b with
    | nil => rfl
    | cons c cs =>
      obtain ⟨hd, tl, h1, h2⟩ := splitSlash_cons c cs
      rw [h2] at h
      simp only [splitSlash] at h
      split_ifs at h with hc
      · simp at h
      · simp at h
  | cons c cs ih =>
    intro b h
    obtain ⟨hd, tl, h1, h2⟩ := splitSlash_cons c cs
    cases b with
    | nil =>
      rw [h2] at h
      simp only [splitSlash] at h
      split_ifs at h with hc <;> simp at h
    | cons d ds =>
      obtain ⟨hd', tl', h1', h2'⟩ := splitSlash_cons d ds
      rw [h2, h2'] at h
      by_cases hc : c = '/' <;> by_cases hd2 : d = '/'
      · rw [if_pos hc, if_pos hd2] at h
        simp only [List.cons.injEq, true_and] at h
        rw [hc, hd2, ih ds (by rw [h1, h1', h.1, h.2])]
      · rw [if_pos hc, if_neg hd2] at h
        simp at h
      · rw [if_neg hc, if_pos hd2] at h
        simp at h
      · rw [if_neg hc, if_neg hd2] at h
        simp only [List.cons.injEq] at h
        rw [h.1.1, ih ds (by rw [h1, h1', h.1.2, h.2])]

/-! ### literal patterns -/

theorem pathUnescape_plain (seg : List Char) (h : '%' ∉ seg) : pathUnescape seg = seg := by
  unfold pathUnescape url.unescape
  simp [h]

theorem parsePattern.segments_literal (pieces : List (List Char)) :
    ∀ seen : List String, (∀ piece ∈ pieces, '{' ∉ piece ∧ '%' ∉ piece) →
      parsePattern.segments pieces seen = some (literalSegments pieces) := by
  induction pieces with
  | nil => intro seen _; rfl
  | cons seg rest ih =>
    intro seen h
    have hseg := h seg (by simp)
    have hb : seg.contains '{' = false := by simpa using hseg.1
    unfold parsePattern.segments literalSegments
    by_cases hc : (rest = [] ∧ seg = [])
    · simp [hc.1, hc.2]
    · have hc' : (decide (rest = []) && decide (seg = [])) = false := by simpa using hc
      simp only [hc', Bool.false_eq_true, if_false, hb, Bool.not_false, if_true]
      rw [ih seen (fun p hp => h p (List.mem_cons_of_mem _ hp)), pathUnescape_plain seg hseg.2]
      rfl

theorem literalPattern_data (p : String) (h : literalPattern p = true) :
    ∃ pp, p.data = '/' :: pp ∧
      (∀ c ∈ p.data, c ≠ ' ' ∧ c.toNat ≠ 9 ∧ c ≠ '{' ∧ c ≠ '%') ∧
      (∀ seg ∈ (splitSlash pp).dropLast, seg ≠ []) := by
  unfold literalPattern at h
  simp only [Bool.and_eq_true, decide_eq_true_eq, List.all_eq_true, ne_eq,
    decide_not, Bool.not_eq_true', decide_eq_false_iff_not] at h
  obtain ⟨⟨h1, h2⟩, h3⟩ := h
  cases hd : p.data with
  | nil => rw [hd] at h1; simp at h1
  | cons c pp =>
    rw [hd] at h1 h2 h3
    simp only [List.head?_cons, Option.some.injEq] at h1
    subst h1
    refine ⟨pp, rfl, ?_, ?_⟩
    · intro c hc
      have := h2 c hc
      tauto
    · simpa using h3

theorem parsePattern_literal (p : String) (h : literalPattern p = true) :
    parsePattern p = some { segments := literalSegments (splitSlash (p.data.drop 1)) } := by
  obtain ⟨pp, hpp, hchars, _⟩ := literalPattern_data p h
  have hne : p ≠ "" := by
    intro h0
    rw [h0] at hpp
    simp at hpp
  have hblank : (p.data.any fun c => c = ' ' || c.toNat = 9) = false := by
    rw [Bool.eq_false_iff]
    intro hany
    rw [List.any_eq_true] at hany
    obtain ⟨c, hc, hcb⟩ := hany
    have := hchars c hc
    simp only [Bool.or_eq_true, decide_eq_true_eq] at hcb
    tauto
  unfold parsePattern
  simp only [hne, if_false, hblank, Bool.false_eq_true]
  rw [hpp]
  have hseg : parsePattern.segments (splitSlash pp) [] = some (literalSegments (splitSlash pp)) := by
    apply parsePattern.segments_literal
    intro piece hpiece
    constructor
    · intro hmem
      have := (splitSlash_mem pp piece hpiece _ hmem).1
      exact (hchars _ (by rw [hpp]; exact List.mem_cons_of_mem _ this)).2.2.1 rfl
    · intro hmem
      have := (splitSlash_mem pp piece hpiece _ hmem).1
      exact (hchars _ (by rw [hpp]; exact List.mem_cons_of_mem _ this)).2.2.2 rfl
  simp [hseg]

theorem literalSegments_plain (pieces : List (List Char))
    (h : ∀ seg ∈ pieces.dropLast, seg ≠ []) : plainSegments (literalSegments pieces) = true := by
  induction pieces with
  | nil => rfl
  | cons seg rest ih =>
    unfold literalSegments
    by_cases hc : (rest = [] ∧ seg = [])
    · simp [hc.1, hc.2, plainSegments]
    · have hc' : (decide (rest = []) && decide (seg = [])) = false := by simpa using hc
      simp only [hc', Bool.false_eq_true, if_false]
      unfold plainSegments
      have hseg : seg ≠ [] := by
        cases rest with
        | nil => simpa using hc
        | cons r rs => exact h seg (by simp [List.dropLast])
      have hrest : plainSegments (literalSegments rest) = true := by
        apply ih
        intro x hx
        cases rest with
        | nil => simp at hx
        | cons r rs => exact h x (by simp [List.dropLast] at hx ⊢; exact Or.inr hx)
      have hs : (String.mk seg = "") = False := by
        rw [eq_iff_iff, iff_false]
        intro h0
        exact hseg (congrArg String.data h0)
      simp [hrest, hs]

theorem literalSegments_length (pieces : List (List Char)) :
    (literalSegments pieces).length = pieces.length := by
  induction pieces with
  | nil => rfl
  | cons seg rest ih =>
    unfold literalSegments
    split_ifs with hc
    · simp only [Bool.and_eq_true, decide_eq_true_eq] at hc
      simp [hc.1]
    · simp [ih]

theorem literalSegments_injective (ps : List (List Char)) :
    ∀ qs : List (List Char), literalSegments ps = literalSegments qs → ps = qs := by
  induction ps with
  | nil =>
    intro qs h
    have := congrArg List.length h
    rw [literalSegments_length, literalSegments_length] at this
    exact (List.length_eq_zero.1 this.symm).symm
  | cons p ps ih =>
    intro qs h
    cases qs with
    | nil =>
      have := congrArg List.length h
      rw [literalSegments_length, literalSegments_length] at this
      simp at this
    | cons q qs =>
      have hlen := congrArg List.length h
      rw [literalSegments_length, literalSegments_length] at hlen
      simp only [List.length_cons, add_left_inj] at hlen
      unfold literalSegments at h
      by_cases hc : (ps = [] ∧ p = [])
      · have hqs : qs = [] := List.length_eq_zero.1 (by rw [← hlen, hc.1]; rfl)
        by_cases hq : q = []
        · rw [hc.1, hc.2, hqs, hq]
        · simp [hc.1, hc.2, hqs, hq] at h
      · have hc' : (decide (ps = []) && decide (p = [])) = false := by simpa using hc
        by_cases hd : (qs = [] ∧ q = [])
        · have hps : ps = [] := List.length_eq_zero.1 (by rw [hlen, hd.1]; rfl)
          have hp : p ≠ [] := fun h0 => hc ⟨hps, h0⟩
          simp [hps, hp, hd.1, hd.2] at h
        · have hd' : (decide (qs = []) && decide (q = [])) = false := by simpa using hd
          simp only [hc', hd', Bool.false_eq_true, if_false, List.cons.injEq,
            Segment.mk.injEq, and_true] at h
          have hpq : p = q := congrArg String.data h.1
          rw [hpq, ih qs h.2]

/-! ### conflicts between plain patterns -/

theorem comparePaths.loop_plain (m1 m2 : Bool) (l1 : List Segment) :
    ∀ l2 : List Segment, plainSegments l1 = true → plainSegments l2 = true →
      (comparePaths.loop m1 m2 .equivalent l1 l2 = .equivalent ∨
        comparePaths.loop m1 m2 .equivalent l1 l2 = .overlaps) → l1 = l2 := by
  induction l1 with
  | nil =>
    intro l2 _ _ h
    cases l2 with
    | nil => rfl
    | cons s2 t2 =>
      simp only [comparePaths.loop] at h
      cases m1 <;> simp [combineRelationships] at h
  | cons s1 t1 ih =>
    intro l2 h1 h2 h
    cases l2 with
    | nil =>
      simp only [comparePaths.loop] at h
      cases m2 <;> simp [combineRelationships] at h
    | cons s2 t2 =>
      simp only [comparePaths.loop, combineRelationships] at h
      by_cases hm1 : s1.multi = true
      · obtain ⟨ht1, hs1⟩ := plainSegments_multi s1 t1 h1 hm1
        by_cases hm2 : s2.multi = true
        · obtain ⟨ht2, hs2⟩ := plainSegments_multi s2 t2 h2 hm2
          rw [ht1, ht2, hs1, hs2]
        · exfalso
          have hm2' : s2.multi = false := by simpa using hm2
          have hcs : compareSegments s1 s2 = .moreGeneral := by
            simp [compareSegments, hm1, hm2']
          rw [hcs, ht1] at h
          simp only [reduceCtorEq, if_false] at h
          cases t2 with
          | nil => simp [comparePaths.loop] at h
          | cons a b =>
            simp only [comparePaths.loop] at h
            cases m1 <;> simp [combineRelationships] at h
      · have hm1' : s1.multi = false := by simpa using hm1
        by_cases hm2 : s2.multi = true
        · exfalso
          obtain ⟨ht2, hs2⟩ := plainSegments_multi s2 t2 h2 hm2
          have hcs : compareSegments s1 s2 = .moreSpecific := by
            simp [compareSegments, hm1', hm2]
          rw [hcs, ht2] at h
          simp only [reduceCtorEq, if_false] at h
          cases t1 with
          | nil => simp [comparePaths.loop] at h
          | cons a b =>
            simp only [comparePaths.loop] at h
            cases m2 <;> simp [combineRelationships] at h
        · have hm2' : s2.multi = false := by simpa using hm2
          obtain ⟨hw1, _, _⟩ := plainSegments_head s1 t1 h1 hm1'
          obtain ⟨hw2, _, _⟩ := plainSegments_head s2 t2 h2 hm2'
          by_cases hs : s1.s = s2.s
          · have hcs : compareSegments s1 s2 = .equivalent := by
              simp [compareSegments, hm1', hm2', hw1, hw2, hs]
            rw [hcs] at h
            simp only [reduceCtorEq, if_false] at h
            have := ih t2 (plainSegments_tail s1 t1 h1) (plainSegments_tail s2 t2 h2) h
            rw [this]
            obtain ⟨a1, b1, c1⟩ := s1
            obtain ⟨a2, b2, c2⟩ := s2
            simp only at hm1' hm2' hw1 hw2 hs
            rw [hm1', hm2', hw1, hw2, hs]
          · exfalso
            have hcs : compareSegments s1 s2 = .disjoint := by
              simp [compareSegments, hm1', hm2', hw1, hw2, hs]
            rw [hcs] at h
            simp at h

theorem Pattern.conflictsWith_plain (l1 l2 : List Segment)
    (h1 : plainSegments l1 = true) (h2 : plainSegments l2 = true) (hne : l1 ≠ l2) :
    Pattern.conflictsWith { segments := l1 } { segments := l2 } = false := by
  rw [Bool.eq_false_iff]
  intro h
  apply hne
  simp only [Pattern.conflictsWith, Pattern.compareMethods, ne_eq, not_true_eq_false, if_false,
    if_true, reduceCtorEq, combineRelationships, Bool.or_eq_true, decide_eq_true_eq] at h
  unfold Pattern.comparePaths at h
  split_ifs at h with hc
  · simp at h
  · exact comparePaths.loop_plain _ _ l1 l2 h1 h2 h

theorem plainSegments_keys (l1 : List Segment) :
    ∀ l2 : List Segment, plainSegments l1 = true → plainSegments l2 = true →
      (∀ sg ∈ l1, sg.multi = false) → (∀ sg ∈ l2, sg.multi = false) →
      l1.map Segment.key = l2.map Segment.key → l1 = l2 := by
  induction l1 with
  | nil =>
    intro l2 _ _ _ _ h
    cases l2 with
    | nil => rfl
    | cons a b => simp at h
  | cons s1 t1 ih =>
    intro l2 h1 h2 hm1 hm2 h
    cases l2 with
    | nil => simp at h
    | cons s2 t2 =>
      simp only [List.map_cons, List.cons.injEq] at h
      have a1 := hm1 s1 (by simp)
      have a2 := hm2 s2 (by simp)
      obtain ⟨hw1, _, hk1⟩ := plainSegments_head s1 t1 h1 a1
      obtain ⟨hw2, _, hk2⟩ := plainSegments_head s2 t2 h2 a2
      rw [ih t2 (plainSegments_tail s1 t1 h1) (plainSegments_tail s2 t2 h2)
        (fun sg hsg => hm1 sg (List.mem_cons_of_mem _ hsg))
        (fun sg hsg => hm2 sg (List.mem_cons_of_mem _ hsg)) h.2]
      obtain ⟨x1, y1, z1⟩ := s1
      obtain ⟨x2, y2, z2⟩ := s2
      simp only at a1 a2 hw1 hw2 hk1 hk2
      have := h.1
      rw [hk1, hk2] at this
      have h3 : x1 = x2 := this
      rw [a1, a2, hw1, hw2, h3]

theorem plainSegments_lastMulti (l : List Segment) (h : plainSegments l = true)
    (hl : Pattern.lastMulti { segments := l } = false) : ∀ sg ∈ l, sg.multi = false := by
  induction l with
  | nil => simp
  | cons s t ih =>
    intro sg hsg
    by_cases hm : s.multi = true
    · exfalso
      obtain ⟨ht, _⟩ := plainSegments_multi s t h hm
      subst ht
      simp [Pattern.lastMulti, hm] at hl
    · have hm' : s.multi = false := by simpa using hm
      simp only [List.mem_cons] at hsg
      rcases hsg with rfl | hsg
      · exact hm'
      · apply ih (plainSegments_tail s t h) _ sg hsg
        cases t with
        | nil => simp at hsg
        | cons a b =>
          simp only [Pattern.lastMulti] at hl ⊢
          rw [List.getLast?_cons_cons] at hl
          exact hl

theorem Pattern.sameLeaf_plain (l1 l2 : List Segment)
    (h1 : plainSegments l1 = true) (h2 : plainSegments l2 = true) (hne : l1 ≠ l2) :
    Pattern.sameLeaf { segments := l1 } { segments := l2 } = false := by
  rw [Bool.eq_false_iff]
  intro h
  apply hne
  simp only [Pattern.sameLeaf, Bool.and_eq_true, decide_eq_true_eq, Bool.not_eq_true'] at h
  exact plainSegments_keys l1 l2 h1 h2 (plainSegments_lastMulti l1 h1 h.1.1.2)
    (plainSegments_lastMulti l2 h2 h.1.2) h.2

/-! ### registration and the routing tree of literal patterns -/

theorem literalPattern_segments_injective (p q : String)
    (hp : literalPattern p = true) (hq : literalPattern q = true)
    (h : literalSegments (splitSlash (p.data.drop 1))
      = literalSegments (splitSlash (q.data.drop 1))) : p = q := by
  obtain ⟨pp, hpp, _, _⟩ := literalPattern_data p hp
  obtain ⟨qq, hqq, _, _⟩ := literalPattern_data q hq
  rw [hpp, hqq] at h
  simp only [List.drop_succ_cons, List.drop_zero] at h
  have := splitSlash_injective pp qq (literalSegments_injective _ _ h)
  apply String.ext
  rw [hpp, hqq, this]

theorem literalPattern_plain (p : String) (hp : literalPattern p = true) :
    plainSegments (literalSegments (splitSlash (p.data.drop 1))) = true := by
  obtain ⟨pp, hpp, _, h⟩ := literalPattern_data p hp
  rw [hpp]
  exact literalSegments_plain _ h

theorem Handle_literal (mux : ServeMux) (pattern : String) (t : RouteTarget)
    (hp : literalPattern pattern = true)
    (hl : ∀ x ∈ mux.entries, literalPattern x.1 = true)
    (hfresh : ∀ x ∈ mux.entries, x.1 ≠ pattern) :
    mux.Handle pattern t = some { entries := mux.entries ++ [(pattern, t)] } := by
  unfold Handle
  rw [parsePattern_literal pattern hp]
  simp only
  rw [if_neg]
  rw [List.any_eq_true]
  rintro ⟨e, he, hc⟩
  rw [parsePattern_literal e.1 (hl e he)] at hc
  simp only at hc
  have hne : literalSegments (splitSlash (pattern.data.drop 1))
      ≠ literalSegments (splitSlash (e.1.data.drop 1)) := fun h =>
    hfresh e he (literalPattern_segments_injective pattern e.1 hp (hl e he) h).symm
  rw [Pattern.conflictsWith_plain _ _ (literalPattern_plain pattern hp)
      (literalPattern_plain e.1 (hl e he)) hne,
    Pattern.sameLeaf_plain _ _ (literalPattern_plain pattern hp)
      (literalPattern_plain e.1 (hl e he)) hne] at hc
  simp at hc

theorem routes_literal (l : List (String × RouteTarget))
    (hl : ∀ x ∈ l, literalPattern x.1 = true) :
    routes ⟨l⟩ = l.map (fun e =>
      (({ segments := literalSegments (splitSlash (e.1.data.drop 1)) } : Pattern), e.1, e.2)) := by
  unfold routes
  simp only
  induction l with
  | nil => rfl
  | cons e l ih =>
    rw [List.filterMap_cons, parsePattern_literal e.1 (hl e (by simp))]
    simp only [Option.map_some', List.map_cons, List.cons.injEq, true_and]
    exact ih (fun x hx => hl x (List.mem_cons_of_mem _ hx))

theorem treeMatch_literal (l : List (String × RouteTarget))
    (hl : ∀ x ∈ l, literalPattern x.1 = true) (host method path : String) :
    treeMatch ⟨l⟩ host method path
      = matchPath ((routes ⟨l⟩).map (fun x => (x.1.segments, x))) (pathSegments path) := by
  have hr := routes_literal l hl
  have hhost : ∀ h : String, (routes ⟨l⟩).filter (fun x => decide (x.1.host = h))
      = if h = "" then routes ⟨l⟩ else [] := by
    intro h
    rw [hr]
    split_ifs with hh
    · rw [List.filter_eq_self]
      intro a ha
      rw [List.mem_map] at ha
      obtain ⟨e, _, rfl⟩ := ha
      simp [hh]
    · rw [List.filter_eq_nil_iff]
      intro a ha
      rw [List.mem_map] at ha
      obtain ⟨e, _, rfl⟩ := ha
      simpa using Ne.symm hh
  have hmeth : ∀ m : String, (routes ⟨l⟩).filter (fun x => decide (x.1.method = m))
      = if m = "" then routes ⟨l⟩ else [] := by
    intro m
    rw [hr]
    split_ifs with hh
    · rw [List.filter_eq_self]
      intro a ha
      rw [List.mem_map] at ha
      obtain ⟨e, _, rfl⟩ := ha
      simp [hh]
    · rw [List.filter_eq_nil_iff]
      intro a ha
      rw [List.mem_map] at ha
      obtain ⟨e, _, rfl⟩ := ha
      simpa using Ne.symm hh
  have hmm : ∀ rs : List Route, (rs = routes ⟨l⟩ ∨ rs = []) →
      matchMethodAndPath rs method path
        = matchPath (rs.map (fun x => (x.1.segments, x))) (pathSegments path) := by
    intro rs hrs
    rcases hrs with rfl | rfl
    · unfold matchMethodAndPath
      simp only [hmeth]
      by_cases hm : method = ""
      · simp [hm]
        split <;> simp_all
      · have hg : ("GET" : String) ≠ "" := by decide
        simp [hm, hg, matchPath_nil]
    · unfold matchMethodAndPath
      simp [matchPath_nil]
  unfold treeMatch
  simp only [hhost]
  by_cases hh : host = ""
  · simp only [hh, ne_eq, not_true_eq_false, if_false, if_true]
    exact hmm _ (Or.inl rfl)
  · simp only [hh, ne_eq, not_false_eq_true, if_true, if_false]
    rw [hmm [] (Or.inr rfl)]
    simp only [List.map_nil, matchPath_nil]
    exact hmm _ (Or.inl rfl)

end ServeMux

/-! ### percent-escaping -/

theorem url.unhex_hexDigit (n : Nat) (h : n < 16) : url.unhex (url.hexDigit n) = some n := by
  interval_cases n <;> rfl

theorem url.hexDigit_ne (n : Nat) (h : n < 16) :
    url.hexDigit n ≠ '/' ∧ url.hexDigit n ≠ '%' := by
  interval_cases n <;> decide

theorem Char.toNat_lt_max (c : Char) : c.toNat < 1114112 := by
  have := c.valid
  simp only [UInt32.isValidChar, Nat.isValidChar] at this
  have h : c.toNat = c.val.toNat := rfl
  omega

theorem url.utf8Bytes_lt (c : Char) : ∀ b ∈ url.utf8Bytes c, b < 256 := by
  have hc := Char.toNat_lt_max c
  intro b hb
  unfold url.utf8Bytes at hb
  split_ifs at hb <;> simp only [List.mem_cons, List.mem_singleton, List.not_mem_nil, or_false] at hb
  · omega
  · omega
  · omega
  · omega

theorem url.utf8Bytes_ne_nil (c : Char) : url.utf8Bytes c ≠ [] := by
  unfold url.utf8Bytes
  split_ifs <;> simp

theorem url.unescape.bytes_cons (c : Char) (rest : List Char) (hc : c ≠ '%') :
    url.unescape.bytes (c :: rest)
      = (url.unescape.bytes rest).map (fun bs => url.utf8Bytes c ++ bs) := by
  match rest with
  | [] => simp [url.unescape.bytes, hc]
  | [a] => simp [url.unescape.bytes, hc]
  | a :: b :: rest => simp [url.unescape.bytes, hc]

theorem url.unescape.bytes_escapeBytes (bs : List Nat) (rest : List Char)
    (h : ∀ b ∈ bs, b < 256) :
    url.unescape.bytes (url.escapeBytes bs ++ rest)
      = (url.unescape.bytes rest).map (fun r => bs ++ r) := by
  induction bs with
  | nil => simp [url.escapeBytes]
  | cons b bs ih =>
    have hb := h b (by simp)
    simp only [url.escapeBytes, List.cons_append, url.unescape.bytes, if_true, List.append_eq]
    rw [url.unhex_hexDigit (b / 16) (by omega), url.unhex_hexDigit (b % 16) (Nat.mod_lt _ (by norm_num)),
      ih (fun x hx => h x (List.mem_cons_of_mem _ hx))]
    cases url.unescape.bytes rest with
    | none => rfl
    | some r =>
      simp only [Option.map_some', List.cons_append, Option.some.injEq, List.cons.injEq, and_true]
      omega

theorem url.shouldEscape_percent : url.shouldEscape 37 = true := by decide

theorem url.unescape.bytes_escape (s : List Char) :
    url.unescape.bytes (url.escape s) = some ((s.map url.utf8Bytes).flatten) := by
  induction s with
  | nil => rfl
  | cons c cs ih =>
    unfold url.escape
    split_ifs with hc
    · have hne : c ≠ '%' := by
        intro h0
        subst h0
        simp only [Bool.and_eq_true, decide_eq_true_eq, Bool.not_eq_true'] at hc
        exact absurd hc.2 (by decide)
      simp only [List.singleton_append]
      rw [url.unescape.bytes_cons c _ hne, ih]
      simp
    · rw [url.unescape.bytes_escapeBytes _ _ (url.utf8Bytes_lt c), ih]
      simp

theorem url.utf8Decode_utf8Bytes (c : Char) (n : Nat) (bs : List Nat) :
    url.utf8Decode (n + 1) (url.utf8Bytes c ++ bs) = c :: url.utf8Decode n bs := by
  have hmax := Char.toNat_lt_max c
  have hof : Char.ofNat c.toNat = c := Char.ofNat_toNat c
  unfold url.utf8Bytes
  split_ifs with h1 h2 h3
  · simp only [List.singleton_append, url.utf8Decode]
    have : c.toNat < 192 := by omega
    simp [this, hof]
  · simp only [List.cons_append, List.nil_append, url.utf8Decode]
    have a1 : ¬ (192 + c.toNat / 64 < 192) := by omega
    have a2 : 192 + c.toNat / 64 < 224 := by omega
    simp only [a1, a2, if_false, if_true, List.length_cons]
    rw [if_neg (by simp)]
    simp only [List.append_eq, List.cons_append, List.nil_append, List.take_succ_cons,
      List.take_zero, List.foldl_cons, List.foldl_nil, List.drop_succ_cons, List.drop_zero]
    have : (192 + c.toNat / 64 - 192) * 64 + (128 + c.toNat % 64 - 128) = c.toNat := by omega
    rw [this, hof]
  · simp only [List.cons_append, List.nil_append, url.utf8Decode]
    have a1 : ¬ (224 + c.toNat / 4096 < 192) := by omega
    have a2 : ¬ (224 + c.toNat / 4096 < 224) := by omega
    have a3 : 224 + c.toNat / 4096 < 240 := by omega
    simp only [a1, a2, a3, if_false, if_true, List.length_cons]
    rw [if_neg (by simp)]
    simp only [List.append_eq, List.cons_append, List.nil_append, List.take_succ_cons,
      List.take_zero, List.foldl_cons, List.foldl_nil, List.drop_succ_cons, List.drop_zero]
    have : ((224 + c.toNat / 4096 - 224) * 64 + (128 + c.toNat / 64 % 64 - 128)) * 64
        + (128 + c.toNat % 64 - 128) = c.toNat := by omega
    rw [this, hof]
  · simp only [List.cons_append, List.nil_append, url.utf8Decode]
    have a1 : ¬ (240 + c.toNat / 262144 < 192) := by omega
    have a2 : ¬ (240 + c.toNat / 262144 < 224) := by omega
    have a3 : ¬ (240 + c.toNat / 262144 < 240) := by omega
    have a4 : 240 + c.toNat / 262144 < 248 := by omega
    simp only [a1, a2, a3, a4, if_false, if_true, List.length_cons]
    rw [if_neg (by simp)]
    simp only [List.append_eq, List.cons_append, List.nil_append, List.take_succ_cons,
      List.take_zero, List.foldl_cons, List.foldl_nil, List.drop_succ_cons, List.drop_zero]
    have : (((240 + c.toNat / 262144 - 240) * 64 + (128 + c.toNat / 4096 % 64 - 128)) * 64
        + (128 + c.toNat / 64 % 64 - 128)) * 64 + (128 + c.toNat % 64 - 128) = c.toNat := by
      omega
    rw [this, hof]

theorem url.utf8Decode_flatten (s : List Char) :
    ∀ n, s.length ≤ n → url.utf8Decode n ((s.map url.utf8Bytes).flatten) = s := by
  induction s with
  | nil =>
    intro n _
    cases n <;> simp [url.utf8Decode]
  | cons c cs ih =>
    intro n hn
    cases n with
    | zero => simp at hn
    | succ m =>
      simp only [List.map_cons, List.flatten_cons]
      rw [url.utf8Decode_utf8Bytes, ih m (by simpa using hn)]

theorem url.length_le_flatten (s : List Char) :
    s.length ≤ ((s.map url.utf8Bytes).flatten).length := by
  induction s with
  | nil => simp
  | cons c cs ih =>
    simp only [List.map_cons, List.flatten_cons, List.length_append, List.length_cons]
    have := List.length_pos.2 (url.utf8Bytes_ne_nil c)
    omega

theorem url.escapeBytes_head (bs : List Nat) (h : bs ≠ []) : '%' ∈ url.escapeBytes bs := by
  cases bs with
  | nil => exact absurd rfl h
  | cons b bs => simp [url.escapeBytes]

theorem url.escape_eq_self (s : List Char) (h : '%' ∉ url.escape s) : url.escape s = s := by
  induction s with
  | nil => rfl
  | cons c cs ih =>
    unfold url.escape at h ⊢
    split_ifs at h ⊢ with hc
    · simp only [List.singleton_append, List.mem_cons, not_or] at h
      rw [List.singleton_append, ih h.2]
    · exfalso
      apply h
      exact List.mem_append_left _ (url.escapeBytes_head _ (url.utf8Bytes_ne_nil c))

theorem url.unescape_escape (s : List Char) : url.unescape (url.escape s) = some s := by
  unfold url.unescape
  by_cases h : '%' ∈ url.escape s
  · have : (url.escape s).contains '%' = true := by simpa using h
    simp only [this, Bool.not_true, Bool.false_eq_true, if_false]
    rw [url.unescape.bytes_escape]
    simp only [Option.map_some', Option.some.injEq]
    exact url.utf8Decode_flatten s _ (url.length_le_flatten s)
  · have : (url.escape s).contains '%' = false := by simpa using h
    simp only [this, Bool.not_false, if_true, Option.some.injEq]
    exact url.escape_eq_self s h

theorem url.escape_injective (a b : List Char) (h : url.escape a = url.escape b) : a = b := by
  have := url.unescape_escape a
  rw [h, url.unescape_escape] at this
  exact (Option.some.inj this).symm

theorem ServeMux.pathUnescape_escape (s : List Char) :
    ServeMux.pathUnescape (url.escape s) = s := by
  unfold ServeMux.pathUnescape
  rw [url.unescape_escape]

theorem url.escape_append (a b : List Char) :
    url.escape (a ++ b) = url.escape a ++ url.escape b := by
  induction a with
  | nil => rfl
  | cons c cs ih =>
    simp only [List.cons_append, url.escape, List.append_eq, ih, List.append_assoc]

theorem url.escape_slash (t : List Char) : url.escape ('/' :: t) = '/' :: url.escape t := by
  have h : ((('/' : Char).toNat < 128) && !url.shouldEscape ('/' : Char).toNat) = true := by decide
  rw [url.escape]
  simp only [h, if_true, List.singleton_append]

theorem url.escapeBytes_noslash (bs : List Nat) (h : ∀ b ∈ bs, b < 256) :
    '/' ∉ url.escapeBytes bs := by
  induction bs with
  | nil => simp [url.escapeBytes]
  | cons b bs ih =>
    have hb := h b (by simp)
    simp only [url.escapeBytes, List.mem_cons, not_or]
    refine ⟨by decide, ?_, ?_, ih (fun x hx => h x (List.mem_cons_of_mem _ hx))⟩
    · exact Ne.symm (url.hexDigit_ne (b / 16) (by omega)).1
    · exact Ne.symm (url.hexDigit_ne (b % 16) (Nat.mod_lt _ (by norm_num))).1

theorem url.escape_noslash (p : List Char) (h : '/' ∉ p) : '/' ∉ url.escape p := by
  induction p with
  | nil => simp [url.escape]
  | cons c cs ih =>
    simp only [List.mem_cons, not_or] at h
    unfold url.escape
    rw [List.mem_append, not_or]
    refine ⟨?_, ih h.2⟩
    split_ifs
    · simpa using h.1
    · exact url.escapeBytes_noslash _ (url.utf8Bytes_lt c)

theorem url.escape_eq_nil (s : List Char) : url.escape s = [] ↔ s = [] := by
  constructor
  · intro h
    exact url.escape_injective s [] (by rw [h]; rfl)
  · rintro rfl
    rfl

namespace ServeMux

theorem splitSlash_escape (s : List Char) :
    splitSlash (url.escape s) = (splitSlash s).map url.escape := by
  induction' hn : s.length using Nat.strong_induction_on with n ih generalizing s
  rcases slash_cases s with h | ⟨p, t, hp, hs⟩
  · rw [splitSlash_noslash s h, splitSlash_noslash _ (url.escape_noslash s h)]
    rfl
  · subst hs
    rw [url.escape_append, url.escape_slash, splitSlash_append _ _ (url.escape_noslash p hp),
      splitSlash_append _ _ hp, ih t.length (by rw [← hn]; simp; omega) t rfl]
    rfl

/-- The segments of the escaped form of a rooted path. -/
theorem pathSegments_root : pathSegments "/" = ["/"] := by decide

theorem pathSegments.loop_escape_noslash (q : List Char) (hq : '/' ∉ q) (hne : q ≠ []) :
    pathSegments.loop (splitSlash (url.escape q)) = [String.mk q] := by
  rw [splitSlash_noslash _ (url.escape_noslash q hq)]
  have : url.escape q ≠ [] := fun h => hne ((url.escape_eq_nil q).1 h)
  simp [pathSegments.loop, this, pathUnescape_escape]

theorem pathSegments.loop_escape_slash (q t : List Char) (hq : '/' ∉ q) :
    pathSegments.loop (splitSlash (url.escape (q ++ '/' :: t)))
      = String.mk q :: (if t = [] then ["/"] else pathSegments.loop (splitSlash (url.escape t))) := by
  rw [url.escape_append, url.escape_slash, splitSlash_append _ _ (url.escape_noslash q hq)]
  rw [pathSegments.loop, if_neg (splitSlash_ne_nil _), pathUnescape_escape]
  congr 1
  split_ifs with ht
  · subst ht
    rfl
  · rfl

end ServeMux

namespace ServeMux

theorem pathSegments_escape_rooted (qq : List Char) :
    pathSegments ⟨url.escape ('/' :: qq)⟩
      = if qq = [] then ["/"] else pathSegments.loop (splitSlash (url.escape qq)) := by
  rw [url.escape_slash]
  unfold pathSegments
  have h1 : (⟨'/' :: url.escape qq⟩ : String) ≠ "" := by
    intro h
    have := congrArg String.data h
    simp at this
  have h2 : ((⟨'/' :: url.escape qq⟩ : String) = "/") ↔ qq = [] := by
    constructor
    · intro h
      have := congrArg String.data h
      simp only [String.data, List.cons.injEq, true_and] at this
      exact (url.escape_eq_nil qq).1 this
    · rintro rfl
      rfl
  by_cases hq : qq = []
  · subst hq
    rfl
  · have h3 : url.escape qq ≠ [] := fun h => hq ((url.escape_eq_nil qq).1 h)
    simp only [h1, if_false, h2, hq, List.drop_succ_cons, List.drop_zero, h3]

theorem pathSegments_escape_nil : pathSegments ⟨url.escape ['/']⟩ = ["/"] := by
  rw [pathSegments_escape_rooted]
  rfl

theorem pathSegments_escape_noslash (q : List Char) (hq : '/' ∉ q) (hne : q ≠ []) :
    pathSegments ⟨url.escape ('/' :: q)⟩ = [String.mk q] := by
  rw [pathSegments_escape_rooted, if_neg hne, pathSegments.loop_escape_noslash q hq hne]

theorem pathSegments_escape_slash (q t : List Char) (hq : '/' ∉ q) :
    pathSegments ⟨url.escape ('/' :: (q ++ '/' :: t))⟩
      = String.mk q :: pathSegments ⟨url.escape ('/' :: t)⟩ := by
  rw [pathSegments_escape_rooted, if_neg (by simp), pathSegments.loop_escape_slash q t hq,
    pathSegments_escape_rooted]

theorem pathSegments_escape_ne_nil (qq : List Char) :
    ∃ s rest, pathSegments ⟨url.escape ('/' :: qq)⟩ = s :: rest := by
  rcases slash_cases qq with h | ⟨q, t, hq, rfl⟩
  · by_cases hn : qq = []
    · subst hn
      exact ⟨_, _, pathSegments_escape_nil⟩
    · exact ⟨_, _, pathSegments_escape_noslash qq h hn⟩
  · exact ⟨_, _, pathSegments_escape_slash q t hq⟩

theorem literalSegments_nil : literalSegments (splitSlash []) = [{ wild := true, multi := true }] :=
  rfl

theorem literalSegments_noslash (p : List Char) (hp : '/' ∉ p) (hne : p ≠ []) :
    literalSegments (splitSlash p) = [{ s := String.mk p }] := by
  rw [splitSlash_noslash p hp]
  simp [literalSegments, hne]

theorem literalSegments_slash (p t : List Char) (hp : '/' ∉ p) :
    literalSegments (splitSlash (p ++ '/' :: t))
      = { s := String.mk p } :: literalSegments (splitSlash t) := by
  rw [splitSlash_append p t hp, literalSegments]
  simp [splitSlash_ne_nil]

theorem literalSegments_ne_nil (t : List Char) :
    ∃ sg tl, literalSegments (splitSlash t) = sg :: tl := by
  have h := literalSegments_length (splitSlash t)
  cases hl : literalSegments (splitSlash t) with
  | nil =>
    rw [hl] at h
    exact absurd (List.length_eq_zero.1 h.symm) (splitSlash_ne_nil t)
  | cons sg tl => exact ⟨sg, tl, rfl⟩

theorem prefix_slash_iff (p q t u : List Char) (hp : '/' ∉ p) (hq : '/' ∉ q) :
    (p ++ '/' :: t <+: q ++ '/' :: u) ↔ (p = q ∧ t <+: u) := by
  induction p generalizing q with
  | nil =>
    cases q with
    | nil => simp
    | cons c q' =>
      simp only [List.mem_cons, not_or] at hq
      simp only [List.nil_append, List.cons_append, List.cons_prefix_cons]
      constructor
      · rintro ⟨h, _⟩
        exact absurd h hq.1
      · rintro ⟨h, _⟩
        simp at h
  | cons a p' ih =>
    simp only [List.mem_cons, not_or] at hp
    cases q with
    | nil =>
      simp only [List.nil_append, List.cons_append, List.cons_prefix_cons]
      constructor
      · rintro ⟨h, _⟩
        exact absurd h.symm hp.1
      · rintro ⟨h, _⟩
        simp at h
    | cons b q' =>
      simp only [List.mem_cons, not_or] at hq
      simp only [List.cons_append, List.cons_prefix_cons, List.cons.injEq]
      rw [ih q' hp.2 hq.2]
      tauto

theorem eq_slash_iff (p q t u : List Char) (hp : '/' ∉ p) (hq : '/' ∉ q) :
    (p ++ '/' :: t = q ++ '/' :: u) ↔ (p = q ∧ t = u) := by
  induction p generalizing q with
  | nil =>
    cases q with
    | nil => simp
    | cons c q' =>
      simp only [List.mem_cons, not_or] at hq
      simp only [List.nil_append, List.cons_append, List.cons.injEq]
      constructor
      · rintro ⟨h, _⟩
        exact absurd h hq.1
      · rintro ⟨h, _⟩
        simp at h
  | cons a p' ih =>
    simp only [List.mem_cons, not_or] at hp
    cases q with
    | nil =>
      simp only [List.nil_append, List.cons_append, List.cons.injEq]
      constructor
      · rintro ⟨h, _⟩
        exact absurd h.symm hp.1
      · rintro ⟨h, _⟩
        simp at h
    | cons b q' =>
      simp only [List.mem_cons, not_or] at hq
      simp only [List.cons_append, List.cons.injEq]
      rw [ih q' hp.2 hq.2]
      tauto

theorem getLast_slash_append (p t : List Char) :
    ((p ++ '/' :: t) = [] ∨ (p ++ '/' :: t).getLast? = some '/') ↔
      (t = [] ∨ t.getLast? = some '/') := by
  have h1 : (p ++ '/' :: t) ≠ [] := by simp
  simp only [h1, false_or]
  rw [List.getLast?_append]
  cases t with
  | nil => simp
  | cons c cs =>
    simp [List.getLast?_cons_cons]

theorem noslash_getLast (p : List Char) (hp : '/' ∉ p) : p.getLast? ≠ some '/' := by
  intro h
  exact hp (List.mem_of_getLast?_eq_some h)

theorem segmentsMatch_literal (pp : List Char) :
    ∀ qq : List Char,
      segmentsMatch (literalSegments (splitSlash pp)) (pathSegments ⟨url.escape ('/' :: qq)⟩) = true
        ↔ (((pp = [] ∨ pp.getLast? = some '/') ∧ pp <+: qq) ∨ pp = qq) := by
  induction' hn : pp.length using Nat.strong_induction_on with n ih generalizing pp
  intro qq
  rcases slash_cases pp with hp | ⟨p, t, hp, rfl⟩
  · by_cases hpn : pp = []
    · subst hpn
      obtain ⟨s, rest, hs⟩ := pathSegments_escape_ne_nil qq
      rw [literalSegments_nil, hs]
      simp [segmentsMatch]
    · rw [literalSegments_noslash pp hp hpn]
      have hlast := noslash_getLast pp hp
      rcases slash_cases qq with hq | ⟨q, u, hq, rfl⟩
      · by_cases hqn : qq = []
        · subst hqn
          rw [pathSegments_escape_nil]
          have : (String.mk pp = "/") ↔ False := by
            rw [iff_false]
            intro h
            have := congrArg String.data h
            simp only [String.data] at this
            rw [this] at hp
            simp at hp
          simp [segmentsMatch, this, hpn, hlast]
        · rw [pathSegments_escape_noslash qq hq hqn]
          have : (String.mk pp = String.mk qq) ↔ pp = qq :=
            ⟨fun h => congrArg String.data h, fun h => by rw [h]⟩
          simp [segmentsMatch, this, hpn, hlast]
      · rw [pathSegments_escape_slash q u hq]
        obtain ⟨s, rest, hs⟩ := pathSegments_escape_ne_nil u
        rw [hs]
        have hne : pp ≠ q ++ '/' :: u := by
          intro h
          rw [h] at hp
          simp at hp
        simp [segmentsMatch, hpn, hlast, hne]
  · rw [literalSegments_slash p t hp]
    obtain ⟨sg, tl, hsg⟩ := literalSegments_ne_nil t
    rcases slash_cases qq with hq | ⟨q, u, hq, rfl⟩
    · have hne : p ++ '/' :: t ≠ qq := by
        intro h
        rw [← h] at hq
        simp at hq
      have hnp : ¬ (p ++ '/' :: t <+: qq) := by
        rintro ⟨w, hw⟩
        rw [← hw] at hq
        simp at hq
      by_cases hqn : qq = []
      · subst hqn
        rw [pathSegments_escape_nil, hsg]
        simp [segmentsMatch]
      · rw [pathSegments_escape_noslash qq hq hqn, hsg]
        simp [segmentsMatch, hne, hnp]
    · rw [pathSegments_escape_slash q u hq]
      have hih := ih t.length (by rw [← hn]; simp; omega) t rfl u
      have hmk : (String.mk p = String.mk q) ↔ p = q :=
        ⟨fun h => congrArg String.data h, fun h => by rw [h]⟩
      simp only [segmentsMatch, Bool.false_or, Bool.and_eq_true, decide_eq_true_eq, hmk, hih]
      rw [getLast_slash_append, prefix_slash_iff p q t u hp hq, eq_slash_iff p q t u hp hq]
      tauto

end ServeMux

namespace ServeMux

theorem rooted_data (np : String) (h : strings.HasPrefix np "/" = true) :
    ∃ qq, np.data = '/' :: qq := by
  obtain ⟨t, ht⟩ := (strings.HasPrefix_iff _ _).1 h
  exact ⟨t.data, by rw [ht]; rfl⟩

theorem suffix_slash_iff (p : String) (pp : List Char) (h : p.data = '/' :: pp) :
    strings.HasSuffix p "/" = true ↔ (pp = [] ∨ pp.getLast? = some '/') := by
  rw [strings.HasSuffix_iff]
  constructor
  · rintro ⟨t, ht⟩
    have hd := congrArg String.data ht
    rw [h] at hd
    simp only [String.data_append] at hd
    have hl := congrArg List.getLast? hd
    by_cases hpp : pp = []
    · exact Or.inl hpp
    · right
      obtain ⟨c, cs, rfl⟩ := List.exists_cons_of_ne_nil hpp
      rw [List.getLast?_cons_cons] at hl
      rw [hl]
      simp [show ("/" : String).data = ['/'] from rfl]
  · intro hcase
    rcases hcase with rfl | hl
    · exact ⟨"", String.ext (by rw [h]; rfl)⟩
    · obtain ⟨ys, hys⟩ : ∃ ys, pp = ys ++ ['/'] := by
        have hne : pp ≠ [] := by
          intro h0
          rw [h0] at hl
          simp at hl
        refine ⟨pp.dropLast, ?_⟩
        have := List.dropLast_append_getLast? '/' (by simpa using hl)
        exact this.symm
      exact ⟨⟨'/' :: ys⟩, String.ext (by rw [h, hys]; rfl)⟩

theorem prefix_iff_data (np p : String) (pp qq : List Char) (hp : p.data = '/' :: pp)
    (hq : np.data = '/' :: qq) : strings.HasPrefix np p = true ↔ pp <+: qq := by
  unfold strings.HasPrefix
  rw [List.isPrefixOf_iff_prefix, hp, hq, List.cons_prefix_cons]
  simp

theorem segmentsMatch_string (p np : String) (hp : literalPattern p = true)
    (hnp : strings.HasPrefix np "/" = true) :
    segmentsMatch (literalSegments (splitSlash (p.data.drop 1)))
        (pathSegments ⟨url.escape np.data⟩) = true
      ↔ ((strings.HasSuffix p "/" = true ∧ strings.HasPrefix np p = true) ∨ p = np) := by
  obtain ⟨pp, hpp, _, _⟩ := literalPattern_data p hp
  obtain ⟨qq, hqq⟩ := rooted_data np hnp
  rw [suffix_slash_iff p pp hpp, prefix_iff_data np p pp qq hpp hqq, hpp, hqq]
  simp only [List.drop_succ_cons, List.drop_zero]
  rw [segmentsMatch_literal]
  have : p = np ↔ pp = qq := by
    constructor
    · intro h
      have := congrArg String.data h
      rw [hpp, hqq] at this
      simpa using this
    · intro h
      exact String.ext (by rw [hpp, hqq, h])
  rw [this]

theorem segments_length_count (p : String) (hp : literalPattern p = true) :
    (literalSegments (splitSlash (p.data.drop 1))).length = p.data.count '/' := by
  obtain ⟨pp, hpp, _, _⟩ := literalPattern_data p hp
  rw [literalSegments_length, splitSlash_length, hpp]
  simp

theorem prefix_count_length (x y : List Char) (np : List Char) (hx : x <+: np) (hy : y <+: np)
    (hys : y.getLast? = some '/') (hc : y.count '/' ≤ x.count '/') : y.length ≤ x.length := by
  rcases List.prefix_or_prefix_of_prefix hx hy with h | h
  · obtain ⟨t, ht⟩ := h
    by_cases htn : t = []
    · rw [← ht, htn]
      simp
    · exfalso
      rw [← ht, List.getLast?_append_of_ne_nil _ htn] at hys
      have hmem := List.mem_of_getLast?_eq_some hys
      have hpos := List.count_pos_iff.2 hmem
      rw [← ht, List.count_append] at hc
      omega
  · exact h.length_le

theorem data_getLast_of_suffix (p : String) (h : strings.HasSuffix p "/" = true) :
    p.data.getLast? = some '/' := by
  obtain ⟨t, ht⟩ := (strings.HasSuffix_iff _ _).1 h
  rw [ht]
  simp [show ("/" : String).data = ['/'] from rfl]

theorem treeMatch_literal_spec (l : List (String × RouteTarget))
    (hl : ∀ x ∈ l, literalPattern x.1 = true) (host method np : String)
    (hnp : strings.HasPrefix np "/" = true)
    (hexact : ∀ y ∈ l, y.1 = np → strings.HasSuffix y.1 "/" = true) :
    (treeMatch ⟨l⟩ host method ⟨url.escape np.data⟩ = none ∧
      ∀ y ∈ l, ¬ (strings.HasSuffix y.1 "/" = true ∧ strings.HasPrefix np y.1 = true)) ∨
    (∃ x ∈ l, treeMatch ⟨l⟩ host method ⟨url.escape np.data⟩
        = some ({ segments := literalSegments (splitSlash (x.1.data.drop 1)) }, x.1, x.2) ∧
      strings.HasSuffix x.1 "/" = true ∧ strings.HasPrefix np x.1 = true ∧
      ∀ y ∈ l, strings.HasSuffix y.1 "/" = true → strings.HasPrefix np y.1 = true →
        y.1.length ≤ x.1.length) := by
  rw [treeMatch_literal l hl, routes_literal l hl, List.map_map]
  have hplain : ∀ c ∈ l.map ((fun x : Route => (x.1.segments, x)) ∘ fun e =>
      (({ segments := literalSegments (splitSlash (e.1.data.drop 1)) } : Pattern), e.1, e.2)),
      plainSegments c.1 = true := by
    intro c hc
    obtain ⟨e, he, rfl⟩ := List.mem_map.1 hc
    exact literalPattern_plain e.1 (hl e he)
  have hpre : ∀ y ∈ l, segmentsMatch (literalSegments (splitSlash (y.1.data.drop 1)))
      (pathSegments ⟨url.escape np.data⟩) = true ↔
      (strings.HasSuffix y.1 "/" = true ∧ strings.HasPrefix np y.1 = true) := by
    intro y hy
    rw [segmentsMatch_string y.1 np (hl y hy) hnp]
    constructor
    · rintro (h | h)
      · exact h
      · refine ⟨hexact y hy h, ?_⟩
        rw [h]
        exact (strings.HasPrefix_iff _ _).2 ⟨"", by simp⟩
    · exact Or.inl
  rcases matchPath_spec (pathSegments ⟨url.escape np.data⟩) _ hplain with
    ⟨hnone, hall⟩ | ⟨c, hc, hsome, hmatch, hmax⟩
  · left
    refine ⟨hnone, ?_⟩
    intro y hy hm
    have := hall _ (List.mem_map.2 ⟨y, hy, rfl⟩)
    simp only [Function.comp] at this
    rw [(hpre y hy).2 hm] at this
    exact absurd this (by simp)
  · right
    obtain ⟨x, hx, rfl⟩ := List.mem_map.1 hc
    simp only [Function.comp] at hsome hmatch hmax
    have hxm := (hpre x hx).1 hmatch
    refine ⟨x, hx, hsome, hxm.1, hxm.2, ?_⟩
    intro y hy hys hyp
    have hle := hmax _ (List.mem_map.2 ⟨y, hy, rfl⟩) (by
      simp only [Function.comp]
      exact (hpre y hy).2 ⟨hys, hyp⟩)
    simp only [Function.comp] at hle
    rw [segments_length_count y.1 (hl y hy), segments_length_count x.1 (hl x hx)] at hle
    have h1 : x.1.data <+: np.data := List.isPrefixOf_iff_prefix.1 hxm.2
    have h2 : y.1.data <+: np.data := List.isPrefixOf_iff_prefix.1 hyp
    exact prefix_count_length x.1.data y.1.data np.data h1 h2 (data_getLast_of_suffix y.1 hys) hle

theorem lastMulti_literal (pp : List Char) (h : pp = [] ∨ pp.getLast? = some '/') :
    Pattern.lastMulti { segments := literalSegments (splitSlash pp) } = true := by
  induction' hn : pp.length using Nat.strong_induction_on with n ih generalizing pp
  rcases slash_cases pp with hp | ⟨p, t, hp, rfl⟩
  · rcases h with rfl | h
    · rfl
    · exact absurd h (noslash_getLast pp hp)
  · rw [literalSegments_slash p t hp]
    obtain ⟨sg, tl, hsg⟩ := literalSegments_ne_nil t
    have hih := ih t.length (by rw [← hn]; simp; omega) t ((getLast_slash_append p t).1 h) rfl
    unfold Pattern.lastMulti at hih ⊢
    simp only at hih ⊢
    rw [hsg] at hih ⊢
    rw [List.getLast?_cons_cons]
    exact hih

theorem count_escape (s : List Char) : (url.escape s).count '/' = s.count '/' := by
  have h1 := splitSlash_length (url.escape s)
  rw [splitSlash_escape, List.length_map, splitSlash_length] at h1
  omega

theorem exactMatch_literal (l : List (String × RouteTarget))
    (hl : ∀ x ∈ l, literalPattern x.1 = true) (host method np : String)
    (hnp : strings.HasPrefix np "/" = true) (hs : strings.HasSuffix np "/" = true)
    (h : exactMatch (treeMatch ⟨l⟩ host method ⟨url.escape np.data⟩) ⟨url.escape np.data⟩ = true) :
    ∃ y ∈ l, y.1 = np := by
  rcases treeMatch_literal_spec l hl host method np hnp (fun y _ hy => hy ▸ hs) with
    ⟨hnone, _⟩ | ⟨x, hx, hsome, hxs, hxp, _⟩
  · rw [hnone] at h
    simp [exactMatch] at h
  · refine ⟨x, hx, ?_⟩
    rw [hsome] at h
    obtain ⟨pp, hpp, _, _⟩ := literalPattern_data x.1 (hl x hx)
    have hlm : Pattern.lastMulti { segments := literalSegments (splitSlash (x.1.data.drop 1)) }
        = true := by
      rw [hpp]
      exact lastMulti_literal pp ((suffix_slash_iff x.1 pp hpp).1 hxs)
    simp only [exactMatch, hlm, Bool.not_true, Bool.false_eq_true, if_false] at h
    split_ifs at h with hc
    simp only [decide_eq_true_eq] at h
    rw [segments_length_count x.1 (hl x hx), count_escape] at h
    obtain ⟨t, ht⟩ := List.isPrefixOf_iff_prefix.1 hxp
    have hcount : t.count '/' = 0 := by
      have := congrArg (List.count '/') ht
      rw [List.count_append] at this
      omega
    have htn : t = [] := by
      by_contra htn
      have hlast := data_getLast_of_suffix np hs
      rw [← ht, List.getLast?_append_of_ne_nil _ htn] at hlast
      have := List.count_pos_iff.2 (List.mem_of_getLast?_eq_some hlast)
      omega
    apply String.ext
    rw [← ht, htn]
    simp

theorem matchingMethods_literal (l : List (String × RouteTarget))
    (hl : ∀ x ∈ l, literalPattern x.1 = true) (host path : String) :
    matchingMethods ⟨l⟩ host path = [] := by
  have hr := routes_literal l hl
  have hnil : ∀ (p : String) (rs : List Route), (∀ x ∈ rs, x.1.method = "") →
      ((rs.map (fun x => x.1.method)).filter (fun m =>
        m ≠ "" &&
        (matchPath ((rs.filter (fun x => x.1.method = m)).map
          (fun x => (x.1.segments, x))) (pathSegments p)).isSome)) = [] := by
    intro p rs hrs
    rw [List.filter_eq_nil_iff]
    intro m hm
    obtain ⟨x, hx, rfl⟩ := List.mem_map.1 hm
    simp [hrs x hx]
  have hall : ∀ x ∈ routes ⟨l⟩, x.1.method = "" := by
    intro x hx
    rw [hr] at hx
    obtain ⟨e, _, rfl⟩ := List.mem_map.1 hx
    rfl
  have hsub : ∀ (q : Route → Bool), ∀ x ∈ (routes ⟨l⟩).filter q, x.1.method = "" :=
    fun q x hx => hall x (List.mem_filter.1 hx).1
  unfold matchingMethods
  by_cases hh : host = ""
  · simp only [hh, ne_eq, not_true_eq_false, if_false, List.nil_append, List.map_cons,
      List.map_nil, List.flatten_cons, List.flatten_nil, List.append_nil]
    rw [hnil path _ (hsub _), hnil (path ++ "/") _ (hsub _)]
    simp [insertMethod]
  · simp only [hh, ne_eq, not_false_eq_true, if_true, List.singleton_append, List.map_cons,
      List.map_nil, List.flatten_cons, List.flatten_nil, List.append_nil]
    rw [hnil path _ (hsub _), hnil (path ++ "/") _ (hsub _), hnil path _ (hsub _),
      hnil (path ++ "/") _ (hsub _)]
    simp [insertMethod]

end ServeMux

namespace ServeMux

theorem treeMatch_perm (l l' : List (String × RouteTarget)) (hp : l.Perm l')
    (hl : ∀ x ∈ l, literalPattern x.1 = true) (hnd : (l.map Prod.fst).Nodup)
    (host method path : String) :
    treeMatch ⟨l⟩ host method path = treeMatch ⟨l'⟩ host method path := by
  have hl' : ∀ x ∈ l', literalPattern x.1 = true := fun x hx => hl x (hp.mem_iff.2 hx)
  rw [treeMatch_literal l hl, treeMatch_literal l' hl', routes_literal l hl, routes_literal l' hl']
  apply matchPath_perm
  · exact (hp.map _).map _
  · intro c hc
    obtain ⟨x, hx, rfl⟩ := List.mem_map.1 hc
    obtain ⟨e, he, rfl⟩ := List.mem_map.1 hx
    exact literalPattern_plain e.1 (hl e he)
  · have hmap : List.map Prod.fst (List.map (fun x : Route => (x.1.segments, x))
        (List.map (fun e : String × RouteTarget =>
          (({ segments := literalSegments (splitSlash (e.1.data.drop 1)) } : Pattern), e.1, e.2)) l))
        = (l.map Prod.fst).map (fun p : String => literalSegments (splitSlash (p.data.drop 1))) := by
      simp [List.map_map, Function.comp]
    rw [hmap]
    apply List.Nodup.map_on _ hnd
    intro a ha b hb hab
    obtain ⟨x, hx, rfl⟩ := List.mem_map.1 ha
    obtain ⟨y, hy, rfl⟩ := List.mem_map.1 hb
    exact literalPattern_segments_injective x.1 y.1 (hl x hx) (hl y hy) hab

theorem findHandler_perm (l l' : List (String × RouteTarget)) (hp : l.Perm l')
    (hl : ∀ x ∈ l, literalPattern x.1 = true) (hnd : (l.map Prod.fst).Nodup) (r : Request) :
    findHandler ⟨l⟩ r = findHandler ⟨l'⟩ r := by
  have hl' : ∀ x ∈ l', literalPattern x.1 = true := fun x hx => hl x (hp.mem_iff.2 hx)
  have hT := treeMatch_perm l l' hp hl hnd
  simp only [findHandler, matchOrRedirect, hT, matchingMethods_literal l hl,
    matchingMethods_literal l' hl']

theorem serve_perm (l l' : List (String × RouteTarget)) (hp : l.Perm l')
    (hl : ∀ x ∈ l, literalPattern x.1 = true) (hnd : (l.map Prod.fst).Nodup) (r : Request) :
    serve ⟨l⟩ r = serve ⟨l'⟩ r := by
  unfold serve
  rw [findHandler_perm l l' hp hl hnd r]

theorem EscapedPath_plain (u : URL) (hraw : u.RawPath = "")
    (hroot : strings.HasPrefix u.Path "/" = true) :
    u.EscapedPath = ⟨url.escape u.Path.data⟩ := by
  unfold URL.EscapedPath
  have hstar : u.Path ≠ "*" := by
    intro h
    rw [h] at hroot
    exact absurd hroot (by decide)
  simp [hraw, hstar]

theorem matchOrRedirect_cases (mux : ServeMux) (host method path : String) (u : URL) :
    matchOrRedirect mux host method path (some u) = (treeMatch mux host method path, none) ∨
    ∃ v, matchOrRedirect mux host method path (some u) = (none, some v) := by
  unfold matchOrRedirect
  simp only
  split_ifs
  · exact Or.inr ⟨_, rfl⟩
  · exact Or.inl rfl

theorem matchOrRedirect_none (mux : ServeMux) (host method path : String) :
    matchOrRedirect mux host method path none = (treeMatch mux host method path, none) := rfl

theorem findHandler_handler (l : List (String × RouteTarget))
    (hl : ∀ x ∈ l, literalPattern x.1 = true) (r : Request) (t : RouteTarget)
    (hraw : r.URL.RawPath = "") (hroot : strings.HasPrefix r.URL.Path "/" = true)
    (hexact : ∀ y ∈ l, y.1 = r.URL.Path → strings.HasSuffix y.1 "/" = true)
    (h : findHandler ⟨l⟩ r = .handler t) :
    ∃ x ∈ l, x.2 = t ∧ strings.HasSuffix x.1 "/" = true ∧
      strings.HasPrefix r.URL.Path x.1 = true ∧
      ∀ y ∈ l, strings.HasSuffix y.1 "/" = true → strings.HasPrefix r.URL.Path y.1 = true →
        y.1.length ≤ x.1.length := by
  have hE := EscapedPath_plain r.URL hraw hroot
  have key : ∀ host, ∀ found, treeMatch ⟨l⟩ host r.Method ⟨url.escape r.URL.Path.data⟩ = some found →
      found.2.2 = t →
      ∃ x ∈ l, x.2 = t ∧ strings.HasSuffix x.1 "/" = true ∧
        strings.HasPrefix r.URL.Path x.1 = true ∧
        ∀ y ∈ l, strings.HasSuffix y.1 "/" = true → strings.HasPrefix r.URL.Path y.1 = true →
          y.1.length ≤ x.1.length := by
    intro host found hf ht
    rcases treeMatch_literal_spec l hl host r.Method r.URL.Path hroot hexact with
      ⟨hnone, _⟩ | ⟨x, hx, hsome, hxs, hxp, hmax⟩
    · rw [hnone] at hf
      exact absurd hf (by simp)
    · rw [hsome] at hf
      have := Option.some.inj hf
      rw [← this] at ht
      exact ⟨x, hx, ht, hxs, hxp, hmax⟩
  unfold findHandler at h
  simp only [hE, matchingMethods_literal l hl] at h
  by_cases hm : r.Method = "CONNECT"
  · rw [if_pos hm] at h
    rcases matchOrRedirect_cases ⟨l⟩ r.URL.Host r.Method ⟨url.escape r.URL.Path.data⟩ r.URL with
      h1 | ⟨v, h1⟩
    · rw [h1, matchOrRedirect_none] at h
      simp only at h
      cases hf : treeMatch ⟨l⟩ r.Host r.Method ⟨url.escape r.URL.Path.data⟩ with
      | none =>
        rw [hf] at h
        exact absurd h (by simp)
      | some found =>
        rw [hf] at h
        exact key _ found hf (by simpa using h)
    · rw [h1] at h
      exact absurd h (by simp)
  · rw [if_neg hm] at h
    rcases matchOrRedirect_cases ⟨l⟩ (stripHostPort r.Host) r.Method
      (cleanPath ⟨url.escape r.URL.Path.data⟩) r.URL with h1 | ⟨v, h1⟩
    · rw [h1] at h
      simp only at h
      by_cases hc : cleanPath ⟨url.escape r.URL.Path.data⟩ = ⟨url.escape r.URL.Path.data⟩
      · rw [if_neg (not_not.2 hc), hc] at h
        cases hf : treeMatch ⟨l⟩ (stripHostPort r.Host) r.Method ⟨url.escape r.URL.Path.data⟩ with
        | none =>
          rw [hf] at h
          exact absurd h (by simp)
        | some found =>
          rw [hf] at h
          exact key _ found hf (by simpa using h)
      · rw [if_pos hc] at h
        exact absurd h (by simp)
    · rw [h1] at h
      exact absurd h (by simp)

theorem escape_suffix_slash (np : String) (h : strings.HasSuffix np "/" = true) :
    strings.HasSuffix ⟨url.escape np.data⟩ "/" = true := by
  obtain ⟨t, ht⟩ := (strings.HasSuffix_iff _ _).1 h
  rw [strings.HasSuffix_iff]
  refine ⟨⟨url.escape t.data⟩, ?_⟩
  apply String.ext
  rw [ht]
  simp only [String.data_append, url.escape_append]
  rfl

theorem escape_append_slash (np : String) :
    (⟨url.escape np.data⟩ : String) ++ "/" = ⟨url.escape (np ++ "/").data⟩ := by
  apply String.ext
  simp only [String.data_append, url.escape_append]
  rfl

theorem findHandler_of_match (l : List (String × RouteTarget))
    (hl : ∀ x ∈ l, literalPattern x.1 = true) (r : Request)
    (hraw : r.URL.RawPath = "") (hroot : strings.HasPrefix r.URL.Path "/" = true)
    (hclean : cleanPath ⟨url.escape r.URL.Path.data⟩ = ⟨url.escape r.URL.Path.data⟩)
    (hno : strings.HasSuffix r.URL.Path "/" = true ∨ ∀ x ∈ l, x.1 ≠ r.URL.Path ++ "/")
    (hexact : ∀ y ∈ l, y.1 = r.URL.Path → strings.HasSuffix y.1 "/" = true)
    (hex : ∃ y ∈ l, strings.HasSuffix y.1 "/" = true ∧ strings.HasPrefix r.URL.Path y.1 = true) :
    ∃ x ∈ l, findHandler ⟨l⟩ r = .handler x.2 := by
  have hE := EscapedPath_plain r.URL hraw hroot
  have hmatch : ∀ host, ∃ x ∈ l, treeMatch ⟨l⟩ host r.Method ⟨url.escape r.URL.Path.data⟩
      = some ({ segments := literalSegments (splitSlash (x.1.data.drop 1)) }, x.1, x.2) := by
    intro host
    rcases treeMatch_literal_spec l hl host r.Method r.URL.Path hroot hexact with
      ⟨_, hall⟩ | ⟨x, hx, hsome, _⟩
    · obtain ⟨y, hy, hys⟩ := hex
      exact absurd hys (hall y hy)
    · exact ⟨x, hx, hsome⟩
  have hred : ∀ host, (!exactMatch (treeMatch ⟨l⟩ host r.Method ⟨url.escape r.URL.Path.data⟩)
        ⟨url.escape r.URL.Path.data⟩ &&
      !strings.HasSuffix ⟨url.escape r.URL.Path.data⟩ "/" &&
      exactMatch (treeMatch ⟨l⟩ host r.Method ((⟨url.escape r.URL.Path.data⟩ : String) ++ "/"))
        ((⟨url.escape r.URL.Path.data⟩ : String) ++ "/")) = false := by
    intro host
    rcases hno with hs | hne
    · rw [escape_suffix_slash r.URL.Path hs]
      simp
    · have : exactMatch (treeMatch ⟨l⟩ host r.Method
          ((⟨url.escape r.URL.Path.data⟩ : String) ++ "/"))
          ((⟨url.escape r.URL.Path.data⟩ : String) ++ "/") = false := by
        rw [Bool.eq_false_iff]
        intro hex2
        rw [escape_append_slash] at hex2
        obtain ⟨y, hy, hyeq⟩ := exactMatch_literal l hl host r.Method (r.URL.Path ++ "/")
          (by
            obtain ⟨t, ht⟩ := (strings.HasPrefix_iff _ _).1 hroot
            exact (strings.HasPrefix_iff _ _).2 ⟨t ++ "/", by rw [ht, String.append_assoc]⟩)
          ((strings.HasSuffix_iff _ _).2 ⟨_, rfl⟩) hex2
        exact hne y hy hyeq
      rw [this]
      simp
  unfold findHandler
  simp only [hE, matchingMethods_literal l hl, matchOrRedirect, hclean, hred, Bool.false_eq_true,
    if_false, ne_eq, not_true_eq_false]
  split_ifs with hm
  · obtain ⟨x, hx, hsome⟩ := hmatch r.Host
    exact ⟨x, hx, by simp only [hsome]⟩
  · obtain ⟨x, hx, hsome⟩ := hmatch (stripHostPort r.Host)
    exact ⟨x, hx, by simp only [hsome]⟩

end ServeMux

namespace ServeMux

theorem escape_string_injective (a b : String)
    (h : (⟨url.escape a.data⟩ : String) = ⟨url.escape b.data⟩) : a = b :=
  String.ext (url.escape_injective _ _ (congrArg String.data h))

theorem escape_string_append (a b : String) :
    (⟨url.escape (a ++ b).data⟩ : String) = ⟨url.escape a.data⟩ ++ ⟨url.escape b.data⟩ := by
  apply String.ext
  simp [url.escape_append]

theorem cleanSegments_escape (l : List String) :
    ∀ acc : List String,
      cleanSegments (l.map fun s => ⟨url.escape s.data⟩) (acc.map fun s => ⟨url.escape s.data⟩)
        = (cleanSegments l acc).map fun s => ⟨url.escape s.data⟩ := by
  induction l with
  | nil =>
    intro acc
    simp [cleanSegments]
  | cons seg rest ih =>
    intro acc
    have h0 : ((⟨url.escape seg.data⟩ : String) = "") ↔ seg = "" :=
      ⟨fun h => escape_string_injective seg "" h, fun h => by rw [h]; rfl⟩
    have h1 : ((⟨url.escape seg.data⟩ : String) = ".") ↔ seg = "." :=
      ⟨fun h => escape_string_injective seg "." (h.trans (by decide)), fun h => by rw [h]; decide⟩
    have h2 : ((⟨url.escape seg.data⟩ : String) = "..") ↔ seg = ".." :=
      ⟨fun h => escape_string_injective seg ".." (h.trans (by decide)), fun h => by rw [h]; decide⟩
    simp only [List.map_cons, cleanSegments, h0, h1, h2]
    split_ifs
    · exact ih acc
    · have := ih acc.tail
      rw [List.map_tail] at this
      exact this
    · have := ih (seg :: acc)
      rw [List.map_cons] at this
      exact this

theorem intercalate_go_escape (l : List String) :
    ∀ acc : String,
      String.intercalate.go ⟨url.escape acc.data⟩ "/" (l.map fun s => ⟨url.escape s.data⟩)
        = ⟨url.escape (String.intercalate.go acc "/" l).data⟩ := by
  induction l with
  | nil =>
    intro acc
    simp [String.intercalate.go]
  | cons a rest ih =>
    intro acc
    simp only [List.map_cons, String.intercalate.go]
    rw [← ih (acc ++ "/" ++ a)]
    congr 1
    rw [escape_string_append, escape_string_append]
    rfl

theorem intercalate_escape (l : List String) :
    "/".intercalate (l.map fun s => ⟨url.escape s.data⟩)
      = ⟨url.escape ("/".intercalate l).data⟩ := by
  cases l with
  | nil => rfl
  | cons a rest =>
    simp only [List.map_cons, String.intercalate]
    exact intercalate_go_escape rest a

theorem escape_getLast (l : List Char) :
    (url.escape l).getLast? = some '/' ↔ l.getLast? = some '/' := by
  rcases List.eq_nil_or_concat l with rfl | ⟨l', c, rfl⟩
  · simp [url.escape]
  · rw [List.concat_eq_append, url.escape_append]
    have hne : url.escape [c] ≠ [] := fun h => by
      have := (url.escape_eq_nil [c]).1 h
      simp at this
    rw [List.getLast?_append_of_ne_nil _ hne, List.getLast?_append_of_ne_nil _ (by simp)]
    simp only [List.getLast?_singleton, Option.some.injEq]
    constructor
    · intro h
      by_contra hc
      have hmem := List.mem_of_getLast?_eq_some h
      exact url.escape_noslash [c] (by simpa using Ne.symm hc) hmem
    · intro h
      rw [h]
      rfl

theorem escape_hasSuffix (p : String) :
    strings.HasSuffix ⟨url.escape p.data⟩ "/" = strings.HasSuffix p "/" := by
  rw [Bool.eq_iff_iff]
  constructor
  · intro h
    have := data_getLast_of_suffix _ h
    simp only at this
    rw [escape_getLast] at this
    rw [strings.HasSuffix_iff]
    refine ⟨⟨p.data.dropLast⟩, String.ext ?_⟩
    rw [String.data_append]
    exact (List.dropLast_append_getLast? '/' (by simpa using this)).symm
  · exact escape_suffix_slash p

theorem cleanPath_escape (p : String) (hroot : strings.HasPrefix p "/" = true) :
    cleanPath ⟨url.escape p.data⟩ = ⟨url.escape (cleanPath p).data⟩ := by
  obtain ⟨qq, hqq⟩ := rooted_data p hroot
  have hne : p ≠ "" := by
    intro h
    rw [h] at hqq
    simp at hqq
  have hne' : (⟨url.escape p.data⟩ : String) ≠ "" := fun h => hne (escape_string_injective p "" h)
  have hhead : p.data.head? = some '/' := by rw [hqq]; rfl
  have hhead' : (url.escape p.data).head? = some '/' := by rw [hqq, url.escape_slash]; rfl
  unfold cleanPath
  simp only [hne, hne', if_false, hhead, hhead', ne_eq, not_true_eq_false]
  rw [splitSlash_escape, List.map_map]
  have hmap : (List.map (String.mk ∘ url.escape) (splitSlash p.data))
      = ((splitSlash p.data).map String.mk).map fun s => ⟨url.escape s.data⟩ := by
    rw [List.map_map]
    rfl
  rw [hmap]
  have hcs := cleanSegments_escape ((splitSlash p.data).map String.mk) []
  simp only [List.map_nil] at hcs
  rw [hcs, intercalate_escape, escape_hasSuffix]
  have hslash : ∀ x : String, ("/" : String) ++ ⟨url.escape x.data⟩ = ⟨url.escape ("/" ++ x).data⟩ := by
    intro x
    rw [escape_string_append]
    rfl
  have hslash2 : ∀ x : String, (⟨url.escape x.data⟩ : String) ++ "/" = ⟨url.escape (x ++ "/").data⟩ := by
    intro x
    rw [escape_string_append]
    rfl
  rw [hslash]
  have hiff : ((⟨url.escape ("/" ++ "/".intercalate
      (cleanSegments ((splitSlash p.data).map String.mk) [])).data⟩ : String) = "/") ↔
      ("/" ++ "/".intercalate (cleanSegments ((splitSlash p.data).map String.mk) []) = "/") :=
    ⟨fun h => escape_string_injective _ "/" (h.trans (by decide)), fun h => by rw [h]; decide⟩
  simp only [hiff]
  split_ifs
  · rw [hslash2]
  · rfl

theorem cleanPath_escape_of_clean (p : String) (hroot : strings.HasPrefix p "/" = true)
    (h : cleanPath p = p) : cleanPath ⟨url.escape p.data⟩ = ⟨url.escape p.data⟩ := by
  rw [cleanPath_escape p hroot, h]

end ServeMux

/-! ## Lemmas on registration and dispatch -/

theorem isReservedPath_iff (path : String) :
    isReservedPath path = true ↔ (path = "/forward" ∨ path = "/forward/") := by
  unfold isReservedPath
  rw [decide_eq_true_iff]
  constructor
  · intro h
    by_cases hs : strings.HasSuffix path "/" = true
    · obtain ⟨q, rfl⟩ := (strings.HasSuffix_iff _ _).1 hs
      rw [strings.TrimSuffix_append] at h
      right
      rw [h]
      rfl
    · have hs2 : strings.HasSuffix path "/" = false := by simpa using hs
      rw [strings.TrimSuffix_of_not _ _ hs2] at h
      exact Or.inl h
  · rintro (rfl | rfl) <;> decide

theorem registerRoutes.loop_spec (es : List Endpoint) (reg : Registration)
    (hlreg : ∀ x ∈ reg.mux.entries, ServeMux.literalPattern x.1 = true)
    (hlit : ∀ e ∈ es, isReservedPath e.Path = false →
      ServeMux.literalPattern (registeredPath e.Path) = true)
    (hdisj : ∀ e ∈ es, isReservedPath e.Path = false →
      ∀ x ∈ reg.mux.entries, x.1 ≠ registeredPath e.Path)
    (hnd : ((es.filter (fun e => !isReservedPath e.Path)).map
      (fun e => registeredPath e.Path)).Nodup) :
    registerRoutes.loop es reg = some
      { mux := { entries := (reg.mux.entries ++
          ((es.filter (fun e => !isReservedPath e.Path)).map
            (fun e => (registeredPath e.Path, RouteTarget.endpoint e)))) },
        registeredCount := reg.registeredCount +
          (es.filter (fun e => !isReservedPath e.Path)).length,
        skippedCount := reg.skippedCount +
          (es.filter (fun e => isReservedPath e.Path)).length } := by
  induction es generalizing reg with
  | nil =>
    obtain ⟨⟨entries⟩, rc, sc⟩ := reg
    simp [registerRoutes.loop]
  | cons e rest ih =>
    by_cases hr : strings.TrimSuffix e.Path "/" = "/forward"
    · have hres : isReservedPath e.Path = true := by simp [isReservedPath, hr]
      have hstep : registerRoutes.loop (e :: rest) reg
          = registerRoutes.loop rest { reg with skippedCount := reg.skippedCount + 1 } := by
        simp [registerRoutes.loop, hr]
      rw [hstep, ih]
      · simp [List.filter_cons, hres, Nat.add_assoc, Nat.add_comm 1]
      · exact hlreg
      · intro e2 he2 hres2
        exact hlit e2 (List.mem_cons_of_mem _ he2) hres2
      · intro e2 he2 hres2 x hx
        exact hdisj e2 (List.mem_cons_of_mem _ he2) hres2 x hx
      · simpa [List.filter_cons, hres] using hnd
    · have hres : isReservedPath e.Path = false := by simp [isReservedPath, hr]
      have hnd2 : (registeredPath e.Path ::
          (rest.filter (fun e => !isReservedPath e.Path)).map
            (fun e => registeredPath e.Path)).Nodup := by
        simpa [List.filter_cons, hres] using hnd
      have hhandle := ServeMux.Handle_literal reg.mux (registeredPath e.Path)
        (RouteTarget.endpoint e) (hlit e (List.mem_cons_self _ _) hres) hlreg
        (hdisj e (List.mem_cons_self _ _) hres)
      have hstep : registerRoutes.loop (e :: rest) reg
          = registerRoutes.loop rest
              { reg with
                mux := ⟨reg.mux.entries ++ [(registeredPath e.Path, RouteTarget.endpoint e)]⟩,
                registeredCount := reg.registeredCount + 1 } := by
        have hpath : (if (!strings.HasSuffix e.Path "/") = true then e.Path ++ "/" else e.Path)
            = registeredPath e.Path := rfl
        simp only [registerRoutes.loop, hr, if_false, hpath, hhandle]
      rw [hstep, ih]
      · simp [List.filter_cons, hres, Nat.add_assoc, Nat.add_comm 1]
      · intro x hx
        simp only [List.mem_append, List.mem_singleton] at hx
        rcases hx with hx | rfl
        · exact hlreg x hx
        · exact hlit e (List.mem_cons_self _ _) hres
      · intro e2 he2 hres2
        exact hlit e2 (List.mem_cons_of_mem _ he2) hres2
      · intro e2 he2 hres2 x hx
        simp only [List.mem_append, List.mem_singleton] at hx
        rcases hx with hx | rfl
        · exact hdisj e2 (List.mem_cons_of_mem _ he2) hres2 x hx
        · intro heq
          simp only at heq
          have hmem : registeredPath e2.Path ∈
              (rest.filter (fun e => !isReservedPath e.Path)).map
                (fun e => registeredPath e.Path) :=
            List.mem_map.2 ⟨e2, List.mem_filter.2 ⟨he2, by simp [hres2]⟩, rfl⟩
          rw [← heq] at hmem
          exact (List.nodup_cons.1 hnd2).1 hmem
      · exact (List.nodup_cons.1 hnd2).2

theorem registerRoutes_spec (config : Config)
    (hlit : ∀ e ∈ config.Endpoints, isReservedPath e.Path = false →
      ServeMux.literalPattern (registeredPath e.Path) = true)
    (hnd : ((config.Endpoints.filter (fun e => !isReservedPath e.Path)).map
      (fun e => registeredPath e.Path)).Nodup) :
    registerRoutes config = some
      { mux := { entries :=
          ((if config.Server.ForwardEndpointEnabled = some true
            then [("/forward", RouteTarget.forward)] else []) ++
          ((config.Endpoints.filter (fun e => !isReservedPath e.Path)).map
            (fun e => (registeredPath e.Path, RouteTarget.endpoint e)))) },
        registeredCount := (config.Endpoints.filter (fun e => !isReservedPath e.Path)).length,
        skippedCount := (config.Endpoints.filter (fun e => isReservedPath e.Path)).length } := by
  by_cases hf : config.Server.ForwardEndpointEnabled = some true
  · have h0 : (({} : ServeMux).Handle "/forward" RouteTarget.forward)
        = some { entries := [("/forward", RouteTarget.forward)] } := by decide
    unfold registerRoutes
    simp only [hf, if_true, h0]
    rw [registerRoutes.loop_spec _ _ _ hlit _ hnd]
    · simp
    · intro x hx
      simp only [List.mem_singleton] at hx
      rw [hx]
      decide
    · intro e _ _ x hx
      simp only [List.mem_singleton] at hx
      rw [hx]
      exact (registeredPath_ne_forward e.Path).symm
  · unfold registerRoutes
    simp only [hf, if_false]
    rw [registerRoutes.loop_spec _ _ _ hlit _ hnd]
    · simp
    · intro x hx
      simp at hx
    · intro e _ _ x hx
      simp at hx

theorem strings.prefix_eq_of_length (a b t u : String) (h : a ++ t = b ++ u)
    (hl : a.length = b.length) : a = b := by
  apply String.ext
  have h2 := congrArg String.data h
  simp only [String.data_append] at h2
  exact (List.append_inj h2 hl).1

/-- The routing table `registerRoutes` builds. -/
theorem routeEntries_literal (b : Prop) [Decidable b] (kept : List Endpoint)
    (hlit : ∀ e ∈ kept, ServeMux.literalPattern (registeredPath e.Path) = true) :
    ∀ x ∈ (if b then [(("/forward" : String), RouteTarget.forward)] else []) ++
      kept.map (fun e => (registeredPath e.Path, RouteTarget.endpoint e)),
      ServeMux.literalPattern x.1 = true := by
  intro x hx
  rcases List.mem_append.1 hx with hx | hx
  · split_ifs at hx
    · rw [List.mem_singleton.1 hx]
      decide
    · simp at hx
  · obtain ⟨e, he, rfl⟩ := List.mem_map.1 hx
    exact hlit e he

theorem routeEntries_nodup (b : Prop) [Decidable b] (kept : List Endpoint)
    (hnd : (kept.map (fun e => registeredPath e.Path)).Nodup) :
    (((if b then [(("/forward" : String), RouteTarget.forward)] else []) ++
      kept.map (fun e => (registeredPath e.Path, RouteTarget.endpoint e))).map Prod.fst).Nodup := by
  rw [List.map_append, List.nodup_append]
  refine ⟨?_, ?_, ?_⟩
  · split_ifs <;> simp
  · simpa [List.map_map, Function.comp] using hnd
  · intro x hx1 hx2
    split_ifs at hx1
    · simp only [List.map_cons, List.map_nil, List.mem_singleton] at hx1
      rw [List.map_map] at hx2
      obtain ⟨e, _, he⟩ := List.mem_map.1 hx2
      simp only [Function.comp] at he
      rw [hx1] at he
      exact registeredPath_ne_forward e.Path he
    · simp at hx1

theorem routeEntries_exact (b : Prop) [Decidable b] (kept : List Endpoint) (q : String) :
    ∀ y ∈ (if b then [(("/forward" : String), RouteTarget.forward)] else []) ++
      kept.map (fun e => (registeredPath e.Path, RouteTarget.endpoint e)),
      y.1 = TrailingSlash.normalize q → strings.HasSuffix y.1 "/" = true := by
  intro y hy hq
  rcases List.mem_append.1 hy with hy | hy
  · split_ifs at hy
    · rw [List.mem_singleton.1 hy] at hq
      exact absurd hq.symm (TrailingSlash.normalize_ne_forward q)
    · simp at hy
  · obtain ⟨e, _, rfl⟩ := List.mem_map.1 hy
    exact registeredPath_suffix e.Path

theorem dispatch_handler_literal (l : List (String × RouteTarget))
    (hl : ∀ x ∈ l, ServeMux.literalPattern x.1 = true) (r : Request) (t : RouteTarget)
    (hraw : r.URL.RawPath = "")
    (hroot : strings.HasPrefix (TrailingSlash.normalize r.URL.Path) "/" = true)
    (hexact : ∀ y ∈ l, y.1 = TrailingSlash.normalize r.URL.Path →
      strings.HasSuffix y.1 "/" = true)
    (h : dispatch ⟨l⟩ r = .handler t) :
    ∃ x ∈ l, x.2 = t ∧ strings.HasSuffix x.1 "/" = true ∧
      strings.HasPrefix (TrailingSlash.normalize r.URL.Path) x.1 = true ∧
      ∀ y ∈ l, strings.HasSuffix y.1 "/" = true →
        strings.HasPrefix (TrailingSlash.normalize r.URL.Path) y.1 = true →
        y.1.length ≤ x.1.length := by
  unfold dispatch ServeMux.serve at h
  split_ifs at h
  exact ServeMux.findHandler_handler l hl
    { r with URL := { r.URL with Path := TrailingSlash.normalize r.URL.Path } } t hraw hroot
    hexact h

theorem dispatch_of_match_literal (l : List (String × RouteTarget))
    (hl : ∀ x ∈ l, ServeMux.literalPattern x.1 = true) (r : Request)
    (hraw : r.URL.RawPath = "") (huri : r.RequestURI ≠ "*")
    (hroot : strings.HasPrefix (TrailingSlash.normalize r.URL.Path) "/" = true)
    (hclean : ServeMux.cleanPath (TrailingSlash.normalize r.URL.Path)
      = TrailingSlash.normalize r.URL.Path)
    (hno : strings.HasSuffix (TrailingSlash.normalize r.URL.Path) "/" = true ∨
      ∀ x ∈ l, x.1 ≠ TrailingSlash.normalize r.URL.Path ++ "/")
    (hexact : ∀ y ∈ l, y.1 = TrailingSlash.normalize r.URL.Path →
      strings.HasSuffix y.1 "/" = true)
    (hex : ∃ y ∈ l, strings.HasSuffix y.1 "/" = true ∧
      strings.HasPrefix (TrailingSlash.normalize r.URL.Path) y.1 = true) :
    ∃ x ∈ l, dispatch ⟨l⟩ r = .handler x.2 := by
  unfold dispatch ServeMux.serve
  rw [if_neg huri]
  exact ServeMux.findHandler_of_match l hl
    { r with URL := { r.URL with Path := TrailingSlash.normalize r.URL.Path } } hraw hroot
    (ServeMux.cleanPath_escape_of_clean _ hroot hclean) hno hexact hex

theorem dispatch_perm (l l' : List (String × RouteTarget)) (hp : l.Perm l')
    (hl : ∀ x ∈ l, ServeMux.literalPattern x.1 = true) (hnd : (l.map Prod.fst).Nodup)
    (r : Request) : dispatch ⟨l⟩ r = dispatch ⟨l'⟩ r := by
  unfold dispatch
  exact ServeMux.serve_perm l l' hp hl hnd _

theorem ServeHTTP_eq_dispatch (std : Stdlib) (config : Config) (mux : ServeMux) (r : Request)
    (w : ResponseWriter) :
    ServeHTTP std config mux r w =
      (match dispatch mux r with
        | .handler .forward => CORS config.CORS (ForwardHandler std config)
            { r with URL := { r.URL with Path := TrailingSlash.normalize r.URL.Path } } w
        | .handler (.endpoint e) => CORS config.CORS (ProxyHandler std e config)
            { r with URL := { r.URL with Path := TrailingSlash.normalize r.URL.Path } } w
        | .redirect location => std.redirect (std.urlString location)
            { r with URL := { r.URL with Path := TrailingSlash.normalize r.URL.Path } } w
        | .notFound => httpError w "404 page not found" 404
        | .methodNotAllowed allow =>
            httpError (w.SetHeader "Allow" (", ".intercalate allow)) "Method Not Allowed" 405
        | .badRequest =>
            (if r.ProtoMajor > 1 || (r.ProtoMajor = 1 && r.ProtoMinor ≥ 1) then
              w.SetHeader "Connection" "close" else w).WriteHeader 400) := by
  unfold ServeHTTP dispatch
  rw [TrailingSlash_eq_normalize]

theorem rooted_of_literal_prefix (np p : String) (hp : ServeMux.literalPattern p = true)
    (h : strings.HasPrefix np p = true) : strings.HasPrefix np "/" = true := by
  obtain ⟨pp, hpp, _, _⟩ := ServeMux.literalPattern_data p hp
  obtain ⟨t, ht⟩ := (strings.HasPrefix_iff _ _).1 h
  rw [strings.HasPrefix_iff]
  refine ⟨⟨pp⟩ ++ t, ?_⟩
  rw [ht]
  apply String.ext
  simp [hpp]

theorem ServeMux.cleanPath_rooted (p : String) :
    strings.HasPrefix (ServeMux.cleanPath p) "/" = true := by
  unfold ServeMux.cleanPath
  by_cases h0 : p = ""
  · rw [if_pos h0]
    decide
  · rw [if_neg h0]
    simp only []
    split_ifs
    · exact (strings.HasPrefix_iff _ _).2 ⟨_, String.append_assoc _ _ _⟩
    · exact (strings.HasPrefix_iff _ _).2 ⟨_, rfl⟩
    · exact (strings.HasPrefix_iff _ _).2 ⟨_, String.append_assoc _ _ _⟩
    · exact (strings.HasPrefix_iff _ _).2 ⟨_, rfl⟩

theorem ServeMux.rooted_of_escape (p : String)
    (h : strings.HasPrefix ⟨url.escape p.data⟩ "/" = true) : strings.HasPrefix p "/" = true := by
  obtain ⟨t, ht⟩ := (strings.HasPrefix_iff _ _).1 h
  have hd := congrArg String.data ht
  simp only [String.data_append] at hd
  cases hp : p.data with
  | nil =>
    rw [hp] at hd
    simp [url.escape, show ("/" : String).data = ['/'] from rfl] at hd
  | cons c cs =>
    rw [hp, url.escape] at hd
    have hc : c = '/' := by
      split_ifs at hd with hcond
      · simp only [List.singleton_append, show ("/" : String).data = ['/'] from rfl,
          List.cons.injEq] at hd
        exact hd.1
      · exfalso
        cases hb : url.utf8Bytes c with
        | nil => exact url.utf8Bytes_ne_nil c hb
        | cons b bs =>
          rw [hb] at hd
          simp [url.escapeBytes, show ("/" : String).data = ['/'] from rfl] at hd
    rw [strings.HasPrefix_iff]
    exact ⟨⟨cs⟩, String.ext (by rw [hp, hc]; rfl)⟩

theorem ServeMux.findHandler_rooted (mux : ServeMux) (r : Request) (t : RouteTarget)
    (hm : r.Method ≠ "CONNECT") (hraw : r.URL.RawPath = "") (hstar : r.URL.Path ≠ "*")
    (h : ServeMux.findHandler mux r = .handler t) : strings.HasPrefix r.URL.Path "/" = true := by
  have hE : r.URL.EscapedPath = ⟨url.escape r.URL.Path.data⟩ := by
    unfold URL.EscapedPath
    simp [hraw, hstar]
  unfold ServeMux.findHandler at h
  simp only [hE] at h
  rw [if_neg hm] at h
  rcases ServeMux.matchOrRedirect_cases mux (ServeMux.stripHostPort r.Host) r.Method
    (ServeMux.cleanPath ⟨url.escape r.URL.Path.data⟩) r.URL with h1 | ⟨v, h1⟩
  · rw [h1] at h
    simp only at h
    by_cases hc : ServeMux.cleanPath ⟨url.escape r.URL.Path.data⟩ = ⟨url.escape r.URL.Path.data⟩
    · apply ServeMux.rooted_of_escape
      rw [← hc]
      exact ServeMux.cleanPath_rooted _
    · rw [if_pos hc] at h
      exact absurd h (by simp)
  · rw [h1] at h
    exact absurd h (by simp)

theorem TrailingSlash.normalize_ne_star (q : String) : TrailingSlash.normalize q ≠ "*" := by
  unfold TrailingSlash.normalize
  split_ifs with hc
  · intro h
    have h1 : strings.HasSuffix (q ++ "/") "/" = true := (strings.HasSuffix_iff _ _).2 ⟨q, rfl⟩
    rw [h] at h1
    exact absurd h1 (by decide)
  · intro h
    subst h
    exact hc (by decide)

theorem dispatch_rooted (mux : ServeMux) (r : Request) (t : RouteTarget)
    (hm : r.Method ≠ "CONNECT") (hraw : r.URL.RawPath = "")
    (h : dispatch mux r = .handler t) :
    strings.HasPrefix (TrailingSlash.normalize r.URL.Path) "/" = true := by
  unfold dispatch ServeMux.serve at h
  split_ifs at h
  exact ServeMux.findHandler_rooted mux
    { r with URL := { r.URL with Path := TrailingSlash.normalize r.URL.Path } } t hm hraw
    (TrailingSlash.normalize_ne_star r.URL.Path) h

theorem requestURI_of_rooted (r : Request) (huri : r.RequestURI = "*" → r.URL.Path = "*")
    (hroot : strings.HasPrefix (TrailingSlash.normalize r.URL.Path) "/" = true) :
    r.RequestURI ≠ "*" := by
  intro h
  rw [huri h] at hroot
  exact absurd hroot (by decide)

/-! ## Claims on dispatch to a configured endpoint -/

/-- C18 (counterexample): the request path is a configured endpoint path, or
that path followed by a sub-path, and the request is not dispatched to the
endpoint.  An endpoint configured at `/v1.0` is registered under `/v1.0/`; the
request path `/v1.0` is left alone by the normaliser (its last segment holds a
dot), and the mux answers it with a redirect to `/v1.0/`.  With the endpoints
`/api` and `/api/v1` the request `/api/v1/users`, a sub-path of `/api`, goes to
`/api/v1`.  The request `/api//users` is redirected to the clean path.  The mux
reads a configured path as a pattern: `/u/{id}/x` holds a wildcard and takes
`/u/42/x/y` from the endpoint `/u`, `/a//b` takes `/a/x/b` from `/a`, a path
without leading slash names a host, so that the endpoint `api` is not found
under `/api`, and `%41` in a configured path stands for `A`, so that the
endpoint `/a%41` is not found under its own path.  A request
whose raw path holds an escaped slash is matched on the raw path.  An endpoint
configured at the reserved path `/forward` is skipped and not found, and a
request whose URI is `*` while its path is `/api` is answered 400 by the mux. -/
theorem dotted_endpoint_path_is_redirected :
    registerRoutes { Endpoints := [{ Path := "/v1.0", RemoteURL := "http://up.example" }] }
      = some { mux := { entries :=
                 [("/v1.0/", .endpoint { Path := "/v1.0", RemoteURL := "http://up.example" })] },
               registeredCount := 1 } ∧
    TrailingSlash.normalize "/v1.0" = "/v1.0" ∧
    dispatch { entries :=
        [("/v1.0/", .endpoint { Path := "/v1.0", RemoteURL := "http://up.example" })] }
      { URL := { Path := "/v1.0" } } = .redirect { Path := "/v1.0/" } ∧
    (∀ (std : Stdlib) (w : ResponseWriter),
      ServeHTTP std { Endpoints := [{ Path := "/v1.0", RemoteURL := "http://up.example" }] }
        { entries :=
          [("/v1.0/", .endpoint { Path := "/v1.0", RemoteURL := "http://up.example" })] }
        { URL := { Path := "/v1.0" } } w
      = std.redirect (std.urlString { Path := "/v1.0/" }) { URL := { Path := "/v1.0" } } w) ∧
    (registerRoutes { Endpoints := [{ Path := "/api", RemoteURL := "http://a.example" },
                                    { Path := "/api/v1", RemoteURL := "http://b.example" }] }).map
      (fun reg => dispatch reg.mux { URL := { Path := "/api/v1/users" } })
      = some (.handler (.endpoint { Path := "/api/v1", RemoteURL := "http://b.example" })) ∧
    (registerRoutes { Endpoints := [{ Path := "/api", RemoteURL := "http://a.example" }] }).map
      (fun reg => dispatch reg.mux { URL := { Path := "/api//users" } })
      = some (.redirect { Path := "/api/users/" }) ∧
    (registerRoutes { Endpoints := [{ Path := "/u", RemoteURL := "http://a.example" },
                                    { Path := "/u/{id}/x", RemoteURL := "http://b.example" }] }).map
      (fun reg => dispatch reg.mux { URL := { Path := "/u/42/x/y" } })
      = some (.handler (.endpoint { Path := "/u/{id}/x", RemoteURL := "http://b.example" })) ∧
    (registerRoutes { Endpoints := [{ Path := "/a", RemoteURL := "http://a.example" },
                                    { Path := "/a//b", RemoteURL := "http://b.example" }] }).map
      (fun reg => dispatch reg.mux { URL := { Path := "/a/x/b" } })
      = some (.handler (.endpoint { Path := "/a//b", RemoteURL := "http://b.example" })) ∧
    (registerRoutes { Endpoints := [{ Path := "api", RemoteURL := "http://a.example" }] }).map
      (fun reg => dispatch reg.mux { URL := { Path := "/api" } })
      = some .notFound ∧
    (registerRoutes { Endpoints := [{ Path := "/a%41", RemoteURL := "http://a.example" }] }).map
      (fun reg => dispatch reg.mux { URL := { Path := "/a%41" } })
      = some .notFound ∧
    (registerRoutes { Endpoints := [{ Path := "/a/b", RemoteURL := "http://a.example" }] }).map
      (fun reg => dispatch reg.mux { URL := { Path := "/a/b/", RawPath := "/a%2Fb/" } })
      = some .notFound ∧
    (registerRoutes { Endpoints := [{ Path := "/forward", RemoteURL := "http://a.example" }] }).map
      (fun reg => (reg.skippedCount, dispatch reg.mux { URL := { Path := "/forward" } }))
      = some (1, .notFound) ∧
    (registerRoutes { Endpoints := [{ Path := "/api", RemoteURL := "http://a.example" }] }).map
      (fun reg => dispatch reg.mux { URL := { Path := "/api" }, RequestURI := "*" })
      = some .badRequest := by
  refine ⟨by decide, by decide, by decide, fun std w => rfl, by decide, by decide, by decide,
    by decide, by decide, by decide, by decide, by decide, by decide⟩

/-- C18 (amended): in a configuration whose endpoint paths, with a trailing
slash ensured, are plain rooted paths (a leading `/`, no blank, `{` or `%`, no
empty segment) and pairwise distinct among the endpoints that are not reserved,
registration succeeds, and a request is dispatched to the proxy handler of the
endpoint `e`, on the normalised request and without any redirect, whenever its
path after trailing-slash normalisation is a clean path that begins with the
registered path of `e`, no configured endpoint has a longer registered path
the normalised path begins with, and the normalised path either ends in `/` or
is no registered path short of its trailing slash; the request carries no raw
path and its URI is `*` only if its path is.  That is the case for the six
request/endpoint
pairs of the test suite (`/api` or `/api/` configured; `/api`, `/api/`,
`/api/users` requested). -/
theorem configured_endpoint_dispatch (server : ServerConfig) (cors : CORSConfig)
    (es : List Endpoint) (e : Endpoint) (r : Request)
    (hlit : ∀ e2 ∈ es, ServeMux.literalPattern (registeredPath e2.Path) = true)
    (hnd : ((es.filter (fun e2 => !isReservedPath e2.Path)).map
      (fun e2 => registeredPath e2.Path)).Nodup)
    (he : e ∈ es) (hres : strings.TrimSuffix e.Path "/" ≠ "/forward")
    (hraw : r.URL.RawPath = "") (huri : r.RequestURI = "*" → r.URL.Path = "*")
    (hpre : strings.HasPrefix (TrailingSlash.normalize r.URL.Path) (registeredPath e.Path) = true)
    (hclean : ServeMux.cleanPath (TrailingSlash.normalize r.URL.Path)
      = TrailingSlash.normalize r.URL.Path)
    (hlong : ∀ e2 ∈ es, strings.TrimSuffix e2.Path "/" ≠ "/forward" →
      strings.HasPrefix (TrailingSlash.normalize r.URL.Path) (registeredPath e2.Path) = true →
      (registeredPath e2.Path).length ≤ (registeredPath e.Path).length)
    (hno : strings.HasSuffix (TrailingSlash.normalize r.URL.Path) "/" = true ∨
      ∀ e2 ∈ es, registeredPath e2.Path ≠ TrailingSlash.normalize r.URL.Path ++ "/") :
    (∃ reg, registerRoutes { Server := server, CORS := cors, Endpoints := es } = some reg ∧
      dispatch reg.mux r = .handler (.endpoint e) ∧
      ∀ (std : Stdlib) (w : ResponseWriter),
        ServeHTTP std { Server := server, CORS := cors, Endpoints := es } reg.mux r w
          = CORS cors (ProxyHandler std e { Server := server, CORS := cors, Endpoints := es })
              { r with URL := { r.URL with Path := TrailingSlash.normalize r.URL.Path } } w) ∧
    (∀ p ∈ ["/api", "/api/"], ∀ q ∈ ["/api", "/api/", "/api/users"],
      (registerRoutes { Endpoints := [{ Path := p, RemoteURL := "http://up.example" }] }).map
        (fun reg => dispatch reg.mux { URL := { Path := q } })
        = some (.handler (.endpoint { Path := p, RemoteURL := "http://up.example" }))) := by
  refine ⟨?_, by decide⟩
  have hkept : ∀ e2 ∈ es.filter (fun e2 => !isReservedPath e2.Path),
      ServeMux.literalPattern (registeredPath e2.Path) = true :=
    fun e2 h2 => hlit e2 (List.mem_filter.1 h2).1
  have hreg := registerRoutes_spec { Server := server, CORS := cors, Endpoints := es }
    (fun e2 h2 _ => hlit e2 h2) hnd
  have hl := routeEntries_literal (server.ForwardEndpointEnabled = some true) _ hkept
  have hexact := routeEntries_exact (server.ForwardEndpointEnabled = some true)
    (es.filter (fun e2 => !isReservedPath e2.Path)) r.URL.Path
  have hroot := rooted_of_literal_prefix _ _ (hlit e he) hpre
  have hek : e ∈ es.filter (fun e2 => !isReservedPath e2.Path) :=
    List.mem_filter.2 ⟨he, by simp [isReservedPath, hres]⟩
  have hmem : (registeredPath e.Path, RouteTarget.endpoint e) ∈
      (if server.ForwardEndpointEnabled = some true
        then [(("/forward" : String), RouteTarget.forward)] else []) ++
      (es.filter (fun e2 => !isReservedPath e2.Path)).map
        (fun e2 => (registeredPath e2.Path, RouteTarget.endpoint e2)) :=
    List.mem_append_right _ (List.mem_map.2 ⟨e, hek, rfl⟩)
  obtain ⟨x, _, hx⟩ := dispatch_of_match_literal _ hl r hraw
    (requestURI_of_rooted r huri hroot) hroot hclean
    (by
      rcases hno with h | h
      · exact Or.inl h
      · right
        intro y hy
        rcases List.mem_append.1 hy with hy | hy
        · split_ifs at hy
          · rw [List.mem_singleton.1 hy]
            intro h0
            have h1 : strings.HasSuffix (TrailingSlash.normalize r.URL.Path ++ "/") "/" = true :=
              (strings.HasSuffix_iff _ _).2 ⟨_, rfl⟩
            rw [← h0, forward_no_slash] at h1
            exact absurd h1 (by simp)
          · simp at hy
        · obtain ⟨e2, he2, rfl⟩ := List.mem_map.1 hy
          exact h e2 (List.mem_filter.1 he2).1)
    hexact ⟨_, hmem, registeredPath_suffix e.Path, hpre⟩
  obtain ⟨y, hy, hyt, hys, hyp, hmax⟩ := dispatch_handler_literal _ hl r x.2 hraw hroot hexact hx
  have hye : y = (registeredPath e.Path, RouteTarget.endpoint e) := by
    rcases List.mem_append.1 hy with hy1 | hy2
    · exfalso
      split_ifs at hy1
      · rw [List.mem_singleton.1 hy1, forward_no_slash] at hys
        exact absurd hys (by simp)
      · simp at hy1
    · obtain ⟨e2, he2, rfl⟩ := List.mem_map.1 hy2
      have he2' := List.mem_filter.1 he2
      have hres2 : strings.TrimSuffix e2.Path "/" ≠ "/forward" := by
        have := he2'.2
        simpa [isReservedPath] using this
      have h1 := hlong e2 he2'.1 hres2 hyp
      have h2 := hmax _ hmem (registeredPath_suffix e.Path) hpre
      obtain ⟨u, hu⟩ := (strings.HasPrefix_iff _ _).1 hpre
      obtain ⟨u2, hu2⟩ := (strings.HasPrefix_iff _ _).1 hyp
      have hkey : registeredPath e2.Path = registeredPath e.Path :=
        strings.prefix_eq_of_length _ _ u2 u (hu2.symm.trans hu) (le_antisymm h1 h2)
      have : e2 = e := List.inj_on_of_nodup_map hnd he2 hek hkey
      rw [this]
  have hd : dispatch
      { entries := (if server.ForwardEndpointEnabled = some true
          then [(("/forward" : String), RouteTarget.forward)] else []) ++
        (es.filter (fun e2 => !isReservedPath e2.Path)).map
          (fun e2 => (registeredPath e2.Path, RouteTarget.endpoint e2)) } r
      = .handler (.endpoint e) := by
    rw [hx, ← hyt, hye]
  refine ⟨_, hreg, hd, ?_⟩
  intro std w
  rw [ServeHTTP_eq_dispatch, hd]

/-- Witness for C18: endpoints `/api` and `/api/v1`, forward endpoint enabled;
the request `/api/v1/users` goes to the endpoint `/api/v1`. -/
theorem configured_endpoint_dispatch_witness :
    ∃ reg, registerRoutes { Server := { ForwardEndpointEnabled := some true },
                            Endpoints := [{ Path := "/api", RemoteURL := "http://a.example" },
                                          { Path := "/api/v1", RemoteURL := "http://b.example" }] }
        = some reg ∧
      dispatch reg.mux { URL := { Path := "/api/v1/users" } }
        = .handler (.endpoint { Path := "/api/v1", RemoteURL := "http://b.example" }) ∧
      ∀ (std : Stdlib) (w : ResponseWriter),
        ServeHTTP std { Server := { ForwardEndpointEnabled := some true },
                        Endpoints := [{ Path := "/api", RemoteURL := "http://a.example" },
                                      { Path := "/api/v1", RemoteURL := "http://b.example" }] }
          reg.mux { URL := { Path := "/api/v1/users" } } w
          = CORS {} (ProxyHandler std { Path := "/api/v1", RemoteURL := "http://b.example" }
              { Server := { ForwardEndpointEnabled := some true },
                Endpoints := [{ Path := "/api", RemoteURL := "http://a.example" },
                              { Path := "/api/v1", RemoteURL := "http://b.example" }] })
              { URL := { Path := "/api/v1/users/" } } w :=
  (configured_endpoint_dispatch { ForwardEndpointEnabled := some true } {}
    [{ Path := "/api", RemoteURL := "http://a.example" },
     { Path := "/api/v1", RemoteURL := "http://b.example" }]
    { Path := "/api/v1", RemoteURL := "http://b.example" } { URL := { Path := "/api/v1/users" } }
    (by decide) (by decide) (by decide) (by decide) rfl (by decide) (by decide) (by decide)
    (by decide) (Or.inl (by decide))).1

/-! ## Claims on CORS validation and on the policy headers -/

/-- C26: `validateCORSConfig` reports an error exactly when the origins list
contains `*` and either credentials are enabled or the list has more than one
entry; an empty origins list with credentials enabled is accepted; and when
`*` is present with credentials enabled (whatever the length of the list) the
error is the credentials one, the other error being reported only without
credentials. -/
theorem validateCORSConfig_iff (c : CORSConfig) :
    ((validateCORSConfig c).isSome = true ↔
      ("*" ∈ c.Origins ∧ (c.Credentials = true ∨ 1 < c.Origins.length))) ∧
    (validateCORSConfig c = none ↔
      ¬ ("*" ∈ c.Origins ∧ (c.Credentials = true ∨ 1 < c.Origins.length))) ∧
    validateCORSConfig { Origins := [], Credentials := true } = none ∧
    ("*" ∈ c.Origins → c.Credentials = true →
      validateCORSConfig c = some .wildcardWithCredentials) ∧
    ("*" ∈ c.Origins → c.Credentials = false → 1 < c.Origins.length →
      validateCORSConfig c = some .wildcardNotAlone) := by
  have hw : c.WildcardOriginAllowed = true ↔ "*" ∈ c.Origins := by
    simp [CORSConfig.WildcardOriginAllowed]
  by_cases h1 : "*" ∈ c.Origins <;> by_cases h2 : c.Credentials = true <;>
    by_cases h3 : 1 < c.Origins.length <;>
    simp_all [validateCORSConfig, CORSConfig.WildcardOriginAllowed]

theorem strings.star_no_dot_suffix (x : String) : strings.HasSuffix "*" ("." ++ x) = false := by
  rw [Bool.eq_false_iff]
  intro h
  obtain ⟨p, hp⟩ := (strings.HasSuffix_iff _ _).1 h
  have hd := congrArg String.data hp
  have h1 : ("*" : String).data = ['*'] := rfl
  have h2 : (".": String).data = ['.'] := rfl
  simp only [String.data_append, h1, h2] at hd
  cases hpd : p.data with
  | nil =>
    rw [hpd] at hd
    simp at hd
  | cons a t =>
    rw [hpd] at hd
    simp at hd

theorem isOriginAllowed_star (origins : List String) (h : "*" ∉ origins) :
    isOriginAllowed "*" origins = false := by
  have hl : isOriginAllowed.loop "*" origins = false := by
    induction origins with
    | nil => rfl
    | cons a rest ih =>
      have ha : a ≠ "*" := fun ha => h (ha ▸ List.mem_cons_self _ _)
      have hr : "*" ∉ rest := fun hr => h (List.mem_cons_of_mem _ hr)
      simp [isOriginAllowed.loop, ha, strings.star_no_dot_suffix, ih hr]
  simp [isOriginAllowed, hl]

/-- C28: under a policy that `validateCORSConfig` accepts and that enables
credentials, the `Access-Control-Allow-Origin` value the middleware chooses for
a request with any `Origin` (the literal `*` included) is either absent or the
request's `Origin`, and never `*`; on a writer without that header the emitted
header is accordingly absent or the single value `Origin`, never `*`. -/
theorem CORS_validated_credentials_never_star (c : CORSConfig)
    (hv : validateCORSConfig c = none) (hc : c.Credentials = true) (r : Request)
    (w : ResponseWriter) (hw : w.header.Values "Access-Control-Allow-Origin" = []) :
    (CORS.allowedOrigin c (r.Header.Get "Origin") = "" ∨
      CORS.allowedOrigin c (r.Header.Get "Origin") = r.Header.Get "Origin") ∧
    CORS.allowedOrigin c (r.Header.Get "Origin") ≠ "*" ∧
    ((CORS.emit c r w).header.Values "Access-Control-Allow-Origin" = [] ∨
      (CORS.emit c r w).header.Values "Access-Control-Allow-Origin" = [r.Header.Get "Origin"]) ∧
    (CORS.emit c r w).header.Values "Access-Control-Allow-Origin" ≠ ["*"] ∧
    (CORS.emit c r w).header.Get "Access-Control-Allow-Origin" ≠ "*" := by
  have hstar : "*" ∉ c.Origins := by
    intro hmem
    have := (validateCORSConfig_iff c).2.2.2.1 hmem hc
    rw [hv] at this
    exact absurd this (by simp)
  have hcases := CORS.allowedOrigin_credentials c hc (r.Header.Get "Origin")
  have hne : CORS.allowedOrigin c (r.Header.Get "Origin") ≠ "*" := by
    intro heq
    rcases hcases with h | ⟨h1, h2⟩
    · rw [h] at heq
      exact absurd heq (by decide)
    · rw [h1] at heq
      rw [heq, isOriginAllowed_star _ hstar] at h2
      exact absurd h2 (by simp)
  have hval := CORS.emit_Values_origin c r w
  refine ⟨hcases.imp id (fun h => h.1), hne, ?_, ?_, ?_⟩
  · rcases hcases with h | ⟨h1, -⟩
    · left
      rw [hval, h]
      simpa using hw
    · by_cases he : CORS.allowedOrigin c (r.Header.Get "Origin") = ""
      · left
        rw [hval, he]
        simpa using hw
      · right
        rw [hval, if_pos he, h1]
  · rw [hval]
    split_ifs with he
    · intro h
      exact hne (by simpa using h)
    · rw [hw]
      simp
  · simp only [Header.Get]
    rw [hval]
    split_ifs with he
    · simpa using hne
    · rw [hw]
      decide

/-- Witness for C28: a validated credentials policy and a request with `Origin: *`. -/
theorem CORS_validated_credentials_never_star_witness :
    CORS.allowedOrigin { Origins := ["https://example.com", "*.example.com"], Credentials := true }
        (Header.Get [("Origin", ["*"])] "Origin") ≠ "*" :=
  (CORS_validated_credentials_never_star
    { Origins := ["https://example.com", "*.example.com"], Credentials := true } (by decide) rfl
    { Header := [("Origin", ["*"])] } {} rfl).2.1

theorem CORS.emit_Values_policy (c : CORSConfig) (r : Request) (w : ResponseWriter) :
    (CORS.emit c r w).header.Values "Access-Control-Allow-Methods" =
      (if c.Methods ≠ "" then [c.Methods]
        else w.header.Values "Access-Control-Allow-Methods") ∧
    (CORS.emit c r w).header.Values "Access-Control-Allow-Headers" =
      (if c.Headers ≠ "" then [c.Headers]
        else w.header.Values "Access-Control-Allow-Headers") ∧
    (CORS.emit c r w).header.Values "Access-Control-Allow-Credentials" =
      (if c.Credentials = true then ["true"]
        else w.header.Values "Access-Control-Allow-Credentials") := by
  unfold CORS.emit
  simp only [ResponseWriter.SetHeader]
  refine ⟨?_, ?_, ?_⟩ <;> split_ifs <;>
    simp_all [Header.Values_Set_same, Header.Values_Set_ne]

theorem CORS_step_Get_key (corsConfig : CORSConfig) (std : Stdlib) (plan : Request → Step)
    (r : Request) (w : ResponseWriter) (k v : String) (hk : k ∉ httpErrorKeys)
    (hk2 : k ≠ "Access-Control-Max-Age")
    (hv : (CORS.emit corsConfig r w).header.Values k = [v]) :
    (CORS corsConfig (fun r w => (plan r).run std w) r w).header.Get k = v := by
  by_cases hm : r.Method = "OPTIONS"
  · rw [CORS_options_eq _ _ _ _ hm, ResponseWriter.WriteHeader_header]
    simp only [ResponseWriter.SetHeader, Header.Get]
    rw [Header.Values_Set_ne _ _ _ _ hk2, hv]
  · rw [CORS_other_eq _ _ _ _ hm]
    exact Step.run_Get std _ _ _ v hk hv

theorem Header.Values_foldl_copy_append (src acc : Header) (k : String)
    (hnd : (src.map Prod.fst).Nodup)
    (hcanon : ∀ e ∈ src, textproto.CanonicalMIMEHeaderKey e.1 = e.1) :
    Header.Values (src.foldl (fun (h : Header) kv =>
        kv.2.foldl (fun (h : Header) value =>
          h.Add (textproto.CanonicalMIMEHeaderKey kv.1) value) h) acc) k
      = acc.Values k ++ src.Values k := by
  induction src generalizing acc with
  | nil => simp [Header.Values]
  | cons e rest ih =>
    obtain ⟨a, vs⟩ := e
    simp only [List.map_cons, List.nodup_cons] at hnd
    have hca : textproto.CanonicalMIMEHeaderKey a = a := hcanon (a, vs) (List.mem_cons_self _ _)
    rw [List.foldl_cons]
    simp only [hca]
    rw [ih _ hnd.2 (fun e he => hcanon e (List.mem_cons_of_mem _ he)),
      Header.Values_foldl_Add_eq]
    by_cases hk : k = a
    · subst hk
      have hcons : Header.Values ((k, vs) :: rest) k = vs := by
        simp [Header.Values, List.lookup_cons]
      rw [if_pos rfl, hcons, Header.Values_of_not_mem rest k hnd.1]
      simp
    · have h1 : (k == a) = false := by simpa using hk
      have hcons : Header.Values ((a, vs) :: rest) k = Header.Values rest k := by
        simp [Header.Values, List.lookup_cons, h1]
      rw [if_neg hk, hcons]

theorem CORS_plan_Values (c : CORSConfig) (std : Stdlib) (plan : Request → Step) (r : Request)
    (k : String) (hk : k ∉ httpErrorKeys) (hk2 : k ≠ "Access-Control-Max-Age") :
    (r.Method = "OPTIONS" → ∀ next : Handler,
      (CORS c next r {}).header.Values k = (CORS.emit c r {}).header.Values k) ∧
    (r.Method ≠ "OPTIONS" →
      (∀ msg code, plan r = .fail msg code →
        (CORS c (fun r w => (plan r).run std w) r {}).header.Values k
          = (CORS.emit c r {}).header.Values k) ∧
      (∀ proxyReq timeout, plan r = .execute proxyReq timeout →
        (std.clientDo proxyReq timeout = none →
          (CORS c (fun r w => (plan r).run std w) r {}).header.Values k
            = (CORS.emit c r {}).header.Values k) ∧
        (∀ resp, std.clientDo proxyReq timeout = some resp →
          (resp.Header.map Prod.fst).Nodup →
          (∀ e ∈ resp.Header, textproto.CanonicalMIMEHeaderKey e.1 = e.1) →
          (CORS c (fun r w => (plan r).run std w) r {}).header.Values k
            = (CORS.emit c r {}).header.Values k ++ resp.Header.Values k))) := by
  refine ⟨fun hm next => ?_, fun hm => ⟨fun msg code hp => ?_, fun proxyReq timeout hp =>
    ⟨fun hd => ?_, fun resp hd hnd hcanon => ?_⟩⟩⟩
  · rw [CORS_options_eq _ _ _ _ hm, ResponseWriter.WriteHeader_header]
    simp only [ResponseWriter.SetHeader]
    exact Header.Values_Set_ne _ _ _ _ hk2
  · rw [CORS_other_eq _ _ _ _ hm]
    simp only [hp, Step.run]
    exact httpError_Values _ _ _ _ hk
  · rw [CORS_other_eq _ _ _ _ hm]
    simp only [hp, Step.run, executeProxyRequest, hd]
    exact httpError_Values _ _ _ _ hk
  · rw [CORS_other_eq _ _ _ _ hm]
    simp only [hp, Step.run, executeProxyRequest, hd]
    rw [ResponseWriter.Write_header, ResponseWriter.WriteHeader_header]
    exact Header.Values_foldl_copy_append resp.Header _ k hnd hcanon

/-- C27 (counterexample): under a CORS policy with no field configured, an
upstream response that carries `Access-Control-Allow-Methods: GET, POST`
reaches the client with that header, although the policy's methods are empty
(the case `no CORS config - should pass through all headers` of the test suite). -/
theorem CORS_unconfigured_header_from_upstream :
    ({} : CORSConfig).Methods = "" ∧
    (CORS {}
      (ProxyHandler
        (sampleUpstream { StatusCode := 200,
                          Header := [("Access-Control-Allow-Methods", ["GET, POST"])],
                          Body := "ok" })
        { Path := "/test", RemoteURL := "http://up.example" }
        { Server := { DefaultTimeout := "10s" } })
      { URL := { Path := "/test" } } {}).header.Values "Access-Control-Allow-Methods"
      = ["GET, POST"] := by
  refine ⟨rfl, by rfl⟩

/-- C27 (amended): whatever the request (method, origin), the CORS middleware
sets `Access-Control-Allow-Methods` to the policy's methods exactly when
methods is non-empty, `Access-Control-Allow-Headers` to the policy's headers
exactly when headers is non-empty and `Access-Control-Allow-Credentials: true`
exactly when credentials is enabled, the same for any two requests.  A
preflight response, an answer the downstream handler gives itself and the
answer to a transport failure carry each of these headers with exactly the
policy's value when its field is configured and not at all otherwise.  On a
proxied response a configured header has the policy's value as its first value,
and under a policy with no field configured the upstream's own values of these
headers are passed through. -/
theorem CORS_policy_headers (c : CORSConfig) (r : Request) (std : Stdlib)
    (plan : Request → Step) :
    ∀ x ∈ [("Access-Control-Allow-Methods", c.Methods),
           ("Access-Control-Allow-Headers", c.Headers),
           ("Access-Control-Allow-Credentials", if c.Credentials = true then "true" else "")],
      (CORS.emit c r {}).header.Values x.1 = (if x.2 ≠ "" then [x.2] else []) ∧
      (∀ r2 : Request,
        (CORS.emit c r2 {}).header.Values x.1 = (CORS.emit c r {}).header.Values x.1) ∧
      (r.Method = "OPTIONS" → ∀ next : Handler,
        (CORS c next r {}).header.Values x.1 = (if x.2 ≠ "" then [x.2] else [])) ∧
      (r.Method ≠ "OPTIONS" →
        (∀ msg code, plan r = .fail msg code →
          (CORS c (fun r w => (plan r).run std w) r {}).header.Values x.1
            = (if x.2 ≠ "" then [x.2] else [])) ∧
        (∀ proxyReq timeout, plan r = .execute proxyReq timeout →
          (std.clientDo proxyReq timeout = none →
            (CORS c (fun r w => (plan r).run std w) r {}).header.Values x.1
              = (if x.2 ≠ "" then [x.2] else [])) ∧
          (x.2 ≠ "" →
            (CORS c (fun r w => (plan r).run std w) r {}).header.Get x.1 = x.2) ∧
          (∀ resp, std.clientDo proxyReq timeout = some resp →
            (resp.Header.map Prod.fst).Nodup →
            (∀ e ∈ resp.Header, textproto.CanonicalMIMEHeaderKey e.1 = e.1) →
            c.Origins = [] → c.Methods = "" → c.Headers = "" → c.Credentials = false →
            (CORS c (fun r w => (plan r).run std w) r {}).header.Values x.1
              = resp.Header.Values x.1))) := by
  have hemit : ∀ (r : Request), ∀ x ∈ [("Access-Control-Allow-Methods", c.Methods),
      ("Access-Control-Allow-Headers", c.Headers),
      ("Access-Control-Allow-Credentials", if c.Credentials = true then "true" else "")],
      (CORS.emit c r {}).header.Values x.1 = (if x.2 ≠ "" then [x.2] else []) ∧
      x.1 ∉ httpErrorKeys ∧ x.1 ≠ "Access-Control-Max-Age" := by
    intro r x hx
    obtain ⟨h1, h2, h3⟩ := CORS.emit_Values_policy c r {}
    simp only [List.mem_cons, List.mem_singleton, List.mem_nil_iff, or_false] at hx
    rcases hx with rfl | rfl | rfl
    · exact ⟨by rw [h1]; rfl,
        by show "Access-Control-Allow-Methods" ∉ httpErrorKeys; decide,
        by show "Access-Control-Allow-Methods" ≠ "Access-Control-Max-Age"; decide⟩
    · exact ⟨by rw [h2]; rfl,
        by show "Access-Control-Allow-Headers" ∉ httpErrorKeys; decide,
        by show "Access-Control-Allow-Headers" ≠ "Access-Control-Max-Age"; decide⟩
    · refine ⟨?_,
        by show "Access-Control-Allow-Credentials" ∉ httpErrorKeys; decide,
        by show "Access-Control-Allow-Credentials" ≠ "Access-Control-Max-Age"; decide⟩
      rw [h3]
      by_cases hc : c.Credentials = true
      · simp [hc]
      · simp [hc]
        rfl
  intro x hx
  obtain ⟨he, hk, hk2⟩ := hemit r x hx
  obtain ⟨hpre, hother⟩ := CORS_plan_Values c std plan r x.1 hk hk2
  refine ⟨he, fun r2 => ?_, fun hm next => ?_, fun hm => ⟨fun msg code hp => ?_,
    fun proxyReq timeout hp => ⟨fun hd => ?_, fun hx2 => ?_,
      fun resp hd hnd hcanon ho hme hh hcr => ?_⟩⟩⟩
  · rw [(hemit r2 x hx).1, he]
  · rw [hpre hm next, he]
  · rw [(hother hm).1 msg code hp, he]
  · rw [((hother hm).2 proxyReq timeout hp).1 hd, he]
  · exact CORS_step_Get_key c std plan r {} _ _ hk hk2 (by rw [he, if_pos hx2])
  · rw [((hother hm).2 proxyReq timeout hp).2 resp hd hnd hcanon, he]
    have hx0 : x.2 = "" := by
      simp only [List.mem_cons, List.mem_singleton, List.mem_nil_iff, or_false] at hx
      rcases hx with rfl | rfl | rfl
      · exact hme
      · exact hh
      · simp [hcr]
    simp [hx0]

/-- Witness for C27: with methods `GET` configured and an upstream that sends
`Access-Control-Allow-Methods: POST`, the response's first value is `GET`. -/
theorem CORS_policy_headers_witness :
    (CORS { Methods := "GET" }
      (fun r w => (ProxyHandler.plan
        (sampleUpstream { Header := [("Access-Control-Allow-Methods", ["POST"])] })
        { Path := "/test", RemoteURL := "http://up.example" } {} r).run
        (sampleUpstream { Header := [("Access-Control-Allow-Methods", ["POST"])] }) w)
      { URL := { Path := "/test" } } {}).header.Get "Access-Control-Allow-Methods" = "GET" :=
  ((((CORS_policy_headers { Methods := "GET" } { URL := { Path := "/test" } }
    (sampleUpstream { Header := [("Access-Control-Allow-Methods", ["POST"])] })
    (ProxyHandler.plan (sampleUpstream { Header := [("Access-Control-Allow-Methods", ["POST"])] })
      { Path := "/test", RemoteURL := "http://up.example" } {})
    ("Access-Control-Allow-Methods", "GET") (by simp)).2.2.2 (by decide)).2 _ _ rfl).2.1
    (by decide))

/-! ## Claims on the proxy executor's success path -/

/-- C21: when the upstream answers, the caller's response holds, for every
header key, the values it held before execution followed by the upstream's
values for that key in their order (nothing is filtered, dropped, replaced or
overwritten); its status is the upstream status and its body the upstream body.
The upstream header map has pairwise distinct keys in canonical form, as
`net/http` delivers it, and nothing was written to the caller before. -/
theorem executeProxyRequest_success (std : Stdlib) (proxyReq : OutboundRequest)
    (w : ResponseWriter) (timeout : Int) (resp : UpstreamResponse)
    (hd : std.clientDo proxyReq timeout = some resp) (hs : w.status = none)
    (hnd : (resp.Header.map Prod.fst).Nodup)
    (hcanon : ∀ e ∈ resp.Header, textproto.CanonicalMIMEHeaderKey e.1 = e.1) :
    (∀ k, (executeProxyRequest std proxyReq w timeout).header.Values k
      = w.header.Values k ++ resp.Header.Values k) ∧
    (executeProxyRequest std proxyReq w timeout).status = some resp.StatusCode ∧
    (executeProxyRequest std proxyReq w timeout).body = w.body ++ resp.Body := by
  unfold executeProxyRequest
  simp only [hd]
  refine ⟨fun k => ?_, ?_, ?_⟩
  · rw [ResponseWriter.Write_header, ResponseWriter.WriteHeader_header]
    exact Header.Values_foldl_copy_append resp.Header w.header k hnd hcanon
  · simp [ResponseWriter.Write, ResponseWriter.WriteHeader, hs]
  · simp [ResponseWriter.Write, ResponseWriter.WriteHeader, hs]

/-- Witness for C21: an upstream `Access-Control-Allow-Origin` is appended
after the value the CORS middleware had set. -/
theorem executeProxyRequest_success_witness :
    (executeProxyRequest
      (sampleUpstream { StatusCode := 201,
                        Header := [("Access-Control-Allow-Origin", ["*"])], Body := "ok" })
      {} { header := [("Access-Control-Allow-Origin", ["https://a.example"])] }
      DEFAULT_TIMEOUT).header.Values "Access-Control-Allow-Origin"
      = ["https://a.example", "*"] :=
  ((executeProxyRequest_success
    (sampleUpstream { StatusCode := 201,
                      Header := [("Access-Control-Allow-Origin", ["*"])], Body := "ok" })
    {} { header := [("Access-Control-Allow-Origin", ["https://a.example"])] } DEFAULT_TIMEOUT
    { StatusCode := 201, Header := [("Access-Control-Allow-Origin", ["*"])], Body := "ok" }
    rfl rfl (by decide) (by decide)).1 "Access-Control-Allow-Origin").trans (by decide)

/-- C22 (evaluation at the failing input): with CORS origins configured, an
upstream response carrying `Access-Control-Allow-Origin: *` and
`Access-Control-Allow-Methods` is passed on by `ProxyHandler` with both headers
intact; nothing is filtered. -/
theorem ProxyHandler_passes_upstream_CORS_headers :
    (ProxyHandler
      (sampleUpstream { StatusCode := 200,
                        Header := [("Access-Control-Allow-Origin", ["*"]),
                                   ("Access-Control-Allow-Methods", ["GET, POST"]),
                                   ("Content-Type", ["application/json"])],
                        Body := "ok" })
      { Path := "/test", RemoteURL := "http://up.example" }
      { Server := { DefaultTimeout := "10s" }, CORS := { Origins := ["http://localhost:3000"] } }
      { URL := { Path := "/test" } } {})
    = { status := some 200, body := "ok",
        header := [("Content-Type", ["application/json"]),
                   ("Access-Control-Allow-Methods", ["GET, POST"]),
                   ("Access-Control-Allow-Origin", ["*"])] } ∧
    Header.Get [("Content-Type", ["application/json"]),
                ("Access-Control-Allow-Methods", ["GET, POST"]),
                ("Access-Control-Allow-Origin", ["*"])] "Access-Control-Allow-Origin" = "*" := by
  refine ⟨by rfl, by decide⟩

/-- C25 (evaluation at the failing input): a configuration with the endpoints
`/api` and `/api/` passes `validateConfig`, both endpoints are to be registered
under `/api/`, and the second `mux.Handle` call panics: no handler is returned. -/
theorem colliding_endpoints_panic :
    validateConfig sampleStdlib
      { Server := { DefaultTimeout := "10s" },
        Endpoints := [{ Path := "/api", RemoteURL := "http://up.example" },
                      { Path := "/api/", RemoteURL := "http://up.example" }] } = none ∧
    registeredPath "/api" = registeredPath "/api/" ∧
    registerRoutes
      { Server := { DefaultTimeout := "10s" },
        Endpoints := [{ Path := "/api", RemoteURL := "http://up.example" },
                      { Path := "/api/", RemoteURL := "http://up.example" }] } = none ∧
    NewDynamicRoutingHandler
      { Server := { DefaultTimeout := "10s" },
        Endpoints := [{ Path := "/api", RemoteURL := "http://up.example" },
                      { Path := "/api/", RemoteURL := "http://up.example" }] } = none := by
  refine ⟨by decide, by decide, by decide, by decide⟩

/-! ## Claims on the path the upstream sees -/

theorem ProxyHandler.plan_execute_path (std : Stdlib) (endpoint : Endpoint) (cfg : Config)
    (r : Request) (targetURL : URL)
    (hu : std.urlParse (ProcessTemplates std.getenv endpoint.RemoteURL) = some targetURL)
    (hn : ∀ t, ProxyHandler.targetURL std endpoint r = some t →
      ∃ u, std.newRequest r.Method (std.urlString t) = some u ∧ u.Path = t.Path) :
    ∃ proxyReq timeout, ProxyHandler.plan std endpoint cfg r = .execute proxyReq timeout ∧
      proxyReq.URL.Path = strings.TrimSuffix targetURL.Path "/" ++
        (if (strings.TrimPrefix r.URL.Path endpoint.Path = "" ||
              decide ((strings.TrimPrefix r.URL.Path endpoint.Path).data.head? ≠ some '/')) = true
          then "/" ++ strings.TrimPrefix r.URL.Path endpoint.Path
          else strings.TrimPrefix r.URL.Path endpoint.Path) := by
  have ht := ProxyHandler.targetURL_eq std endpoint r targetURL hu
  obtain ⟨u, hu2, hpath⟩ := hn _ ht
  exact ⟨_, _, ProxyHandler.plan_of_newRequest std endpoint cfg r _ u ht hu2, hpath⟩

/-- C30 (counterexample): for the request path `/api//users`, the endpoint
configured as `/api` sends `/v1//users` upstream and the endpoint configured as
`/api/` sends `/v1/users`. -/
theorem trailing_slash_config_differs_on_double_slash :
    (match ProxyHandler.plan sampleStdlib { Path := "/api", RemoteURL := "http://up.example/v1" }
        {} { URL := { Path := "/api//users" } } with
      | .execute proxyReq _ => proxyReq.URL.Path
      | .fail _ _ => "") = "/v1//users" ∧
    (match ProxyHandler.plan sampleStdlib { Path := "/api/", RemoteURL := "http://up.example/v1" }
        {} { URL := { Path := "/api//users" } } with
      | .execute proxyReq _ => proxyReq.URL.Path
      | .fail _ _ => "") = "/v1/users" ∧
    strings.HasPrefix "/api//users" ("/api" ++ "/") = true ∧
    strings.HasSuffix "/api" "/" = false := by
  refine ⟨by rfl, by rfl, by decide, by decide⟩

/-- C30 (amended): for a request path `p ++ "/" ++ rest` in which `rest` does
not begin with `/`, the proxy handler of an endpoint configured with path `p`
and the one of the same endpoint configured with path `p ++ "/"` take the same
decision; when the remote URL parses and `http.NewRequest` succeeds on the
rendered target URL and gives back its path, both send the target path
`b ++ "/" ++ rest` upstream, `b` being the remote base path without one
trailing slash. -/
theorem ProxyHandler_trailing_slash_config (std : Stdlib) (endpoint : Endpoint) (cfg : Config)
    (r : Request) (rest : String)
    (hp : r.URL.Path = endpoint.Path ++ "/" ++ rest)
    (hrest : strings.HasPrefix rest "/" = false) :
    ProxyHandler.plan std endpoint cfg r
      = ProxyHandler.plan std { endpoint with Path := endpoint.Path ++ "/" } cfg r ∧
    (∀ targetURL,
      std.urlParse (ProcessTemplates std.getenv endpoint.RemoteURL) = some targetURL →
      (∀ t, ProxyHandler.targetURL std { endpoint with Path := endpoint.Path ++ "/" } r = some t →
        ∃ u, std.newRequest r.Method (std.urlString t) = some u ∧ u.Path = t.Path) →
      ∃ proxyReq timeout,
        ProxyHandler.plan std { endpoint with Path := endpoint.Path ++ "/" } cfg r
          = .execute proxyReq timeout ∧
        proxyReq.URL.Path = strings.TrimSuffix targetURL.Path "/" ++ ("/" ++ rest)) := by
  have h1 : strings.TrimPrefix r.URL.Path endpoint.Path = "/" ++ rest := by
    rw [hp, String.append_assoc, strings.TrimPrefix_append]
  have h2 : strings.TrimPrefix r.URL.Path (endpoint.Path ++ "/") = rest := by
    rw [hp, strings.TrimPrefix_append]
  have hhead : ¬ rest.data.head? = some '/' := by
    intro h
    rw [(strings.head_slash_iff rest).1 h] at hrest
    exact absurd hrest (by simp)
  have hslash : ("/" ++ rest : String).data.head? = some '/' := by
    simp
  have hne : ("/" ++ rest : String) ≠ "" := by
    intro h
    have := congrArg (fun s : String => s.data.length) h
    simp at this
  constructor
  · have ht : ProxyHandler.targetURL std endpoint r
        = ProxyHandler.targetURL std { endpoint with Path := endpoint.Path ++ "/" } r := by
      unfold ProxyHandler.targetURL
      simp only [ProcessEndpointTemplates, h1, h2, hhead, hslash, hne]
      simp [hhead]
    unfold ProxyHandler.plan
    rw [ht]
    simp [ProcessEndpointTemplates, Config.GetEffectiveTimeout]
  · intro targetURL hu hn
    obtain ⟨proxyReq, timeout, hplan, hpath⟩ :=
      ProxyHandler.plan_execute_path std { endpoint with Path := endpoint.Path ++ "/" } cfg r
        targetURL hu hn
    refine ⟨proxyReq, timeout, hplan, ?_⟩
    rw [hpath]
    simp only [h2, hhead]
    simp [hhead]

/-- Witness for C30: the request path `/api/users` against `/api` and `/api/`. -/
theorem ProxyHandler_trailing_slash_config_witness :
    ProxyHandler.plan sampleStdlib { Path := "/api", RemoteURL := "http://up.example/v1" } {}
        { URL := { Path := "/api/users" } }
      = ProxyHandler.plan sampleStdlib
          { Path := "/api" ++ "/", RemoteURL := "http://up.example/v1" } {}
          { URL := { Path := "/api/users" } } :=
  (ProxyHandler_trailing_slash_config sampleStdlib
    { Path := "/api", RemoteURL := "http://up.example/v1" } {}
    { URL := { Path := "/api/users" } } "users" (by decide) (by decide)).1

theorem strings.TrimPrefix_ends_slash (q pre : String) :
    strings.TrimPrefix (q ++ "/") pre = "" ∨
    ∃ u : String, strings.TrimPrefix (q ++ "/") pre = u ++ "/" := by
  by_cases h : strings.HasPrefix (q ++ "/") pre = true
  · obtain ⟨t, ht⟩ := (strings.HasPrefix_iff _ _).1 h
    rw [ht, strings.TrimPrefix_append]
    rcases List.eq_nil_or_concat t.data with hnil | ⟨L, b, hL⟩
    · exact Or.inl (String.ext hnil)
    · right
      rw [List.concat_eq_append] at hL
      have hd := congrArg String.data ht
      have hsl : ("/" : String).data = ['/'] := rfl
      simp only [String.data_append, hsl, hL] at hd
      rw [← List.append_assoc] at hd
      have hb := (List.append_inj' hd rfl).2
      simp only [List.cons.injEq, and_true] at hb
      exact ⟨⟨L⟩, String.ext (by simp [hL, hsl, ← hb])⟩
  · right
    refine ⟨q, ?_⟩
    unfold strings.TrimPrefix
    simp [h]

/-- C29: when the normaliser rewrites the request path (it appends `/`) and the
mux selects an endpoint, the composed handler runs that endpoint's proxy
handler on the rewritten request, and the target path of the outbound request
ends with `/` (the remote URL parses, and `http.NewRequest` keeps the path of
the target it is given); endpoint `/api` with remote base path `/v1` and
request `/api/users` gives the upstream path `/v1/users/`. -/
theorem upstream_sees_normalized_path (std : Stdlib) (cfg : Config) (mux : ServeMux)
    (e : Endpoint) (r : Request) (w : ResponseWriter) (targetURL : URL)
    (hrw : TrailingSlash.normalize r.URL.Path ≠ r.URL.Path)
    (hd : dispatch mux r = .handler (.endpoint e))
    (hu : std.urlParse (ProcessTemplates std.getenv e.RemoteURL) = some targetURL)
    (hn : ∀ t, ProxyHandler.targetURL std e
        { r with URL := { r.URL with Path := r.URL.Path ++ "/" } } = some t →
      ∃ u, std.newRequest r.Method (std.urlString t) = some u ∧ u.Path = t.Path) :
    TrailingSlash.normalize r.URL.Path = r.URL.Path ++ "/" ∧
    ServeHTTP std cfg mux r w
      = CORS cfg.CORS (ProxyHandler std e cfg)
          { r with URL := { r.URL with Path := r.URL.Path ++ "/" } } w ∧
    (∃ proxyReq timeout,
      ProxyHandler.plan std e cfg { r with URL := { r.URL with Path := r.URL.Path ++ "/" } }
        = .execute proxyReq timeout ∧
      ∃ u : String, proxyReq.URL.Path = u ++ "/") ∧
    TrailingSlash.normalize "/api/users" = "/api/users/" ∧
    (match ProxyHandler.plan sampleStdlib { Path := "/api", RemoteURL := "http://up.example/v1" }
        {} { URL := { Path := TrailingSlash.normalize "/api/users" } } with
      | .execute proxyReq _ => proxyReq.URL.Path
      | .fail _ _ => "") = "/v1/users/" := by
  have hnorm : TrailingSlash.normalize r.URL.Path = r.URL.Path ++ "/" := by
    unfold TrailingSlash.normalize at hrw ⊢
    split_ifs at hrw ⊢ with hc
    · rfl
    · exact absurd rfl hrw
  refine ⟨hnorm, ?_, ?_, by decide, by rfl⟩
  · unfold ServeHTTP
    rw [TrailingSlash_eq_normalize]
    unfold dispatch at hd
    rw [hnorm] at hd
    simp only [hnorm, hd]
  · obtain ⟨proxyReq, timeout, hplan, hpath⟩ :=
      ProxyHandler.plan_execute_path std e cfg
        { r with URL := { r.URL with Path := r.URL.Path ++ "/" } } targetURL hu hn
    refine ⟨proxyReq, timeout, hplan, ?_⟩
    rw [hpath]
    simp only
    rcases strings.TrimPrefix_ends_slash r.URL.Path e.Path with h0 | ⟨u, hu2⟩
    · rw [h0]
      exact ⟨strings.TrimSuffix targetURL.Path "/", by simp⟩
    · rw [hu2]
      split_ifs
      · exact ⟨strings.TrimSuffix targetURL.Path "/" ++ ("/" ++ u), by
          simp [String.append_assoc]⟩
      · exact ⟨strings.TrimSuffix targetURL.Path "/" ++ u, by simp [String.append_assoc]⟩

/-- Witness for C29: endpoint `/api`, request `/api/users`. -/
theorem upstream_sees_normalized_path_witness :
    ServeHTTP sampleStdlib {}
        { entries := [("/api/", .endpoint { Path := "/api", RemoteURL := "http://up.example/v1" })] }
        { URL := { Path := "/api/users" } } {}
      = CORS {} (ProxyHandler sampleStdlib { Path := "/api", RemoteURL := "http://up.example/v1" } {})
          { URL := { Path := "/api/users" ++ "/" } } {} :=
  (upstream_sees_normalized_path sampleStdlib {}
    { entries := [("/api/", .endpoint { Path := "/api", RemoteURL := "http://up.example/v1" })] }
    { Path := "/api", RemoteURL := "http://up.example/v1" } { URL := { Path := "/api/users" } } {}
    { Scheme := "http", Host := "up.example", Path := "/v1" }
    (by decide) (by decide) rfl (fun t ht => Option.some.inj ht ▸ ⟨_, rfl, rfl⟩)).2.1

/-! ## Claims on route registration -/

/-- C23 (evaluation at the failing input): a configuration with the two
endpoints `/users` and `/users/`, neither of them reserved, passes
`validateConfig`; both are to be registered under `/users/`, the second
`mux.Handle` panics on the pattern the first one registered, and
`registerRoutes` produces no route table and no counters at all, whereas the
first endpoint alone is registered and counted. -/
theorem colliding_endpoints_are_not_registered :
    validateConfig sampleStdlib
      { Server := { DefaultTimeout := "10s" },
        Endpoints := [{ Path := "/users", RemoteURL := "http://a.example" },
                      { Path := "/users/", RemoteURL := "http://b.example" }] } = none ∧
    strings.TrimSuffix "/users" "/" ≠ "/forward" ∧
    strings.TrimSuffix "/users/" "/" ≠ "/forward" ∧
    registeredPath "/users" = "/users/" ∧ registeredPath "/users/" = "/users/" ∧
    registerRoutes
      { Server := { DefaultTimeout := "10s" },
        Endpoints := [{ Path := "/users", RemoteURL := "http://a.example" },
                      { Path := "/users/", RemoteURL := "http://b.example" }] } = none ∧
    registerRoutes
      { Server := { DefaultTimeout := "10s" },
        Endpoints := [{ Path := "/users", RemoteURL := "http://a.example" }] }
      = some { mux := { entries :=
                 [("/users/", .endpoint { Path := "/users", RemoteURL := "http://a.example" })] },
               registeredCount := 1, skippedCount := 0 } := by
  refine ⟨by decide, by decide, by decide, by decide, by decide, by decide, by decide⟩

/-- C24 (counterexample): the endpoint a request is dispatched to is not the one
with the longest registered path the normalised request path begins with, in
either order of registration.  The mux reads a configured path as a pattern:
with the endpoints `/u/{id}` and `/` the request `/u/42/x` goes to `/u/{id}`,
whose registered path is no prefix of `/u/42/x/`; likewise `/a%41` takes
`/aA/x`, `/a//b` takes `/a/x/b`, and the endpoint `api` takes the requests for
the host `api`.  A request whose raw path holds an escaped slash is matched on
the raw path and misses the endpoint `/a/b` its path begins with.  A request
whose path is not clean, or is a registered path short of its slash and left
alone by the normaliser, is redirected.  The path of a `CONNECT` request is
matched as it stands, its first character skipped: the path `xa` goes to the
endpoint `/a`.  A request whose URI is `*` while its path is `/a/x` is
answered 400 by the mux. -/
theorem dispatch_is_not_by_longest_prefix :
    (∀ es ∈ [[({ Path := "/u/{id}", RemoteURL := "http://a.example" } : Endpoint),
              { Path := "/", RemoteURL := "http://b.example" }],
             [{ Path := "/", RemoteURL := "http://b.example" },
              { Path := "/u/{id}", RemoteURL := "http://a.example" }]],
      (registerRoutes { Endpoints := es }).map
        (fun reg => dispatch reg.mux { URL := { Path := "/u/42/x" } })
        = some (.handler (.endpoint { Path := "/u/{id}", RemoteURL := "http://a.example" }))) ∧
    TrailingSlash.normalize "/u/42/x" = "/u/42/x/" ∧
    strings.HasPrefix "/u/42/x/" (registeredPath "/u/{id}") = false ∧
    strings.HasPrefix "/u/42/x/" (registeredPath "/") = true ∧
    (∀ es ∈ [[({ Path := "/a%41", RemoteURL := "http://a.example" } : Endpoint),
              { Path := "/", RemoteURL := "http://b.example" }],
             [{ Path := "/", RemoteURL := "http://b.example" },
              { Path := "/a%41", RemoteURL := "http://a.example" }]],
      (registerRoutes { Endpoints := es }).map
        (fun reg => dispatch reg.mux { URL := { Path := "/aA/x" } })
        = some (.handler (.endpoint { Path := "/a%41", RemoteURL := "http://a.example" }))) ∧
    (∀ es ∈ [[({ Path := "/a//b", RemoteURL := "http://a.example" } : Endpoint),
              { Path := "/", RemoteURL := "http://b.example" }],
             [{ Path := "/", RemoteURL := "http://b.example" },
              { Path := "/a//b", RemoteURL := "http://a.example" }]],
      (registerRoutes { Endpoints := es }).map
        (fun reg => dispatch reg.mux { URL := { Path := "/a/x/b" } })
        = some (.handler (.endpoint { Path := "/a//b", RemoteURL := "http://a.example" }))) ∧
    (∀ es ∈ [[({ Path := "api", RemoteURL := "http://a.example" } : Endpoint),
              { Path := "/", RemoteURL := "http://b.example" }],
             [{ Path := "/", RemoteURL := "http://b.example" },
              { Path := "api", RemoteURL := "http://a.example" }]],
      (registerRoutes { Endpoints := es }).map
        (fun reg => dispatch reg.mux { URL := { Path := "/x" }, Host := "api" })
        = some (.handler (.endpoint { Path := "api", RemoteURL := "http://a.example" }))) ∧
    (∀ es ∈ [[({ Path := "/a/b", RemoteURL := "http://a.example" } : Endpoint),
              { Path := "/", RemoteURL := "http://b.example" }],
             [{ Path := "/", RemoteURL := "http://b.example" },
              { Path := "/a/b", RemoteURL := "http://a.example" }]],
      (registerRoutes { Endpoints := es }).map
        (fun reg => dispatch reg.mux { URL := { Path := "/a/b/", RawPath := "/a%2Fb/" } })
        = some (.handler (.endpoint { Path := "/", RemoteURL := "http://b.example" }))) ∧
    (registerRoutes { Endpoints := [{ Path := "/api", RemoteURL := "http://a.example" }] }).map
      (fun reg => dispatch reg.mux { URL := { Path := "/api//users", RawQuery := "a=1" } })
      = some (.redirect { Path := "/api/users/", RawQuery := "a=1" }) ∧
    (registerRoutes
        { Endpoints := [{ Path := "/files/data.json", RemoteURL := "http://a.example" }] }).map
      (fun reg => dispatch reg.mux { URL := { Path := "/files/data.json" } })
      = some (.redirect { Path := "/files/data.json/" }) ∧
    (∀ es ∈ [[({ Path := "/a", RemoteURL := "http://a.example" } : Endpoint),
              { Path := "/", RemoteURL := "http://b.example" }],
             [{ Path := "/", RemoteURL := "http://b.example" },
              { Path := "/a", RemoteURL := "http://a.example" }]],
      (registerRoutes { Endpoints := es }).map
        (fun reg => dispatch reg.mux { Method := "CONNECT", URL := { Path := "xa" } })
        = some (.handler (.endpoint { Path := "/a", RemoteURL := "http://a.example" }))) ∧
    TrailingSlash.normalize "xa" = "xa/" ∧
    strings.HasPrefix "xa/" (registeredPath "/a") = false ∧
    (∀ es ∈ [[({ Path := "/a", RemoteURL := "http://a.example" } : Endpoint),
              { Path := "/", RemoteURL := "http://b.example" }],
             [{ Path := "/", RemoteURL := "http://b.example" },
              { Path := "/a", RemoteURL := "http://a.example" }]],
      (registerRoutes { Endpoints := es }).map
        (fun reg => dispatch reg.mux { URL := { Path := "/a/x" }, RequestURI := "*" })
        = some .badRequest) := by
  refine ⟨by decide, by decide, by decide, by decide, by decide, by decide, by decide, by decide,
    by decide, by decide, by decide, by decide, by decide, by decide⟩

/-- C24 (amended): for every endpoint list whose registered paths (configured
path with a trailing slash ensured) are plain rooted paths (a leading `/`, no
blank, `{` or `%`, no empty segment) and pairwise distinct, and every
permutation of it, both registrations succeed and, for every request, the
routing decision and the response of the composed handler are the same under
both orders.  Whenever a request without raw path (and, if its method is
`CONNECT`, with a normalised path that begins with `/`) is dispatched to a
handler, that handler is the proxy handler of an endpoint of the list whose
path is not reserved and whose registered path is a prefix of the normalised
request path strictly longer than every other registered prefix.  A request
without raw path, whose URI is `*` only if its path is, is so dispatched
whenever its normalised path is clean, has a registered prefix, and either
ends in `/` or is no registered path short of its trailing slash (otherwise
the mux gives the same answer under both orders). -/
theorem registration_order_irrelevant (server : ServerConfig) (cors : CORSConfig)
    (es es' : List Endpoint) (hperm : es.Perm es')
    (hnd : (es.map (fun e => registeredPath e.Path)).Nodup)
    (hlit : ∀ e ∈ es, ServeMux.literalPattern (registeredPath e.Path) = true) :
    ∃ reg reg',
      registerRoutes { Server := server, CORS := cors, Endpoints := es } = some reg ∧
      registerRoutes { Server := server, CORS := cors, Endpoints := es' } = some reg' ∧
      ∀ r : Request,
        dispatch reg.mux r = dispatch reg'.mux r ∧
        (∀ (std : Stdlib) (w : ResponseWriter),
          ServeHTTP std { Server := server, CORS := cors, Endpoints := es } reg.mux r w
            = ServeHTTP std { Server := server, CORS := cors, Endpoints := es' } reg'.mux r w) ∧
        (r.URL.RawPath = "" →
          (r.Method = "CONNECT" →
            strings.HasPrefix (TrailingSlash.normalize r.URL.Path) "/" = true) →
          ∀ t, dispatch reg.mux r = .handler t →
          ∃ e ∈ es, t = .endpoint e ∧ ¬ (e.Path = "/forward" ∨ e.Path = "/forward/") ∧
            strings.HasPrefix (TrailingSlash.normalize r.URL.Path) (registeredPath e.Path)
              = true ∧
            ∀ e2 ∈ es, e2 ≠ e → ¬ (e2.Path = "/forward" ∨ e2.Path = "/forward/") →
              strings.HasPrefix (TrailingSlash.normalize r.URL.Path) (registeredPath e2.Path)
                = true →
              (registeredPath e2.Path).length < (registeredPath e.Path).length) ∧
        (r.URL.RawPath = "" → (r.RequestURI = "*" → r.URL.Path = "*") →
          ServeMux.cleanPath (TrailingSlash.normalize r.URL.Path)
            = TrailingSlash.normalize r.URL.Path →
          (strings.HasSuffix (TrailingSlash.normalize r.URL.Path) "/" = true ∨
            ∀ e ∈ es, registeredPath e.Path ≠ TrailingSlash.normalize r.URL.Path ++ "/") →
          (∃ e2 ∈ es, ¬ (e2.Path = "/forward" ∨ e2.Path = "/forward/") ∧
            strings.HasPrefix (TrailingSlash.normalize r.URL.Path) (registeredPath e2.Path)
              = true) →
          ∃ e, dispatch reg.mux r = .handler (.endpoint e)) := by
  have hk : ((es.filter (fun e => !isReservedPath e.Path)).map
      (fun e => registeredPath e.Path)).Nodup :=
    List.Nodup.sublist ((List.filter_sublist _).map _) hnd
  have hpk : ((es.filter (fun e => !isReservedPath e.Path)).map
      (fun e => (registeredPath e.Path, RouteTarget.endpoint e))).Perm
      ((es'.filter (fun e => !isReservedPath e.Path)).map
      (fun e => (registeredPath e.Path, RouteTarget.endpoint e))) :=
    (hperm.filter _).map _
  have hk' : ((es'.filter (fun e => !isReservedPath e.Path)).map
      (fun e => registeredPath e.Path)).Nodup :=
    (((hperm.filter _).map _).nodup_iff).1 hk
  have hlit' : ∀ e ∈ es', ServeMux.literalPattern (registeredPath e.Path) = true :=
    fun e he => hlit e (hperm.mem_iff.2 he)
  have hkept : ∀ e ∈ es.filter (fun e => !isReservedPath e.Path),
      ServeMux.literalPattern (registeredPath e.Path) = true :=
    fun e h => hlit e (List.mem_filter.1 h).1
  have hreg := registerRoutes_spec { Server := server, CORS := cors, Endpoints := es }
    (fun e he _ => hlit e he) hk
  have hreg' := registerRoutes_spec { Server := server, CORS := cors, Endpoints := es' }
    (fun e he _ => hlit' e he) hk'
  have hkeys := routeEntries_nodup (server.ForwardEndpointEnabled = some true) _ hk
  have hl := routeEntries_literal (server.ForwardEndpointEnabled = some true) _ hkept
  have hpe := List.Perm.append_left
    (if server.ForwardEndpointEnabled = some true
      then [(("/forward" : String), RouteTarget.forward)] else []) hpk
  refine ⟨_, _, hreg, hreg', ?_⟩
  intro r
  have hdisp := dispatch_perm _ _ hpe hl hkeys r
  have hexact := routeEntries_exact (server.ForwardEndpointEnabled = some true)
    (es.filter (fun e => !isReservedPath e.Path)) r.URL.Path
  have hmem : ∀ e ∈ es, ¬ (e.Path = "/forward" ∨ e.Path = "/forward/") →
      (registeredPath e.Path, RouteTarget.endpoint e) ∈
        (if server.ForwardEndpointEnabled = some true
          then [(("/forward" : String), RouteTarget.forward)] else []) ++
        (es.filter (fun e => !isReservedPath e.Path)).map
          (fun e => (registeredPath e.Path, RouteTarget.endpoint e)) := by
    intro e he hres
    refine List.mem_append_right _ (List.mem_map.2 ⟨e, List.mem_filter.2 ⟨he, ?_⟩, rfl⟩)
    have : isReservedPath e.Path ≠ true := fun h => hres ((isReservedPath_iff _).1 h)
    simpa using this
  have hc : r.URL.RawPath = "" →
      (r.Method = "CONNECT" →
        strings.HasPrefix (TrailingSlash.normalize r.URL.Path) "/" = true) →
      ∀ t, dispatch
      { entries := (if server.ForwardEndpointEnabled = some true
          then [(("/forward" : String), RouteTarget.forward)] else []) ++
        (es.filter (fun e => !isReservedPath e.Path)).map
          (fun e => (registeredPath e.Path, RouteTarget.endpoint e)) } r = .handler t →
      ∃ e ∈ es, t = .endpoint e ∧ ¬ (e.Path = "/forward" ∨ e.Path = "/forward/") ∧
        strings.HasPrefix (TrailingSlash.normalize r.URL.Path) (registeredPath e.Path) = true ∧
        ∀ e2 ∈ es, e2 ≠ e → ¬ (e2.Path = "/forward" ∨ e2.Path = "/forward/") →
          strings.HasPrefix (TrailingSlash.normalize r.URL.Path) (registeredPath e2.Path)
            = true →
          (registeredPath e2.Path).length < (registeredPath e.Path).length := by
    intro hraw hconnect t ht
    have hroot : strings.HasPrefix (TrailingSlash.normalize r.URL.Path) "/" = true := by
      by_cases hm : r.Method = "CONNECT"
      · exact hconnect hm
      · exact dispatch_rooted _ r t hm hraw ht
    obtain ⟨x, hx, hxt, hxs, hxm, hmax⟩ := dispatch_handler_literal _ hl r t hraw hroot hexact ht
    rcases List.mem_append.1 hx with hx1 | hx2
    · exfalso
      split_ifs at hx1
      · rw [List.mem_singleton.1 hx1, forward_no_slash] at hxs
        exact absurd hxs (by simp)
      · simp at hx1
    · obtain ⟨e, hek, rfl⟩ := List.mem_map.1 hx2
      have hek2 := List.mem_filter.1 hek
      have hres : ¬ (e.Path = "/forward" ∨ e.Path = "/forward/") := by
        intro h
        have := (isReservedPath_iff _).2 h
        simp [this] at hek2
      refine ⟨e, hek2.1, hxt.symm, hres, hxm, ?_⟩
      intro e2 he2 hne hres2 hpre2
      have hle := hmax _ (hmem e2 he2 hres2) (registeredPath_suffix e2.Path) hpre2
      rcases Nat.lt_or_ge (registeredPath e2.Path).length (registeredPath e.Path).length
        with hlt | hge
      · exact hlt
      · exfalso
        obtain ⟨u, hu⟩ := (strings.HasPrefix_iff _ _).1 hxm
        obtain ⟨u2, hu2⟩ := (strings.HasPrefix_iff _ _).1 hpre2
        have hkey : registeredPath e2.Path = registeredPath e.Path :=
          strings.prefix_eq_of_length _ _ u2 u (hu2.symm.trans hu) (le_antisymm hle hge)
        exact hne (List.inj_on_of_nodup_map hnd he2 hek2.1 hkey)
  refine ⟨hdisp, ?_, hc, ?_⟩
  · intro std w
    rw [ServeHTTP_eq_dispatch, ServeHTTP_eq_dispatch, hdisp]
    generalize dispatch _ r = res
    rcases res with (_ | e) | loc | _ | allow | _ <;> rfl
  · intro hraw huri hclean hno hex
    obtain ⟨e2, he2, hres2, hpre2⟩ := hex
    have hroot := rooted_of_literal_prefix _ _ (hlit e2 he2) hpre2
    obtain ⟨x, _, hx⟩ := dispatch_of_match_literal _ hl r hraw
      (requestURI_of_rooted r huri hroot) hroot hclean
      (by
        rcases hno with h | h
        · exact Or.inl h
        · right
          intro y hy
          rcases List.mem_append.1 hy with hy | hy
          · split_ifs at hy
            · rw [List.mem_singleton.1 hy]
              intro h0
              have h1 : strings.HasSuffix (TrailingSlash.normalize r.URL.Path ++ "/") "/"
                  = true := (strings.HasSuffix_iff _ _).2 ⟨_, rfl⟩
              rw [← h0, forward_no_slash] at h1
              exact absurd h1 (by simp)
            · simp at hy
          · obtain ⟨e3, he3, rfl⟩ := List.mem_map.1 hy
            exact h e3 (List.mem_filter.1 he3).1)
      hexact ⟨_, hmem e2 he2 hres2, registeredPath_suffix e2.Path, hpre2⟩
    obtain ⟨e, _, he, _⟩ := hc hraw (fun _ => hroot) x.2 hx
    exact ⟨e, by rw [← he]; exact hx⟩

/-- Witness for C24: endpoints `/api` and `/api/v1` registered in either order;
the request `/api/v1/users` goes to the `/api/v1` endpoint under both. -/
theorem registration_order_irrelevant_witness :
    ∃ reg reg',
      registerRoutes { Endpoints := [{ Path := "/api", RemoteURL := "http://a.example" },
                                     { Path := "/api/v1", RemoteURL := "http://b.example" }] }
        = some reg ∧
      registerRoutes { Endpoints := [{ Path := "/api/v1", RemoteURL := "http://b.example" },
                                     { Path := "/api", RemoteURL := "http://a.example" }] }
        = some reg' ∧
      dispatch reg.mux { URL := { Path := "/api/v1/users" } }
        = dispatch reg'.mux { URL := { Path := "/api/v1/users" } } ∧
      ∃ e, dispatch reg.mux { URL := { Path := "/api/v1/users" } } = .handler (.endpoint e) :=
  let ⟨reg, reg', h, h', hall⟩ := registration_order_irrelevant {} {}
    [{ Path := "/api", RemoteURL := "http://a.example" },
     { Path := "/api/v1", RemoteURL := "http://b.example" }]
    [{ Path := "/api/v1", RemoteURL := "http://b.example" },
     { Path := "/api", RemoteURL := "http://a.example" }]
    (List.Perm.swap _ _ []) (by decide) (by decide)
  ⟨reg, reg', h, h', (hall { URL := { Path := "/api/v1/users" } }).1,
    (hall { URL := { Path := "/api/v1/users" } }).2.2.2 rfl (by decide) (by decide)
      (Or.inl (by decide))
      ⟨{ Path := "/api/v1", RemoteURL := "http://b.example" }, by decide, by decide, by decide⟩⟩

end Corsair
